import Mathlib

/-!
Verification of the tree-layout-and-camera engine of the `treehouse`
repository (the `TreeView` canvas component): layout-tree construction from
an AST plus an expanded-path set, the Reingold-Tilford style layout pass,
hit-testing, and the camera (pan / zoom / fit) operations.

All definitions are shallow embeddings of the TypeScript source.  Pixel
coordinates are modelled by exact rationals; the text-measurement context
(an external canvas API) is modelled as an abstract function
`measure : String → ℚ` that the definitions are parameterised over.
-/

namespace Treehouse

/-- AST node as consumed by the component (`AstNode` from the parser):
`kind`, `isNamed`, optional leaf `text`, ordered children.  Byte offsets
and positions are not read by the layout/camera code and are omitted. -/
inductive AstNode : Type where
  | mk : (kind : String) → (isNamed : Bool) → (text : Option String) →
      (children : List AstNode) → AstNode

def AstNode.kind : AstNode → String
  | .mk k _ _ _ => k

def AstNode.isNamed : AstNode → Bool
  | .mk _ n _ _ => n

def AstNode.text : AstNode → Option String
  | .mk _ _ t _ => t

def AstNode.children : AstNode → List AstNode
  | .mk _ _ _ cs => cs

/-! Layout constants from the source. -/

def NODE_H : ℚ := 32
def NODE_PADDING_X : ℚ := 14
def NODE_GAP_X : ℚ := 24
def NODE_GAP_Y : ℚ := 52

/-- `getNodeLabel`: the kind, plus — for leaf nodes carrying (truthy, i.e.
nonempty) text — the quoted text truncated to 18 characters plus a two
character ellipsis marker when longer than 20 characters. -/
def getNodeLabel (node : AstNode) : String :=
  match node.text with
  | some t =>
      if t != "" && node.children.length == 0 then
        let truncated := if t.length > 20 then t.take 18 ++ ".." else t
        node.kind ++ "  \x22" ++ truncated ++ "\x22"
      else node.kind
  | none => node.kind

/-- `getNodeWidth`: measured label width plus horizontal padding, plus badge
space when the node has collapsed children, floored at 60. -/
def getNodeWidth (measure : String → ℚ) (node : AstNode)
    (hasCollapsedChildren : Bool) : ℚ :=
  let label := getNodeLabel node
  let textWidth := measure label
  let badgeExtra := if hasCollapsedChildren then measure " +99" + 8 else 0
  max 60 (textWidth + NODE_PADDING_X * 2 + badgeExtra)

/-- The pure data of a `LayoutNode` produced by `buildLayoutTree`: id (path),
the wrapped AST node, width/height, expanded flag, depth, 1-based sibling
number, visible children.  The mutable scratch fields of the algorithm
(`x`, `y`, `prelim`, `mod`, `thread`, `ancestor`, `change`, `shift`) live in
the layout state (`NS` below), initialised exactly as the source does. -/
inductive LayoutTree : Type where
  | mk : (id : String) → (node : AstNode) → (width : ℚ) → (height : ℚ) →
      (expanded : Bool) → (depth : Nat) → (number : Nat) →
      (children : List LayoutTree) → LayoutTree

def LayoutTree.id : LayoutTree → String
  | .mk i _ _ _ _ _ _ _ => i

def LayoutTree.node : LayoutTree → AstNode
  | .mk _ n _ _ _ _ _ _ => n

def LayoutTree.width : LayoutTree → ℚ
  | .mk _ _ w _ _ _ _ _ => w

def LayoutTree.height : LayoutTree → ℚ
  | .mk _ _ _ h _ _ _ _ => h

def LayoutTree.expanded : LayoutTree → Bool
  | .mk _ _ _ _ e _ _ _ => e

def LayoutTree.depth : LayoutTree → Nat
  | .mk _ _ _ _ _ d _ _ => d

def LayoutTree.number : LayoutTree → Nat
  | .mk _ _ _ _ _ _ num _ => num

def LayoutTree.children : LayoutTree → List LayoutTree
  | .mk _ _ _ _ _ _ _ cs => cs

/-- Mirror of `childNode.number = i + 1` in `buildLayoutTree`. -/
def LayoutTree.withNumber : LayoutTree → Nat → LayoutTree
  | .mk i n w h e d _ cs, num => .mk i n w h e d num cs

/-- The collapsed-children badge flag, recomputed from the stored fields the
same way `drawNode` and `getNodeWidth`-callers do. -/
def LayoutTree.hasCollapsedBadge (lt : LayoutTree) : Bool :=
  !lt.expanded && (lt.node.children.length != 0)

mutual

/-- `buildLayoutTree` from the source: a pure function of the AST node, its
path, the expanded set (a finite set of paths, modelled as a list queried by
membership) and depth.  A node's children are included iff its own path is
in the expanded set. -/
def buildLayoutTree (measure : String → ℚ) (node : AstNode) (path : String)
    (expandedNodes : List String) (depth : Nat) : LayoutTree :=
  match node with
  | .mk k n t cs =>
      let node := AstNode.mk k n t cs
      let expanded := expandedNodes.contains path
      let hasCollapsedChildren := !expanded && (cs.length != 0)
      LayoutTree.mk path node
        (getNodeWidth measure node hasCollapsedChildren) NODE_H
        expanded depth 0
        (if expanded then
          buildLayoutChildren measure cs path expandedNodes depth 0
        else [])

/-- The `visibleChildren.map((child, i) => ...)` loop of `buildLayoutTree`:
child `i` gets path `path ++ "-" ++ i` and sibling number `i + 1`. -/
def buildLayoutChildren (measure : String → ℚ) (cs : List AstNode)
    (path : String) (expandedNodes : List String) (depth : Nat) (i : Nat) :
    List LayoutTree :=
  match cs with
  | [] => []
  | c :: rest =>
      (buildLayoutTree measure c (path ++ "-" ++ toString i) expandedNodes
          (depth + 1)).withNumber (i + 1) ::
        buildLayoutChildren measure rest path expandedNodes depth (i + 1)

end

/-!
## Layout state

A `LayoutNode` is mutable in the source; we embed the node set as a state:
each node is addressed by its `Key`, the list of child indices from the root
(object identity in the source corresponds to key equality, since every node
is created exactly once at one tree position).  `NS` carries every
`LayoutNode` field; the state is the finite association list built by
`initList` (one entry per built node, in the order of construction), read
with `getS` and mutated in place with `updS`, so the layout pass mutates
only the scratch/positional fields, exactly as the source does.
-/

abbrev Key := List Nat

structure NS where
  id : String := ""
  width : ℚ := 0
  height : ℚ := 0
  expanded : Bool := false
  depth : Nat := 0
  number : Nat := 0
  children : List Key := []
  srcChildCount : Nat := 0
  x : ℚ := 0
  y : ℚ := 0
  prelim : ℚ := 0
  mod : ℚ := 0
  thread : Option Key := none
  ancestor : Key := []
  change : ℚ := 0
  shift : ℚ := 0

abbrev St := List (Key × NS)

/-- Read the state of the node with key `k` (the arbitrary default is never
hit by the algorithm: every key it touches was created by `initList`). -/
def getS : St → Key → NS
  | [], _ => {}
  | p :: rest, k => if p.1 = k then p.2 else getS rest k

/-- Mutate the node with key `k` in place. -/
def updS : St → Key → (NS → NS) → St
  | [], _, _ => []
  | p :: rest, k, f => (if p.1 = k then (p.1, f p.2) else p) :: updS rest k f

def childKeys (k : Key) (n : Nat) : List Key :=
  (List.range n).map (fun i => k ++ [i])

/-- Initial node state, as constructed by `buildLayoutTree` (`x = y = 0`,
`mod = prelim = 0`, `thread = null`, `ancestor = layoutNode` itself,
`change = shift = 0`). -/
def initNode (lt : LayoutTree) (k : Key) : NS :=
  { id := lt.id, width := lt.width, height := lt.height,
    expanded := lt.expanded, depth := lt.depth, number := lt.number,
    children := childKeys k lt.children.length,
    srcChildCount := lt.node.children.length,
    x := 0, y := 0, prelim := 0, mod := 0, thread := none,
    ancestor := k, change := 0, shift := 0 }

mutual

/-- The association list of freshly built nodes, one entry per node of the
skeleton, in depth-first construction order. -/
def initList : LayoutTree → Key → St
  | .mk i n w h e d num cs, k =>
      (k, initNode (.mk i n w h e d num cs) k) :: initListChildren cs k 0

def initListChildren : List LayoutTree → Key → Nat → St
  | [], _, _ => []
  | c :: rest, k, i => initList c (k ++ [i]) ++ initListChildren rest k (i + 1)

end

/-! ## The Reingold-Tilford pass (`firstWalk` / `apportion` / `secondWalk`) -/

/-- `nextLeft`: first child if any, else the thread. -/
def nextLeft (st : St) (v : Key) : Option Key :=
  match (getS st v).children with
  | c :: _ => some c
  | [] => (getS st v).thread

/-- `nextRight`: last child if any, else the thread. -/
def nextRight (st : St) (v : Key) : Option Key :=
  match ((getS st v).children).getLast? with
  | some c => some c
  | none => (getS st v).thread

def nextLeftO (st : St) : Option Key → Option Key
  | none => none
  | some v => nextLeft st v

def nextRightO (st : St) : Option Key → Option Key
  | none => none
  | some v => nextRight st v

/-- JavaScript `Array.prototype.indexOf` (object identity = key equality):
`-1` when absent. -/
def jsIndexOf (l : List Key) (v : Key) : Int :=
  match l.findIdx? (fun j => j == v) with
  | some i => i
  | none => -1

/-- `siblings[i]` for an index known to be in bounds (out of bounds is never
exercised by the source; an arbitrary default keeps the function total). -/
def jsGet (l : List Key) (i : Int) : Key :=
  l.getD i.toNat []

def findAncestor (st : St) (vil : Key) (defaultAncestor : Key)
    (siblings : List Key) : Key :=
  if siblings.contains (getS st vil).ancestor then (getS st vil).ancestor
  else defaultAncestor

/-- `moveSubtree(wl, wr, shift)`.  Note the source updates only `wr`
(the classic algorithm also adds `shift / subtrees` to `wl.change`; this
source omits that line). -/
def moveSubtree (wl wr : Key) (shiftAmt : ℚ) (st : St) : St :=
  let subtrees : ℤ := ((getS st wr).number : ℤ) - ((getS st wl).number : ℤ)
  if 0 < subtrees then
    updS st wr (fun ns =>
      { ns with change := ns.change - shiftAmt / (subtrees : ℚ),
                shift := ns.shift + shiftAmt,
                prelim := ns.prelim + shiftAmt,
                mod := ns.mod + shiftAmt })
  else st

/-- The `for (let i = v.children.length - 1; i >= 0; i--)` loop of
`executeShifts`, over the reversed child list. -/
def executeShiftsAux : List Key → ℚ → ℚ → St → St
  | [], _, _, st => st
  | c :: rest, shiftAcc, changeAcc, st =>
      let st2 := updS st c (fun ns =>
        { ns with prelim := ns.prelim + shiftAcc, mod := ns.mod + shiftAcc })
      let changeAcc2 := changeAcc + (getS st c).change
      let shiftAcc2 := shiftAcc + (getS st c).shift + changeAcc2
      executeShiftsAux rest shiftAcc2 changeAcc2 st2

def executeShifts (v : Key) (st : St) : St :=
  executeShiftsAux ((getS st v).children).reverse 0 0 st

/-- The cursor tuple of `apportion`'s contour loop. -/
structure ALoop where
  vIL : Option Key
  vIR : Option Key
  vOL : Option Key
  vOR : Option Key
  sIL : ℚ
  sIR : ℚ
  sOL : ℚ
  sOR : ℚ
  st : St

/-- One-to-one image of `apportion`'s `while` loop, with fuel (the loop
descends one tree level per iteration, so any fuel at least the node count
is enough; `layoutTree` passes the node count). -/
def apportionLoop (v : Key) (defaultAncestor : Key) (siblings : List Key) :
    Nat → ALoop → ALoop
  | 0, a => a
  | fuel + 1, a =>
      match nextRightO a.st a.vIL, nextLeftO a.st a.vIR with
      | some nIL, some nIR =>
          let vOL2 := nextLeftO a.st a.vOL
          let vOR2 := nextRightO a.st a.vOR
          let st2 := match vOR2 with
            | some r => updS a.st r (fun ns => { ns with ancestor := v })
            | none => a.st
          let shiftAmt := ((getS st2 nIL).prelim + a.sIL)
            - ((getS st2 nIR).prelim + a.sIR) + (getS st2 nIL).width + NODE_GAP_X
          let st3 := if 0 < shiftAmt then
              moveSubtree (findAncestor st2 nIL defaultAncestor siblings) v shiftAmt st2
            else st2
          let sIR2 := if 0 < shiftAmt then a.sIR + shiftAmt else a.sIR
          let sOR2 := if 0 < shiftAmt then a.sOR + shiftAmt else a.sOR
          apportionLoop v defaultAncestor siblings fuel
            { vIL := some nIL, vIR := some nIR, vOL := vOL2, vOR := vOR2,
              sIL := a.sIL + (getS st3 nIL).mod,
              sIR := sIR2 + (getS st3 nIR).mod,
              sOL := a.sOL +
                (match vOL2 with | some l => (getS st3 l).mod | none => 0),
              sOR := sOR2 +
                (match vOR2 with | some r => (getS st3 r).mod | none => 0),
              st := st3 }
      | _, _ => a

/-- `apportion(v, defaultAncestor, siblings)`: returns the new default
ancestor and the new state. -/
def apportion (fuel : Nat) (v : Key) (defaultAncestor : Key)
    (siblings : List Key) (st : St) : Key × St :=
  let idx := jsIndexOf siblings v
  if idx ≤ 0 then (defaultAncestor, st)
  else
    let w := jsGet siblings (idx - 1)
    let firstSib := jsGet siblings 0
    let a := apportionLoop v defaultAncestor siblings fuel
      { vIL := some w, vIR := some v, vOL := some firstSib, vOR := some v,
        sIL := (getS st w).mod, sIR := (getS st v).mod,
        sOL := (getS st firstSib).mod, sOR := (getS st v).mod, st := st }
    let st1 := a.st
    let st2 :=
      if (nextRightO st1 a.vIL).isSome && (nextRightO st1 a.vOR).isNone then
        match a.vOR with
        | some r0 => updS st1 r0 (fun ns =>
            { ns with thread := nextRightO st1 a.vIL,
                      mod := ns.mod + (a.sIL - a.sOR) })
        | none => st1
      else st1
    let cond2 := (nextLeftO st2 a.vIR).isSome && (nextLeftO st2 a.vOL).isNone
    let st3 :=
      if cond2 then
        match a.vOL with
        | some l0 => updS st2 l0 (fun ns =>
            { ns with thread := nextLeftO st2 a.vIR,
                      mod := ns.mod + (a.sIR - a.sOL) })
        | none => st2
      else st2
    (if cond2 then v else defaultAncestor, st3)

/-- The initial cursor tuple of `apportion`'s loop (proof-side name for the
record literal in `apportion`). -/
def apportionStart (v : Key) (siblings : List Key) (st : St) : ALoop :=
  { vIL := some (jsGet siblings (jsIndexOf siblings v - 1)), vIR := some v,
    vOL := some (jsGet siblings 0), vOR := some v,
    sIL := (getS st (jsGet siblings (jsIndexOf siblings v - 1))).mod,
    sIR := (getS st v).mod, sOL := (getS st (jsGet siblings 0)).mod,
    sOR := (getS st v).mod, st := st }

/-- The post-loop thread adjustments of `apportion` (proof-side name for
the tail of `apportion`'s body). -/
def apportionTail (a : ALoop) : St :=
  let st1 := a.st
  let st2 :=
    if (nextRightO st1 a.vIL).isSome && (nextRightO st1 a.vOR).isNone then
      match a.vOR with
      | some r0 => updS st1 r0 (fun ns =>
          { ns with thread := nextRightO st1 a.vIL,
                    mod := ns.mod + (a.sIL - a.sOR) })
      | none => st1
    else st1
  if (nextLeftO st2 a.vIR).isSome && (nextLeftO st2 a.vOL).isNone then
    match a.vOL with
    | some l0 => updS st2 l0 (fun ns =>
        { ns with thread := nextLeftO st2 a.vIR,
                  mod := ns.mod + (a.sIR - a.sOL) })
    | none => st2
  else st2

mutual

/-- `firstWalk(v, siblings)`: the bottom-up pass.  The skeleton `lt` (the
pure `buildLayoutTree` output) drives the recursion; all reads and writes go
through the state at the node keys. -/
def firstWalk (fuel : Nat) : LayoutTree → Key → List Key → St → St
  | .mk _ _ _ _ _ _ _ cs, k, siblings, st =>
      if cs.isEmpty then
        let idx := jsIndexOf siblings k
        if 0 < idx then
          let ls := jsGet siblings (idx - 1)
          updS st k (fun ns =>
            { ns with prelim := (getS st ls).prelim + (getS st ls).width
                + NODE_GAP_X })
        else
          updS st k (fun ns => { ns with prelim := 0 })
      else
        let childKs := childKeys k cs.length
        let da0 := jsGet childKs 0
        let r := firstWalkChildren fuel cs k childKs 0 da0 st
        let st2 := executeShifts k r.2
        let fc := jsGet childKs 0
        let lc := jsGet childKs ((childKs.length : Int) - 1)
        let midpoint := ((getS st2 fc).prelim + (getS st2 lc).prelim
          + (getS st2 lc).width - (getS st2 k).width) / 2
        let idx := jsIndexOf siblings k
        if 0 < idx then
          let ls := jsGet siblings (idx - 1)
          let newPrelim := (getS st2 ls).prelim + (getS st2 ls).width
            + NODE_GAP_X
          updS st2 k (fun ns =>
            { ns with prelim := newPrelim, mod := newPrelim - midpoint })
        else
          updS st2 k (fun ns => { ns with prelim := midpoint })

/-- The `for (const child of v.children)` loop of `firstWalk`: recurse into
the child, then apportion it, threading the default ancestor. -/
def firstWalkChildren (fuel : Nat) : List LayoutTree → Key → List Key → Nat →
    Key → St → Key × St
  | [], _, _, _, da, st => (da, st)
  | c :: rest, k, childKs, i, da, st =>
      let st1 := firstWalk fuel c (k ++ [i]) childKs st
      let r := apportion fuel (k ++ [i]) da childKs st1
      firstWalkChildren fuel rest k childKs (i + 1) r.1 r.2

end

mutual

/-- `secondWalk(v, m, depth)`: top-down accumulation of modifiers into `x`,
and `y` from the depth. -/
def secondWalk : LayoutTree → Key → ℚ → Nat → St → St
  | .mk _ _ _ _ _ _ _ cs, k, m, depth, st =>
      let st1 := updS st k (fun ns =>
        { ns with x := ns.prelim + m,
                  y := (depth : ℚ) * (NODE_H + NODE_GAP_Y) })
      secondWalkChildren cs k (m + (getS st1 k).mod) (depth + 1) 0 st1

def secondWalkChildren : List LayoutTree → Key → ℚ → Nat → Nat → St → St
  | [], _, _, _, _, st => st
  | c :: rest, k, m, depth, i, st =>
      secondWalkChildren rest k m depth (i + 1) (secondWalk c (k ++ [i]) m depth st)

end

mutual

/-- All node keys of the subtree rooted at key `k`, in the depth-first
pre-order used by both `collectNodes` and the normalization walk. -/
def allKeys : LayoutTree → Key → List Key
  | .mk _ _ _ _ _ _ _ cs, k => k :: allKeysChildren cs k 0

def allKeysChildren : List LayoutTree → Key → Nat → List Key
  | [], _, _ => []
  | c :: rest, k, i => allKeys c (k ++ [i]) ++ allKeysChildren rest k (i + 1)

end

/-- `layoutTree(root)`: first walk, second walk, then translate so that the
minimum `x` becomes `0` whenever it was negative. -/
def layoutTree (lt : LayoutTree) (st : St) : St :=
  let ks := allKeys lt []
  let fuel := ks.length
  let st1 := firstWalk fuel lt [] [[]] st
  let st2 := secondWalk lt [] 0 0 st1
  let minX := ks.foldl (fun acc k => min acc (getS st2 k).x)
    ((getS st2 ([] : Key)).x)
  if minX < 0 then
    ks.foldl (fun acc k => updS acc k (fun ns => { ns with x := ns.x - minX }))
      st2
  else st2

/-- The layout pass exactly as the component runs it: fresh state built by
`buildLayoutTree`, then `layoutTree`. -/
def runLayout (lt : LayoutTree) : St :=
  layoutTree lt (initList lt [])

/-- The `useMemo` pipeline: `buildLayoutTree(ast, 'root', expandedNodes, 0)`
followed by `layoutTree`. -/
def layoutOf (measure : String → ℚ) (ast : AstNode) (s : List String) : St :=
  runLayout (buildLayoutTree measure ast "root" s 0)

/-- `treeBounds` from the `useMemo`: running max of `x + width` and
`y + height` over all collected nodes, starting from `(0, 0)`. -/
def treeBounds (lt : LayoutTree) (st : St) : ℚ × ℚ :=
  (allKeys lt []).foldl
    (fun acc k => (max acc.1 ((getS st k).x + (getS st k).width),
                   max acc.2 ((getS st k).y + (getS st k).height))) (0, 0)

/-!
## Properties of the layout (formalizations of spec sentences)
-/

/-- Left edge of the horizontal extent of the subtree rooted at key `k`
(skeleton `lt`): the minimum `x` over all its nodes. -/
def extentLo (st : St) (lt : LayoutTree) (k : Key) : ℚ :=
  (allKeys lt k).foldl (fun acc j => min acc (getS st j).x) ((getS st k).x)

/-- Right edge of the horizontal extent of the subtree rooted at key `k`:
the maximum `x + width` over all its nodes. -/
def extentHi (st : St) (lt : LayoutTree) (k : Key) : ℚ :=
  (allKeys lt k).foldl (fun acc j => max acc ((getS st j).x + (getS st j).width))
    ((getS st k).x + (getS st k).width)

/-- The claimed property at one sibling list: the horizontal extents of any
two distinct sibling subtrees do not overlap and are separated by at least
`NODE_GAP_X`. -/
def SiblingPairsOk (st : St) (cs : List LayoutTree) (k : Key) : Prop :=
  ∀ i j (hi : i < cs.length) (hj : j < cs.length), i < j →
    extentHi st (cs.get ⟨i, hi⟩) (k ++ [i]) + NODE_GAP_X ≤
      extentLo st (cs.get ⟨j, hj⟩) (k ++ [j])

mutual

/-- The claimed C1 property over a whole layout: every sibling list of the
tree satisfies `SiblingPairsOk`. -/
def SiblingExtentsOk (st : St) : LayoutTree → Key → Prop
  | .mk _ _ _ _ _ _ _ cs, k =>
      SiblingPairsOk st cs k ∧ SiblingExtentsOkChildren st cs k 0

def SiblingExtentsOkChildren (st : St) : List LayoutTree → Key → Nat → Prop
  | [], _, _ => True
  | c :: rest, k, i =>
      SiblingExtentsOk st c (k ++ [i]) ∧ SiblingExtentsOkChildren st rest k (i + 1)

end

/-- The sibling-ROOT separation property at one sibling list: the boxes of
any two distinct sibling nodes themselves (not their whole subtrees) are
disjoint and separated by at least `NODE_GAP_X`. -/
def SiblingRootsOk (st : St) (n : Nat) (k : Key) : Prop :=
  ∀ i j, i < j → j < n →
    (getS st (k ++ [i])).x + (getS st (k ++ [i])).width + NODE_GAP_X ≤
      (getS st (k ++ [j])).x

mutual

def SiblingRootsAllOk (st : St) : LayoutTree → Key → Prop
  | .mk _ _ _ _ _ _ _ cs, k =>
      SiblingRootsOk st cs.length k ∧ SiblingRootsAllOkChildren st cs k 0

def SiblingRootsAllOkChildren (st : St) : List LayoutTree → Key → Nat → Prop
  | [], _, _ => True
  | c :: rest, k, i =>
      SiblingRootsAllOk st c (k ++ [i]) ∧
        SiblingRootsAllOkChildren st rest k (i + 1)

end

/-- The claimed C2 property at one node `k` with `n` visible children and
(optional) adjacent left sibling `lsib`: either the node's center is the
midpoint of its first and last child's centers, or it sits exactly at
`leftSibling.x + leftSibling.width + NODE_GAP_X`. -/
def C2At (st : St) (k : Key) (n : Nat) (lsib : Option Key) : Prop :=
  0 < n →
    (2 * ((getS st k).x + (getS st k).width / 2) =
        ((getS st (k ++ [0])).x + (getS st (k ++ [0])).width / 2) +
          ((getS st (k ++ [n - 1])).x + (getS st (k ++ [n - 1])).width / 2) ∨
      match lsib with
      | some ls => (getS st k).x = (getS st ls).x + (getS st ls).width + NODE_GAP_X
      | none => False)

mutual

def C2ClaimHolds (st : St) : LayoutTree → Key → Option Key → Prop
  | .mk _ _ _ _ _ _ _ cs, k, lsib =>
      C2At st k cs.length lsib ∧ C2ClaimHoldsChildren st cs k 0

def C2ClaimHoldsChildren (st : St) : List LayoutTree → Key → Nat → Prop
  | [], _, _ => True
  | c :: rest, k, i =>
      C2ClaimHolds st c (k ++ [i])
          (if i = 0 then none else some (k ++ [i - 1])) ∧
        C2ClaimHoldsChildren st rest k (i + 1)

end

/-- The amended C2 property at one node: the node's center is the midpoint
of the SPAN of its children — the midpoint of the first child's left edge
and the last child's right edge (this agrees with the midpoint of centers
exactly when the first and last child have equal widths). -/
def SpanMidAt (st : St) (k : Key) (n : Nat) : Prop :=
  0 < n →
    2 * (getS st k).x + (getS st k).width =
      (getS st (k ++ [0])).x + (getS st (k ++ [n - 1])).x +
        (getS st (k ++ [n - 1])).width

mutual

def SpanMidOk (st : St) : LayoutTree → Key → Prop
  | .mk _ _ _ _ _ _ _ cs, k => SpanMidAt st k cs.length ∧ SpanMidOkChildren st cs k 0

def SpanMidOkChildren (st : St) : List LayoutTree → Key → Nat → Prop
  | [], _, _ => True
  | c :: rest, k, i =>
      SpanMidOk st c (k ++ [i]) ∧ SpanMidOkChildren st rest k (i + 1)

end

/-- The minimum `x` over all nodes, computed by the same walk as
`layoutTree`'s normalization step. -/
def minXOf (lt : LayoutTree) (st : St) : ℚ :=
  (allKeys lt []).foldl (fun acc k => min acc (getS st k).x)
    ((getS st ([] : Key)).x)

mutual

/-- C4's property, at every node of the built layout tree: the expanded flag
records membership of the node's own path, children are present iff that
path is in the expanded set (and the source node has children), one layout
child per source child when expanded, and the node's width reserves badge
space exactly when its children are elided (the "collapsed children"
mark). -/
def BuilderInv (measure : String → ℚ) (s : List String) : LayoutTree → Prop
  | .mk id node width _ expanded _ _ children =>
      expanded = s.contains id ∧
      children.length = (if s.contains id then node.children.length else 0) ∧
      width = getNodeWidth measure node
        (!s.contains id && (node.children.length != 0)) ∧
      BuilderInvList measure s children

def BuilderInvList (measure : String → ℚ) (s : List String) :
    List LayoutTree → Prop
  | [] => True
  | c :: rest => BuilderInv measure s c ∧ BuilderInvList measure s rest

end

/-!
## Concrete example trees

`cexAst` with `cexExpanded` builds a four-node layout: the root has two
children A (one visible wide leaf child W, width 308) and B (leaf, width
203).  The layout places W at x = 0 .. 308 and B at x = 208 .. 411: the
horizontal extent of A's subtree overlaps B's, although no two nodes at the
same depth overlap.  The root's first and last children have different
widths, separating the span midpoint from the midpoint of centers. -/

def cexMeasure : String → ℚ := fun s => 7 * s.length

def cexAst : AstNode := AstNode.mk "r" true none
  [AstNode.mk "a" true none
    [AstNode.mk "wwwwwwwwwwwwwwwwwwwwwwwwwwwwwwwwwwwwwwww" true none []],
   AstNode.mk "bbbbbbbbbbbbbbbbbbbbbbbbb" true none []]

def cexExpanded : List String := ["root", "root-0"]

def skW : LayoutTree := .mk "root-0-0"
  (AstNode.mk "wwwwwwwwwwwwwwwwwwwwwwwwwwwwwwwwwwwwwwww" true none [])
  308 32 false 2 1 []

def skA : LayoutTree := .mk "root-0"
  (AstNode.mk "a" true none
    [AstNode.mk "wwwwwwwwwwwwwwwwwwwwwwwwwwwwwwwwwwwwwwww" true none []])
  60 32 true 1 1 [skW]

def skB : LayoutTree := .mk "root-1"
  (AstNode.mk "bbbbbbbbbbbbbbbbbbbbbbbbb" true none []) 203 32 false 1 2 []

def skR : LayoutTree := .mk "root" cexAst 60 32 true 0 0 [skA, skB]

/-- The freshly initialised state for `skR`. -/
def cexSt0 : St :=
  [([], NS.mk "root" 60 32 true 0 0 [[0], [1]] 2 0 0 0 0 none [] 0 0),
   ([0], NS.mk "root-0" 60 32 true 1 1 [[0, 0]] 1 0 0 0 0 none [0] 0 0),
   ([0, 0], NS.mk "root-0-0" 308 32 false 2 1 [] 0 0 0 0 0 none [0, 0] 0 0),
   ([1], NS.mk "root-1" 203 32 false 1 2 [] 0 0 0 0 0 none [1] 0 0)]

/-- State after `firstWalk` of A's subtree. -/
def cexSt3 : St :=
  [([], NS.mk "root" 60 32 true 0 0 [[0], [1]] 2 0 0 0 0 none [] 0 0),
   ([0], NS.mk "root-0" 60 32 true 1 1 [[0, 0]] 1 0 0 124 0 none [0] 0 0),
   ([0, 0], NS.mk "root-0-0" 308 32 false 2 1 [] 0 0 0 0 0 none [0, 0] 0 0),
   ([1], NS.mk "root-1" 203 32 false 1 2 [] 0 0 0 0 0 none [1] 0 0)]

/-- State after `firstWalk` of B. -/
def cexSt5 : St :=
  [([], NS.mk "root" 60 32 true 0 0 [[0], [1]] 2 0 0 0 0 none [] 0 0),
   ([0], NS.mk "root-0" 60 32 true 1 1 [[0, 0]] 1 0 0 124 0 none [0] 0 0),
   ([0, 0], NS.mk "root-0-0" 308 32 false 2 1 [] 0 0 0 0 0 none [0, 0] 0 0),
   ([1], NS.mk "root-1" 203 32 false 1 2 [] 0 0 0 208 0 none [1] 0 0)]

/-- State after `apportion` of B (its thread now points at W). -/
def cexSt6 : St :=
  [([], NS.mk "root" 60 32 true 0 0 [[0], [1]] 2 0 0 0 0 none [] 0 0),
   ([0], NS.mk "root-0" 60 32 true 1 1 [[0, 0]] 1 0 0 124 0 none [0] 0 0),
   ([0, 0], NS.mk "root-0-0" 308 32 false 2 1 [] 0 0 0 0 0 none [0, 0] 0 0),
   ([1], NS.mk "root-1" 203 32 false 1 2 [] 0 0 0 208 0 (some [0, 0]) [1] 0 0)]

/-- State after the full `firstWalk` from the root. -/
def cexSt8 : St :=
  [([], NS.mk "root" 60 32 true 0 0 [[0], [1]] 2 0 0 (475/2 : ℚ) 0 none [] 0 0),
   ([0], NS.mk "root-0" 60 32 true 1 1 [[0, 0]] 1 0 0 124 0 none [0] 0 0),
   ([0, 0], NS.mk "root-0-0" 308 32 false 2 1 [] 0 0 0 0 0 none [0, 0] 0 0),
   ([1], NS.mk "root-1" 203 32 false 1 2 [] 0 0 0 208 0 (some [0, 0]) [1] 0 0)]

/-- State after `secondWalk` (the minimum x is already 0, so this is also
the final state of `layoutTree`). -/
def cexSt9 : St :=
  [([], NS.mk "root" 60 32 true 0 0 [[0], [1]] 2 (475/2 : ℚ) 0 (475/2 : ℚ) 0 none [] 0 0),
   ([0], NS.mk "root-0" 60 32 true 1 1 [[0, 0]] 1 124 84 124 0 none [0] 0 0),
   ([0, 0], NS.mk "root-0-0" 308 32 false 2 1 [] 0 0 168 0 0 none [0, 0] 0 0),
   ([1], NS.mk "root-1" 203 32 false 1 2 [] 0 208 84 208 0 (some [0, 0]) [1] 0 0)]

/-!
## Hit testing

`hitTest` receives the `collectNodes` array (draw order: parents before
descendants) and a world-coordinate point; it scans in reverse order and
returns the first node whose closed axis-aligned rectangle contains the
point. -/

structure HitNode where
  id : String
  x : ℚ
  y : ℚ
  width : ℚ
  height : ℚ
  /-- `node.children.length` of the wrapped source AST node (used by the
  release handlers to decide whether to emit a toggle). -/
  srcChildCount : Nat

/-- The containment test of `hitTest` (all four comparisons inclusive). -/
def rectContains (n : HitNode) (wx wy : ℚ) : Prop :=
  n.x ≤ wx ∧ wx ≤ n.x + n.width ∧ n.y ≤ wy ∧ wy ≤ n.y + n.height

instance (n : HitNode) (wx wy : ℚ) : Decidable (rectContains n wx wy) := by
  unfold rectContains; infer_instance

def hitTestRev : List HitNode → ℚ → ℚ → Option HitNode
  | [], _, _ => none
  | n :: rest, wx, wy =>
      if rectContains n wx wy then some n else hitTestRev rest wx wy

/-- `hitTest(nodes, worldX, worldY)`: reverse-order scan. -/
def hitTest (nodes : List HitNode) (wx wy : ℚ) : Option HitNode :=
  hitTestRev nodes.reverse wx wy

/-- Strict interior of a node's rectangle (the claim's "strictly inside"). -/
def strictlyInside (n : HitNode) (wx wy : ℚ) : Prop :=
  n.x < wx ∧ wx < n.x + n.width ∧ n.y < wy ∧ wy < n.y + n.height

/-!
## Camera

`screen = world * zoom + (x, y)`.  Each interaction handler below is the
pure state update the corresponding source handler performs via
`setCamera`. -/

structure Camera where
  x : ℚ
  y : ℚ
  zoom : ℚ

/-- The initial `useState({ x: 0, y: 0, zoom: 1 })` camera. -/
def initCamera : Camera := { x := 0, y := 0, zoom := 1 }

/-- Auto-fit / `fitToView`: identical computation in the auto-fit effect and
the fit button (`pad = 60`, zoom capped at 1, tree centered horizontally,
`y = pad`).  Dimensions are floored at 1 before dividing. -/
def fitCamera (w h tw th : ℚ) : Camera :=
  let pad : ℚ := 60
  let scaleX := (w - pad * 2) / max 1 tw
  let scaleY := (h - pad * 2) / max 1 th
  let zoom := min 1 (min scaleX scaleY)
  { x := (w - tw * zoom) / 2, y := pad, zoom := zoom }

/-- `onWheel`: multiplicative step 0.9 (scroll down) or 1.1 (scroll up),
clamped to `[0.1, 3]`, anchored at the pointer. -/
def wheelCamera (cam : Camera) (sx sy : ℚ) (deltaYPos : Bool) : Camera :=
  let factor : ℚ := if deltaYPos then 9/10 else 11/10
  let newZoom := min 3 (max (1/10) (cam.zoom * factor))
  let worldX := (sx - cam.x) / cam.zoom
  let worldY := (sy - cam.y) / cam.zoom
  { x := sx - worldX * newZoom, y := sy - worldY * newZoom, zoom := newZoom }

/-- `onTouchMove` pinch branch: zoom scaled by the finger-distance ratio,
clamped to `[0.1, 3]`, anchored at the recorded initial midpoint. -/
def pinchCamera (cam : Camera) (initialDist initialZoom midX midY dist : ℚ) :
    Camera :=
  let scale := dist / initialDist
  let newZoom := min 3 (max (1/10) (initialZoom * scale))
  let worldX := (midX - cam.x) / cam.zoom
  let worldY := (midY - cam.y) / cam.zoom
  { x := midX - worldX * newZoom, y := midY - worldY * newZoom, zoom := newZoom }

/-- Drag pan: start camera offset plus the screen delta; zoom untouched. -/
def panCamera (cam : Camera) (startCamX startCamY dx dy : ℚ) : Camera :=
  { x := startCamX + dx, y := startCamY + dy, zoom := cam.zoom }

/-- The zoom-in button: `min(3, zoom * 1.3)` anchored at the canvas center. -/
def zoomInCamera (cam : Camera) (w h : ℚ) : Camera :=
  let cx := w / 2
  let cy := h / 2
  let newZoom := min 3 (cam.zoom * (13/10))
  let worldX := (cx - cam.x) / cam.zoom
  let worldY := (cy - cam.y) / cam.zoom
  { x := cx - worldX * newZoom, y := cy - worldY * newZoom, zoom := newZoom }

/-- The zoom-out button: `max(0.1, zoom / 1.3)` anchored at the center. -/
def zoomOutCamera (cam : Camera) (w h : ℚ) : Camera :=
  let cx := w / 2
  let cy := h / 2
  let newZoom := max (1/10) (cam.zoom / (13/10))
  let worldX := (cx - cam.x) / cam.zoom
  let worldY := (cy - cam.y) / cam.zoom
  { x := cx - worldX * newZoom, y := cy - worldY * newZoom, zoom := newZoom }

/-- One camera transition: any of the operations the component performs
(the auto-fit effect and `fitToView` both bail out on a zero-sized
viewport). -/
inductive CamStep : Camera → Camera → Prop where
  | fit (c : Camera) (w h tw th : ℚ) (hw : w ≠ 0) (hh : h ≠ 0) :
      CamStep c (fitCamera w h tw th)
  | wheel (c : Camera) (sx sy : ℚ) (deltaYPos : Bool) :
      CamStep c (wheelCamera c sx sy deltaYPos)
  | pinch (c : Camera) (initialDist initialZoom midX midY dist : ℚ) :
      CamStep c (pinchCamera c initialDist initialZoom midX midY dist)
  | pan (c : Camera) (startCamX startCamY dx dy : ℚ) :
      CamStep c (panCamera c startCamX startCamY dx dy)
  | zoomIn (c : Camera) (w h : ℚ) : CamStep c (zoomInCamera c w h)
  | zoomOut (c : Camera) (w h : ℚ) : CamStep c (zoomOutCamera c w h)

/-- Camera states reachable from the initial camera. -/
def CamReachable (c : Camera) : Prop :=
  Relation.ReflTransGen CamStep initCamera c

/-!
## Release-handler callbacks

The component's outputs (its callback props are `onToggleNode`,
`onNodeHover`, `onNodeLeave`; there is no separate node-selected prop). -/

inductive CB where
  | toggle : String → CB
  | hover : String → CB
  | leave : CB

/-- What `handlePointerUp` (mouse) emits: nothing when the pointer moved;
otherwise hit-test the release point in world coordinates and emit a toggle
only when the hit node has source children. -/
def pointerUpEmits (nodes : List HitNode) (cam : Camera) (sx sy : ℚ)
    (moved : Bool) : List CB :=
  if moved then []
  else
    match hitTest nodes ((sx - cam.x) / cam.zoom) ((sy - cam.y) / cam.zoom) with
    | some hit => if 0 < hit.srcChildCount then [CB.toggle hit.id] else []
    | none => []

/-- What `onTouchEnd` emits for a tap (`moved = false`, hit-tested at the
recorded touch-start point): a hover callback for any hit, plus a toggle
when the hit node has source children. -/
def touchEndEmits (nodes : List HitNode) (cam : Camera) (startX startY : ℚ)
    (moved : Bool) : List CB :=
  if moved then []
  else
    match hitTest nodes ((startX - cam.x) / cam.zoom)
        ((startY - cam.y) / cam.zoom) with
    | some hit =>
        CB.hover hit.id ::
          (if 0 < hit.srcChildCount then [CB.toggle hit.id] else [])
    | none => []

/-!
## Bookkeeping notions for the layout-pass proofs
-/

/-- `Below k j`: the node at key `j` lies in the subtree rooted at key `k`
(including `k` itself). -/
def Below (k j : Key) : Prop := ∃ rest, j = k ++ rest

/-- The keys present in a state. -/
def keysOf (st : St) : List Key := st.map Prod.fst

/-- The fields of a `LayoutNode` that the layout pass never assigns:
everything produced by `buildLayoutTree` except the positional `x`/`y` and
the scratch fields. -/
def StaticEqAt (st st2 : St) (j : Key) : Prop :=
  (getS st2 j).id = (getS st j).id ∧
  (getS st2 j).width = (getS st j).width ∧
  (getS st2 j).height = (getS st j).height ∧
  (getS st2 j).expanded = (getS st j).expanded ∧
  (getS st2 j).depth = (getS st j).depth ∧
  (getS st2 j).number = (getS st j).number ∧
  (getS st2 j).children = (getS st j).children ∧
  (getS st2 j).srcChildCount = (getS st j).srcChildCount

/-- Facts true of every state transition of the layout pass: the key set is
unchanged and every node's static fields are unchanged. -/
structure BaseOp (st st2 : St) : Prop where
  keys : keysOf st2 = keysOf st
  statics : ∀ j, StaticEqAt st st2 j

/-- `j` lies strictly inside the subtree rooted at `k`. -/
def StrictBelow (k j : Key) : Prop := Below k j ∧ j ≠ k

/-- Facts true of every `firstWalk`-phase transition whose write region is
`P`: on top of `BaseOp`, the fields `x` and `y` are untouched everywhere,
`prelim`, `change` and `shift` are untouched outside `P`, and `mod` is
untouched outside `P` at nodes that have children (the contour threading
may adjust `mod` of childless nodes anywhere, which no position depends
on, since `secondWalk` only ever adds the `mod` of ancestors — all of
which have children). -/
structure WalkOp (P : Key → Prop) (st st2 : St) : Prop where
  base : BaseOp st st2
  x : ∀ j, (getS st2 j).x = (getS st j).x
  y : ∀ j, (getS st2 j).y = (getS st j).y
  prelim : ∀ j, ¬ P j → (getS st2 j).prelim = (getS st j).prelim
  change : ∀ j, ¬ P j → (getS st2 j).change = (getS st j).change
  shift : ∀ j, ¬ P j → (getS st2 j).shift = (getS st j).shift
  mod : ∀ j, ¬ P j → (getS st j).children ≠ [] →
    (getS st2 j).mod = (getS st j).mod

/-- The transition moved node `j`'s `prelim` and `mod` rigidly by a common
offset (the effect of `moveSubtree` and `executeShifts` on a subtree
root). -/
def RigidAt (st st2 : St) (j : Key) : Prop :=
  ∃ δ : ℚ, (getS st2 j).prelim = (getS st j).prelim + δ ∧
    (getS st2 j).mod = (getS st j).mod + δ

mutual

/-- The state's `children` lists agree with the skeleton below key `k`:
exactly the shape `initList` establishes and every layout op preserves. -/
def SkAt : LayoutTree → Key → St → Prop
  | .mk _ _ _ _ _ _ _ cs, k, st =>
      (getS st k).children = childKeys k cs.length ∧ SkAtChildren cs k 0 st

def SkAtChildren : List LayoutTree → Key → Nat → St → Prop
  | [], _, _, _ => True
  | c :: rest, k, i, st => SkAt c (k ++ [i]) st ∧ SkAtChildren rest k (i + 1) st

end

/-- The Buchheim invariant established by `firstWalk` at every node with
children: `mod = prelim - midpoint` where `midpoint` is the span midpoint
of the first and last child (`(fc.prelim + lc.prelim + lc.width - w) / 2`).
Vacuous at childless nodes. -/
def modEqAt (st : St) (j : Key) : Prop :=
  ∀ c cs, (getS st j).children = c :: cs →
    (getS st j).mod = (getS st j).prelim -
      ((getS st c).prelim + (getS st (cs.getLastD c)).prelim
        + (getS st (cs.getLastD c)).width - (getS st j).width) / 2

mutual

/-- Structural well-formedness that `buildLayoutTree` guarantees: every
width is nonnegative and children carry 1-based consecutive sibling
numbers. -/
def GoodTree : LayoutTree → Prop
  | .mk _ _ w _ _ _ _ cs => 0 ≤ w ∧ GoodChildren cs 1

def GoodChildren : List LayoutTree → Nat → Prop
  | [], _ => True
  | c :: rest, m => c.number = m ∧ GoodTree c ∧ GoodChildren rest (m + 1)

end

mutual

/-- State-side sibling-number coherence below key `k`: the node at child
position `m` carries number `m + 1` (read by `moveSubtree`). -/
def NumA : LayoutTree → Key → St → Prop
  | .mk _ _ _ _ _ _ _ cs, k, st =>
      (∀ m, m < cs.length → (getS st (k ++ [m])).number = m + 1) ∧
      NumAChildren cs k 0 st

def NumAChildren : List LayoutTree → Key → Nat → St → Prop
  | [], _, _, _ => True
  | c :: rest, k, i, st => NumA c (k ++ [i]) st ∧ NumAChildren rest k (i + 1) st

end

/-- Adjacent sibling separation of the `prelim` coordinates at `k`'s `n`
children. -/
def sepOk (st : St) (k : Key) (n : Nat) : Prop :=
  ∀ m, 1 ≤ m → m < n →
    (getS st (k ++ [m - 1])).prelim + (getS st (k ++ [m - 1])).width
      + NODE_GAP_X ≤ (getS st (k ++ [m])).prelim

/-- The first-child facts driving the `min x = 0` proof: an internal first
child has `mod ≤ 0` (it was only ever moved left by `executeShifts`), a
childless first child has `prelim ≤ 0`. -/
def firstChildOk (st : St) (k : Key) (n : Nat) : Prop :=
  0 < n →
    ((getS st (k ++ [0])).children ≠ [] → (getS st (k ++ [0])).mod ≤ 0) ∧
    ((getS st (k ++ [0])).children = [] → (getS st (k ++ [0])).prelim ≤ 0)

/-- The per-sibling ledger maintained by `apportion`: `change ≤ 0` and the
number-weighted sum `shift + (number - 1) * change ≤ 0` (each `moveSubtree`
by `S > 0` against ancestor `w_l` adds `S * (1 - number_l) / (number -
number_l) ≤ 0` to it). -/
def ledgerOk (st : St) (c : Key) : Prop :=
  (getS st c).change ≤ 0 ∧
  (getS st c).shift + (((getS st c).number : ℚ) - 1) * (getS st c).change ≤ 0

/-- The running accumulator of `executeShifts` in closed form: processing
`L` starting from shift accumulator `sa` and change accumulator `ca`, the
shift accumulator ends at `sa + |L| * ca + Σ (shift_c + pos_c * change_c)`
(where `pos_c` counts from the END of `L`).  `execDelta L sa ca st` is that
final accumulator — the offset applied to a node processed right after
`L`. -/
def execDelta : List Key → ℚ → ℚ → St → ℚ
  | [], sa, _, _ => sa
  | c :: rest, sa, ca, st =>
      execDelta rest (sa + (getS st c).shift + (ca + (getS st c).change))
        (ca + (getS st c).change) st

/-- The end-weighted ledger sum `Σ_c (shift_c + (pos from end) * change_c)`
of a processing list. -/
def wsr : List Key → St → ℚ
  | [], _ => 0
  | c :: rest, st =>
      (getS st c).shift + ((rest.length : ℚ) + 1) * (getS st c).change
        + wsr rest st

/-- A concrete childless node box, for witnesses. -/
def hitA : HitNode := HitNode.mk "a" 0 0 10 10 0

/-- A concrete node box with 2 source children, drawn after `hitA` and
overlapping it. -/
def hitB : HitNode := HitNode.mk "b" 4 4 10 10 2

/-!
# Theorems

Helper lemmas first, then one theorem (plus witness / counterexample where
required) per specification claim.
-/

theorem tsDigit0 : toString (0 : Nat) = "0" := by
  norm_num [toString, Nat.repr, Nat.toDigits, Nat.toDigitsCore, Nat.digitChar,
    List.asString]

theorem tsDigit1 : toString (1 : Nat) = "1" := by
  norm_num [toString, Nat.repr, Nat.toDigits, Nat.toDigitsCore, Nat.digitChar,
    List.asString]

/-! Evaluation of the concrete example: the builder output. -/

theorem slen_r : ("r" : String).length = 1 := rfl

theorem slen_a : ("a" : String).length = 1 := rfl

theorem slen_w :
    ("wwwwwwwwwwwwwwwwwwwwwwwwwwwwwwwwwwwwwwww" : String).length = 40 := rfl

theorem slen_b : ("bbbbbbbbbbbbbbbbbbbbbbbbb" : String).length = 25 := rfl

theorem sapp_root0 : "root" ++ "-" ++ "0" = "root-0" := rfl

theorem sapp_root1 : "root" ++ "-" ++ "1" = "root-1" := rfl

theorem sapp_root00 : "root-0" ++ "-" ++ "0" = "root-0-0" := rfl

theorem cex_build :
    buildLayoutTree cexMeasure cexAst "root" cexExpanded 0 = skR := by
  simp [buildLayoutTree, buildLayoutChildren, getNodeWidth, getNodeLabel,
    cexMeasure, cexAst, cexExpanded, NODE_PADDING_X, NODE_H, skR, skA, skB,
    skW, LayoutTree.withNumber, AstNode.kind, AstNode.text, AstNode.children,
    tsDigit0, tsDigit1, sapp_root0, sapp_root1, sapp_root00, slen_r, slen_a,
    slen_w, slen_b]
  norm_num

/-! Evaluation of the layout pass on `skR`, one stage at a time. -/

theorem cex_init : initList skR [] = cexSt0 := by
  norm_num [initList, initListChildren, initNode, skR, skA, skB, skW, cexAst,
    childKeys, List.range, List.range.loop, LayoutTree.id, LayoutTree.node,
    LayoutTree.width, LayoutTree.height, LayoutTree.expanded, LayoutTree.depth,
    LayoutTree.number, LayoutTree.children, AstNode.children, cexSt0]

theorem cex_fw_w : firstWalk 4 skW [0, 0] [[0, 0]] cexSt0 = cexSt0 := by
  norm_num [firstWalk, skW, jsIndexOf, List.findIdx?, updS, getS, cexSt0]

theorem cex_fw_a : firstWalk 4 skA [0] [[0], [1]] cexSt0 = cexSt3 := by
  simp [firstWalk, firstWalkChildren, skA, skW, cex_fw_w, apportion,
    apportionLoop, executeShifts, executeShiftsAux, moveSubtree, findAncestor,
    jsIndexOf, jsGet, nextLeft, nextRight, nextLeftO, nextRightO, childKeys,
    getS, updS, cexSt0, cexSt3, NODE_GAP_X, List.findIdx?, List.getD,
    List.getLast?, List.range, List.range.loop]
  norm_num

theorem cex_fw_b : firstWalk 4 skB [1] [[0], [1]] cexSt3 = cexSt5 := by
  norm_num [firstWalk, skB, jsIndexOf, jsGet, List.findIdx?, List.getD, updS,
    getS, cexSt3, cexSt5, NODE_GAP_X]

theorem cex_app_b : apportion 4 [1] [0] [[0], [1]] cexSt5 = ([0], cexSt6) := by
  norm_num [apportion, apportionLoop, moveSubtree, findAncestor, jsIndexOf,
    jsGet, nextLeft, nextRight, nextLeftO, nextRightO, getS, updS, cexSt5,
    cexSt6, NODE_GAP_X, List.findIdx?, List.getD, List.getLast?]

theorem cex_fw_root : firstWalk 4 skR [] [[]] cexSt0 = cexSt8 := by
  simp [firstWalk, firstWalkChildren, skR, skA, skB, skW, cex_fw_a, cex_fw_b,
    cex_app_b, apportion, apportionLoop, executeShifts, executeShiftsAux,
    moveSubtree, findAncestor, jsIndexOf, jsGet, nextLeft, nextRight,
    nextLeftO, nextRightO, childKeys, getS, updS, cexSt0, cexSt3, cexSt5,
    cexSt6, cexSt8, NODE_GAP_X, List.findIdx?, List.getD, List.getLast?,
    List.range, List.range.loop]
  norm_num

theorem cex_sw : secondWalk skR [] 0 0 cexSt8 = cexSt9 := by
  simp [secondWalk, secondWalkChildren, skR, skA, skB, skW, getS, updS,
    cexSt8, cexSt9, NODE_H, NODE_GAP_Y]
  norm_num

theorem cex_minx :
    ([[], [0], [0, 0], [1]] : List Key).foldl
      (fun acc k => min acc (getS cexSt9 k).x)
      ((getS cexSt9 ([] : Key)).x) = 0 := by
  simp only [List.foldl]
  simp [getS, cexSt9]
  norm_num [min_def]

theorem cex_keys : allKeys skR [] = [[], [0], [0, 0], [1]] := by
  simp [allKeys, allKeysChildren, skR, skA, skB, skW]

theorem cex_run : runLayout skR = cexSt9 := by
  simp only [runLayout, layoutTree]
  rw [cex_init, cex_keys]
  norm_num only [List.length_cons, List.length_nil]
  rw [cex_fw_root, cex_sw, cex_minx]
  norm_num

theorem cex_layout : layoutOf cexMeasure cexAst cexExpanded = cexSt9 := by
  rw [layoutOf, cex_build, cex_run]

/-! ## C4 machinery: the builder respects the expanded set at every node. -/

theorem buildLayoutChildren_length (measure : String → ℚ) (cs : List AstNode)
    (path : String) (s : List String) (depth : Nat) (i : Nat) :
    (buildLayoutChildren measure cs path s depth i).length = cs.length := by
  induction cs generalizing i with
  | nil => rfl
  | cons c rest ih => simp [buildLayoutChildren, ih]

theorem builderInv_withNumber (measure : String → ℚ) (s : List String)
    (lt : LayoutTree) (num : Nat) (h : BuilderInv measure s lt) :
    BuilderInv measure s (lt.withNumber num) := by
  cases lt with
  | mk id node w ht e d n cs => exact h

mutual

theorem builderInv_build (measure : String → ℚ) (node : AstNode)
    (path : String) (s : List String) (depth : Nat) :
    BuilderInv measure s (buildLayoutTree measure node path s depth) := by
  cases node with
  | mk k n t cs =>
      refine ⟨rfl, ?_, rfl, ?_⟩
      · cases h : s.contains path <;>
          simp [h, buildLayoutChildren_length, AstNode.children]
      · cases h : s.contains path with
        | true =>
            have := builderInv_buildList measure cs path s depth 0
            simpa [h] using this
        | false => simp [h, BuilderInvList]

theorem builderInv_buildList (measure : String → ℚ) (cs : List AstNode)
    (path : String) (s : List String) (depth : Nat) (i : Nat) :
    BuilderInvList measure s (buildLayoutChildren measure cs path s depth i) := by
  cases cs with
  | nil => exact trivial
  | cons c rest =>
      exact ⟨builderInv_withNumber _ _ _ _
          (builderInv_build measure c (path ++ "-" ++ toString i) s (depth + 1)),
        builderInv_buildList measure rest path s depth (i + 1)⟩

end

/-! ## C9 machinery: `hitTest` scans in reverse draw order. -/

theorem hitTestRev_none_iff (l : List HitNode) (wx wy : ℚ) :
    hitTestRev l wx wy = none ↔ ∀ m ∈ l, ¬ rectContains m wx wy := by
  induction l with
  | nil => simp [hitTestRev]
  | cons n rest ih =>
      by_cases h : rectContains n wx wy
      · simp [hitTestRev, h]
      · simp [hitTestRev, h, ih]

theorem hitTestRev_append_skip (l1 l2 : List HitNode) (wx wy : ℚ)
    (h : ∀ m ∈ l1, ¬ rectContains m wx wy) :
    hitTestRev (l1 ++ l2) wx wy = hitTestRev l2 wx wy := by
  induction l1 with
  | nil => rfl
  | cons n rest ih =>
      have hn : ¬ rectContains n wx wy := h n (by simp)
      simp only [List.cons_append, hitTestRev, if_neg hn]
      exact ih (fun m hm => h m (by simp [hm]))

theorem hitTestRev_mem (l : List HitNode) (wx wy : ℚ) (m : HitNode)
    (h : hitTestRev l wx wy = some m) :
    m ∈ l ∧ rectContains m wx wy := by
  induction l with
  | nil => simp [hitTestRev] at h
  | cons n rest ih =>
      by_cases hc : rectContains n wx wy
      · simp [hitTestRev, hc] at h
        subst h
        exact ⟨by simp, hc⟩
      · simp only [hitTestRev, if_neg hc] at h
        obtain ⟨hm, hcm⟩ := ih h
        exact ⟨by simp [hm], hcm⟩

theorem strictlyInside_contains (n : HitNode) (wx wy : ℚ)
    (h : strictlyInside n wx wy) : rectContains n wx wy :=
  ⟨le_of_lt h.1, le_of_lt h.2.1, le_of_lt h.2.2.1, le_of_lt h.2.2.2⟩

/-! ## Claim theorems -/

/-- **C4**: `buildLayoutTree` is a pure function of the AST, the path and
the expanded set, and at every node of its output: the expanded flag is the
membership of the node's own path, children are present iff that path is in
the set (one per source child; none otherwise — the subtree is elided), and
the width reserves collapsed-badge space exactly when the node's children
are elided. -/
theorem c4_children_iff_expanded (measure : String → ℚ) (node : AstNode)
    (path : String) (s : List String) (depth : Nat) :
    BuilderInv measure s (buildLayoutTree measure node path s depth) ∧
    buildLayoutTree measure node path s depth =
      buildLayoutTree measure node path s depth :=
  ⟨builderInv_build measure node path s depth, rfl⟩

/-- **C9**: `hitTest` scans the draw-order list in reverse: it returns
`none` iff the point is inside no node's rectangle (in particular it is
total on arbitrary out-of-bounds coordinates and never returns a node the
point is outside of); and a point strictly inside a node `n` that is inside
no later-drawn node's rectangle yields exactly `n`. -/
theorem c9_hittest_reverse_order (nodes pre post : List HitNode)
    (n : HitNode) (wx wy : ℚ) :
    (hitTest nodes wx wy = none ↔ ∀ m ∈ nodes, ¬ rectContains m wx wy) ∧
    (∀ m, hitTest nodes wx wy = some m → m ∈ nodes ∧ rectContains m wx wy) ∧
    (nodes = pre ++ n :: post → strictlyInside n wx wy →
      (∀ m ∈ post, ¬ rectContains m wx wy) →
      hitTest nodes wx wy = some n) := by
  refine ⟨?_, ?_, ?_⟩
  · rw [hitTest, hitTestRev_none_iff]
    constructor
    · intro hh m hm
      exact hh m (List.mem_reverse.mpr hm)
    · intro hh m hm
      exact hh m (List.mem_reverse.mp hm)
  · intro m hm
    obtain ⟨h1, h2⟩ := hitTestRev_mem nodes.reverse wx wy m hm
    exact ⟨List.mem_reverse.mp h1, h2⟩
  · intro hs hn hp
    subst hs
    rw [hitTest, List.reverse_append, List.reverse_cons, List.append_assoc]
    rw [hitTestRev_append_skip]
    · simp only [List.singleton_append, hitTestRev,
        if_pos (strictlyInside_contains n wx wy hn)]
    · intro m hm
      exact hp m (List.mem_reverse.mp hm)

/-- Witness for C9 at concrete data: the point (5,5) lies strictly inside
both `hitA` and the later-drawn `hitB`; `hitTest` returns `hitB`. -/
theorem c9_hittest_reverse_order_witness : hitTest [hitA, hitB] 5 5 = some hitB :=
  (c9_hittest_reverse_order [hitA, hitB] [hitA] [] hitB 5 5).2.2 rfl
    (by norm_num [strictlyInside, hitB]) (by simp)

/-- **C1, counterexample**: in the concrete layout of `cexAst` (root with
children A and B, where A's only visible child W is 308 wide), the
horizontal extent of A's subtree is [0, 308] while B occupies [208, 411]:
the extents of the two sibling subtrees overlap, and are a fortiori not
separated by `NODE_GAP_X`.  (The overlap is only across different depths —
W is one level below B.) -/
theorem c1_counterexample :
    ¬ SiblingExtentsOk (layoutOf cexMeasure cexAst cexExpanded)
        (buildLayoutTree cexMeasure cexAst "root" cexExpanded 0) [] := by
  rw [cex_layout, cex_build]
  intro h
  have hp : SiblingPairsOk cexSt9 [skA, skB] [] := by
    rw [show skR = LayoutTree.mk "root" cexAst 60 32 true 0 0 [skA, skB] from rfl,
      SiblingExtentsOk] at h
    exact h.1
  have h2 := hp 0 1 (by norm_num) (by norm_num) (by norm_num)
  simp only [List.get] at h2
  simp [extentHi, extentLo, allKeys, allKeysChildren, skA, skB, skW, getS,
    cexSt9, NODE_GAP_X] at h2
  norm_num [max_def, min_def] at h2

/-- **C2, counterexample**: in the same concrete layout, the root's two
children have widths 60 and 203; the root's center sits at the span
midpoint 535/2, but the midpoint of the children's centers is 927/4 — the
two differ, and the root has no left sibling, so the claim's exception
clause does not apply either. -/
theorem c2_counterexample :
    ¬ C2ClaimHolds (layoutOf cexMeasure cexAst cexExpanded)
        (buildLayoutTree cexMeasure cexAst "root" cexExpanded 0) [] none := by
  rw [cex_layout, cex_build]
  intro h
  have h1 : C2At cexSt9 [] 2 none := by
    rw [show skR = LayoutTree.mk "root" cexAst 60 32 true 0 0 [skA, skB] from rfl,
      C2ClaimHolds] at h
    simpa using h.1
  rcases h1 (by norm_num) with h2 | h2
  · simp [getS, cexSt9] at h2
    norm_num at h2
  · exact h2

/-- **C5, counterexample**: the camera state produced by a single
fit-to-view on a 800×600 viewport with tree bounds 10000×500 is reachable,
and its zoom is 17/250 = 0.068, below the claimed lower clamp 0.1 (the fit
computation only caps the zoom at 1, it never clamps from below). -/
theorem c5_counterexample :
    CamReachable (fitCamera 800 600 10000 500) ∧
    ¬ (1/10 ≤ (fitCamera 800 600 10000 500).zoom ∧
        (fitCamera 800 600 10000 500).zoom ≤ 3) := by
  constructor
  · exact Relation.ReflTransGen.single
      (CamStep.fit initCamera 800 600 10000 500 (by norm_num) (by norm_num))
  · intro h
    have h1 := h.1
    rw [fitCamera] at h1
    norm_num [min_def] at h1

/-- **C5, amended**: every camera operation except auto-fit / fit-to-view
keeps the zoom inside [0.1, 3] whenever it starts there (wheel and pinch
clamp on both sides unconditionally; the zoom-in button caps at 3 and can
only increase a zoom that is at least 0.1; the zoom-out button clamps at
0.1 and can only decrease a zoom that is at most 3; panning leaves the zoom
untouched).  Auto-fit / fit-to-view guarantee only zoom ≤ 1. -/
theorem c5_zoom_clamped_non_fit (cam : Camera) (hlo : 1/10 ≤ cam.zoom)
    (hhi : cam.zoom ≤ 3) :
    (∀ sx sy d, 1/10 ≤ (wheelCamera cam sx sy d).zoom ∧
      (wheelCamera cam sx sy d).zoom ≤ 3) ∧
    (∀ a b c d e, 1/10 ≤ (pinchCamera cam a b c d e).zoom ∧
      (pinchCamera cam a b c d e).zoom ≤ 3) ∧
    (∀ a b c d, (panCamera cam a b c d).zoom = cam.zoom) ∧
    (∀ w h, 1/10 ≤ (zoomInCamera cam w h).zoom ∧
      (zoomInCamera cam w h).zoom ≤ 3) ∧
    (∀ w h, 1/10 ≤ (zoomOutCamera cam w h).zoom ∧
      (zoomOutCamera cam w h).zoom ≤ 3) ∧
    (∀ w h tw th, (fitCamera w h tw th).zoom ≤ 1) := by
  refine ⟨?_, ?_, fun _ _ _ _ => rfl, ?_, ?_, ?_⟩
  · intro sx sy d
    constructor
    · exact le_min (by norm_num) (le_max_left _ _)
    · exact min_le_left _ _
  · intro a b c d e
    constructor
    · exact le_min (by norm_num) (le_max_left _ _)
    · exact min_le_left _ _
  · intro w h
    constructor
    · refine le_min (by norm_num) ?_
      nlinarith
    · exact min_le_left _ _
  · intro w h
    constructor
    · exact le_max_left _ _
    · refine max_le (by norm_num) ?_
      nlinarith
  · intro w h tw th
    exact min_le_left _ _

/-- Witness for the amended C5 at the initial camera (zoom 1). -/
theorem c5_zoom_clamped_non_fit_witness :
    1/10 ≤ (wheelCamera initCamera 5 5 true).zoom ∧
    (wheelCamera initCamera 5 5 true).zoom ≤ 3 :=
  (c5_zoom_clamped_non_fit initCamera (by norm_num [initCamera])
    (by norm_num [initCamera])).1 5 5 true

/-- **C6**: for tree bounds of at least 1×1 pixel (every actual layout's
bounds are at least 60×32, since node widths are floored at 60), the
auto-fit / fit-to-view zoom is exactly
min(1, min((w − 2·pad)/treeWidth, (h − 2·pad)/treeHeight)) with pad = 60,
it never exceeds 1, and the resulting camera puts the tree's horizontal
center at the viewport's horizontal center. -/
theorem c6_autofit_formula (w h tw th : ℚ) (htw : 1 ≤ tw) (hth : 1 ≤ th) :
    (fitCamera w h tw th).zoom =
      min 1 (min ((w - 2 * 60) / tw) ((h - 2 * 60) / th)) ∧
    (fitCamera w h tw th).zoom ≤ 1 ∧
    (tw / 2) * (fitCamera w h tw th).zoom + (fitCamera w h tw th).x = w / 2 := by
  refine ⟨?_, min_le_left _ _, ?_⟩
  · rw [fitCamera]
    rw [max_eq_right htw, max_eq_right hth]
    ring_nf
  · rw [fitCamera]
    ring

/-- Witness for C6 at a concrete viewport and tree bounds. -/
theorem c6_autofit_formula_witness :
    (fitCamera 800 600 1000 400).zoom =
      min 1 (min ((800 - 2 * 60) / 1000) ((600 - 2 * 60) / 400)) ∧
    (fitCamera 800 600 1000 400).zoom ≤ 1 ∧
    (1000 / 2) * (fitCamera 800 600 1000 400).zoom +
      (fitCamera 800 600 1000 400).x = 800 / 2 :=
  c6_autofit_formula 800 600 1000 400 (by norm_num) (by norm_num)

/-- **C7**: zoom-at-point is anchor-invariant, for the wheel handler and the
pinch handler: if the camera zoom is nonzero, any world point that the
camera maps to the anchor (the pointer location, resp. the recorded pinch
midpoint) is mapped to the same screen point by the updated camera —
exactly, in rational arithmetic, and even when the new zoom was altered by
the [0.1, 3] clamp. -/
theorem c7_zoom_anchor_invariant (cam : Camera) (sx sy : ℚ) (deltaYPos : Bool)
    (initialDist initialZoom midX midY dist wx wy : ℚ)
    (hz : cam.zoom ≠ 0) :
    (wx * cam.zoom + cam.x = sx → wy * cam.zoom + cam.y = sy →
      wx * (wheelCamera cam sx sy deltaYPos).zoom +
          (wheelCamera cam sx sy deltaYPos).x = sx ∧
        wy * (wheelCamera cam sx sy deltaYPos).zoom +
          (wheelCamera cam sx sy deltaYPos).y = sy) ∧
    (wx * cam.zoom + cam.x = midX → wy * cam.zoom + cam.y = midY →
      wx * (pinchCamera cam initialDist initialZoom midX midY dist).zoom +
          (pinchCamera cam initialDist initialZoom midX midY dist).x = midX ∧
        wy * (pinchCamera cam initialDist initialZoom midX midY dist).zoom +
          (pinchCamera cam initialDist initialZoom midX midY dist).y = midY) := by
  constructor
  · intro h1 h2
    have hwx : wx = (sx - cam.x) / cam.zoom := by
      rw [eq_div_iff hz]; linarith
    have hwy : wy = (sy - cam.y) / cam.zoom := by
      rw [eq_div_iff hz]; linarith
    rw [wheelCamera]
    constructor
    · rw [hwx]; ring
    · rw [hwy]; ring
  · intro h1 h2
    have hwx : wx = (midX - cam.x) / cam.zoom := by
      rw [eq_div_iff hz]; linarith
    have hwy : wy = (midY - cam.y) / cam.zoom := by
      rw [eq_div_iff hz]; linarith
    rw [pinchCamera]
    constructor
    · rw [hwx]; ring
    · rw [hwy]; ring

/-- Witness for C7: wheel zoom-out at anchor (10, 10) from the initial
camera keeps the world point (10, 10) under the anchor. -/
theorem c7_zoom_anchor_invariant_witness :
    10 * (wheelCamera initCamera 10 10 true).zoom +
        (wheelCamera initCamera 10 10 true).x = 10 ∧
      10 * (wheelCamera initCamera 10 10 true).zoom +
        (wheelCamera initCamera 10 10 true).y = 10 :=
  (c7_zoom_anchor_invariant initCamera 10 10 true 1 1 0 0 1 10 10
      (by norm_num [initCamera])).1
    (by norm_num [initCamera]) (by norm_num [initCamera])

/-- **C8, counterexample**: releasing the mouse with `moved = false` over
the childless node `hitA` (camera at identity, release point (5,5), which
hit-tests to `hitA`) fires no callback at all — in particular no
node-selected callback, which the component does not even have as an
output. -/
theorem c8_counterexample :
    hitTest [hitA] ((5 - initCamera.x) / initCamera.zoom)
        ((5 - initCamera.y) / initCamera.zoom) = some hitA ∧
    pointerUpEmits [hitA] initCamera 5 5 false = [] := by
  constructor
  · norm_num [hitTest, hitTestRev, rectContains, hitA, initCamera]
  · norm_num [pointerUpEmits, hitTest, hitTestRev, rectContains, hitA,
      initCamera]

/-- **C8, amended**: on release with `moved = true` nothing fires.  On
mouse release with `moved = false`, the point is hit-tested in world
coordinates; a hit on a node with source children fires exactly one
toggle-expand callback; a hit on a childless node, or no hit, fires
nothing.  On touch release with `moved = false` a hit fires a node-hover
callback (used to highlight the node in the editor), plus the toggle when
the node has source children. -/
theorem c8_tap_callbacks (nodes : List HitNode) (cam : Camera) (sx sy : ℚ) :
    (pointerUpEmits nodes cam sx sy true = [] ∧
      touchEndEmits nodes cam sx sy true = []) ∧
    (∀ hit, hitTest nodes ((sx - cam.x) / cam.zoom) ((sy - cam.y) / cam.zoom)
        = some hit →
      pointerUpEmits nodes cam sx sy false =
        (if 0 < hit.srcChildCount then [CB.toggle hit.id] else []) ∧
      touchEndEmits nodes cam sx sy false =
        CB.hover hit.id ::
          (if 0 < hit.srcChildCount then [CB.toggle hit.id] else [])) ∧
    (hitTest nodes ((sx - cam.x) / cam.zoom) ((sy - cam.y) / cam.zoom) = none →
      pointerUpEmits nodes cam sx sy false = [] ∧
      touchEndEmits nodes cam sx sy false = []) := by
  refine ⟨⟨rfl, rfl⟩, ?_, ?_⟩
  · intro hit hh
    rw [pointerUpEmits, touchEndEmits]
    simp only [if_neg (by simp : ¬ (True = False)), hh]
    simp
  · intro hh
    rw [pointerUpEmits, touchEndEmits]
    simp only [hh]
    simp

/-! ## State-update algebra -/

theorem getS_updS_ne (st : St) (k : Key) (f : NS → NS) (j : Key) (h : j ≠ k) :
    getS (updS st k f) j = getS st j := by
  induction st with
  | nil => rfl
  | cons p rest ih =>
      by_cases hp : p.1 = k
      · simp only [updS, if_pos hp, getS]
        rw [if_neg (by rw [hp]; exact fun hh => h hh.symm)]
        rw [if_neg (by rw [hp]; exact fun hh => h hh.symm)]
        exact ih
      · simp only [updS, if_neg hp, getS]
        by_cases hj : p.1 = j
        · rw [if_pos hj, if_pos hj]
        · rw [if_neg hj, if_neg hj]
          exact ih

theorem keysOf_updS (st : St) (k : Key) (f : NS → NS) :
    keysOf (updS st k f) = keysOf st := by
  induction st with
  | nil => rfl
  | cons p rest ih =>
      by_cases hp : p.1 = k
      · simp only [updS, if_pos hp, keysOf, List.map_cons] at *
        rw [ih]
      · simp only [updS, if_neg hp, keysOf, List.map_cons] at *
        rw [ih]

theorem getS_updS_mem (st : St) (k : Key) (f : NS → NS) (h : k ∈ keysOf st) :
    getS (updS st k f) k = f (getS st k) := by
  induction st with
  | nil => simp [keysOf] at h
  | cons p rest ih =>
      by_cases hp : p.1 = k
      · simp only [updS, if_pos hp, getS, if_pos hp]
      · simp only [updS, if_neg hp, getS, if_neg hp]
        refine ih ?_
        simp only [keysOf, List.map_cons, List.mem_cons] at h
        rcases h with h | h
        · exact absurd h.symm hp
        · exact h

theorem getS_updS_not_mem (st : St) (k : Key) (f : NS → NS)
    (h : ¬ k ∈ keysOf st) : getS (updS st k f) k = getS st k := by
  induction st with
  | nil => rfl
  | cons p rest ih =>
      have hp : p.1 ≠ k := by
        intro hh
        exact h (by simp [keysOf, hh])
      simp only [updS, if_neg hp, getS, if_neg hp]
      exact ih (fun hh => h (by simp [keysOf] at hh ⊢; exact Or.inr hh))

/-- Complete description of a single in-place update. -/
theorem getS_updS (st : St) (k : Key) (f : NS → NS) (j : Key) :
    getS (updS st k f) j =
      if j = k ∧ k ∈ keysOf st then f (getS st k) else getS st j := by
  by_cases hj : j = k
  · subst hj
    by_cases hm : j ∈ keysOf st
    · rw [getS_updS_mem st j f hm, if_pos ⟨rfl, hm⟩]
    · rw [getS_updS_not_mem st j f hm, if_neg (fun hh => hm hh.2)]
  · rw [getS_updS_ne st k f j hj, if_neg (fun hh => hj hh.1)]

theorem staticEqAt_refl (st : St) (j : Key) : StaticEqAt st st j :=
  ⟨rfl, rfl, rfl, rfl, rfl, rfl, rfl, rfl⟩

theorem staticEqAt_trans {st1 st2 st3 : St} {j : Key}
    (h1 : StaticEqAt st1 st2 j) (h2 : StaticEqAt st2 st3 j) :
    StaticEqAt st1 st3 j := by
  obtain ⟨a1, a2, a3, a4, a5, a6, a7, a8⟩ := h1
  obtain ⟨b1, b2, b3, b4, b5, b6, b7, b8⟩ := h2
  exact ⟨b1.trans a1, b2.trans a2, b3.trans a3, b4.trans a4, b5.trans a5,
    b6.trans a6, b7.trans a7, b8.trans a8⟩

theorem baseOp_refl (st : St) : BaseOp st st :=
  ⟨rfl, staticEqAt_refl st⟩

theorem baseOp_trans {st1 st2 st3 : St} (h1 : BaseOp st1 st2)
    (h2 : BaseOp st2 st3) : BaseOp st1 st3 :=
  ⟨h2.keys.trans h1.keys, fun j => staticEqAt_trans (h1.statics j) (h2.statics j)⟩

/-- Updates that only write scratch/positional fields are `BaseOp`s. -/
theorem baseOp_updS (st : St) (k : Key) (f : NS → NS)
    (hf : ∀ ns, (f ns).id = ns.id ∧ (f ns).width = ns.width ∧
      (f ns).height = ns.height ∧ (f ns).expanded = ns.expanded ∧
      (f ns).depth = ns.depth ∧ (f ns).number = ns.number ∧
      (f ns).children = ns.children ∧ (f ns).srcChildCount = ns.srcChildCount) :
    BaseOp st (updS st k f) := by
  refine ⟨keysOf_updS st k f, fun j => ?_⟩
  unfold StaticEqAt
  rw [getS_updS]
  by_cases hc : j = k ∧ k ∈ keysOf st
  · simp only [if_pos hc]
    obtain ⟨rfl, -⟩ := hc
    exact hf (getS st j)
  · simp only [if_neg hc]
    simp

/-! ## Every layout operation is a `BaseOp` (C10 machinery) -/

theorem baseOp_ite {c : Prop} [Decidable c] {st f g : St}
    (hf : BaseOp st f) (hg : BaseOp st g) : BaseOp st (if c then f else g) := by
  split
  · exact hf
  · exact hg

theorem baseOp_moveSubtree (wl wr : Key) (S : ℚ) (st : St) :
    BaseOp st (moveSubtree wl wr S st) := by
  rw [moveSubtree]
  split
  · exact baseOp_updS _ _ _ (fun ns => by simp)
  · exact baseOp_refl st

theorem baseOp_executeShiftsAux (L : List Key) (sa ca : ℚ) (st : St) :
    BaseOp st (executeShiftsAux L sa ca st) := by
  induction L generalizing sa ca st with
  | nil => exact baseOp_refl st
  | cons c rest ih =>
      rw [executeShiftsAux]
      exact baseOp_trans (baseOp_updS _ _ _ (fun ns => by simp)) (ih _ _ _)

theorem baseOp_executeShifts (v : Key) (st : St) :
    BaseOp st (executeShifts v st) :=
  baseOp_executeShiftsAux _ _ _ st

theorem baseOp_apportionLoop (v da : Key) (sibs : List Key) (fuel : Nat)
    (a : ALoop) : BaseOp a.st (apportionLoop v da sibs fuel a).st := by
  induction fuel generalizing a with
  | zero => exact baseOp_refl a.st
  | succ n ih =>
      rw [apportionLoop]
      split
      case h_2 => exact baseOp_refl a.st
      case h_1 nIL nIR heq =>
        refine baseOp_trans ?_ (ih _)
        have hanc : BaseOp a.st
            (match nextRightO a.st a.vOR with
              | some r => updS a.st r (fun ns => { ns with ancestor := v })
              | none => a.st) := by
          rcases nextRightO a.st a.vOR with _ | r
          · exact baseOp_refl a.st
          · exact baseOp_updS _ _ _ (fun ns => by simp)
        exact baseOp_ite (baseOp_trans hanc (baseOp_moveSubtree _ _ _ _)) hanc

theorem baseOp_threadAdj (st : St) (c : Bool) (o t : Option Key) (δ : ℚ) :
    BaseOp st (if c then (match o with
      | some r0 => updS st r0 (fun ns =>
          { ns with thread := t, mod := ns.mod + δ })
      | none => st) else st) := by
  refine baseOp_ite ?_ (baseOp_refl st)
  rcases o with _ | r0
  · exact baseOp_refl st
  · exact baseOp_updS _ _ _ (fun ns => by simp)

theorem baseOp_apportion (fuel : Nat) (v da : Key) (sibs : List Key)
    (st : St) : BaseOp st (apportion fuel v da sibs st).2 := by
  have hloop := baseOp_apportionLoop v da sibs fuel
    { vIL := some (jsGet sibs (jsIndexOf sibs v - 1)), vIR := some v,
      vOL := some (jsGet sibs 0), vOR := some v,
      sIL := (getS st (jsGet sibs (jsIndexOf sibs v - 1))).mod,
      sIR := (getS st v).mod, sOL := (getS st (jsGet sibs 0)).mod,
      sOR := (getS st v).mod, st := st }
  simp only [apportion]
  by_cases h : jsIndexOf sibs v ≤ 0
  · rw [if_pos h]
    exact baseOp_refl st
  · rw [if_neg h]
    exact baseOp_trans hloop (baseOp_trans (baseOp_threadAdj _ _ _ _ _)
      (baseOp_threadAdj _ _ _ _ _))

mutual

theorem baseOp_firstWalk (fuel : Nat) (sk : LayoutTree) (k : Key)
    (siblings : List Key) (st : St) :
    BaseOp st (firstWalk fuel sk k siblings st) := by
  cases sk with
  | mk i n w h e d num cs =>
      rw [firstWalk]
      split
      · exact baseOp_ite (baseOp_updS _ _ _ (fun ns => by simp))
          (baseOp_updS _ _ _ (fun ns => by simp))
      · refine baseOp_trans (baseOp_firstWalkChildren fuel cs k
          (childKeys k cs.length) 0 (jsGet (childKeys k cs.length) 0) st) ?_
        refine baseOp_trans (baseOp_executeShifts k _) ?_
        exact baseOp_ite (baseOp_updS _ _ _ (fun ns => by simp))
          (baseOp_updS _ _ _ (fun ns => by simp))

theorem baseOp_firstWalkChildren (fuel : Nat) (cs : List LayoutTree) (k : Key)
    (childKs : List Key) (i : Nat) (da : Key) (st : St) :
    BaseOp st (firstWalkChildren fuel cs k childKs i da st).2 := by
  cases cs with
  | nil => exact baseOp_refl st
  | cons c rest =>
      rw [firstWalkChildren]
      refine baseOp_trans (baseOp_firstWalk fuel c (k ++ [i]) childKs st) ?_
      refine baseOp_trans (baseOp_apportion fuel (k ++ [i]) da childKs _) ?_
      exact baseOp_firstWalkChildren fuel rest k childKs (i + 1) _ _

end

mutual

theorem baseOp_secondWalk (sk : LayoutTree) (k : Key) (m : ℚ) (depth : Nat)
    (st : St) : BaseOp st (secondWalk sk k m depth st) := by
  cases sk with
  | mk i n w h e d num cs =>
      rw [secondWalk]
      refine baseOp_trans (baseOp_updS st k (fun ns =>
        { ns with x := ns.prelim + m,
                  y := (depth : ℚ) * (NODE_H + NODE_GAP_Y) })
        (fun ns => by simp)) ?_
      exact baseOp_secondWalkChildren cs k _ _ 0 _

theorem baseOp_secondWalkChildren (cs : List LayoutTree) (k : Key) (m : ℚ)
    (depth : Nat) (i : Nat) (st : St) :
    BaseOp st (secondWalkChildren cs k m depth i st) := by
  cases cs with
  | nil => exact baseOp_refl st
  | cons c rest =>
      rw [secondWalkChildren]
      refine baseOp_trans (baseOp_secondWalk c (k ++ [i]) m depth st) ?_
      exact baseOp_secondWalkChildren rest k m depth (i + 1) _

end

theorem baseOp_normFold (ks : List Key) (off : ℚ) (st : St) :
    BaseOp st (ks.foldl
      (fun acc k => updS acc k (fun ns => { ns with x := ns.x - off })) st) := by
  induction ks generalizing st with
  | nil => exact baseOp_refl st
  | cons k rest ih =>
      rw [List.foldl_cons]
      exact baseOp_trans (baseOp_updS _ _ _ (fun ns => by simp)) (ih _)

theorem baseOp_layoutTree (lt : LayoutTree) (st : St) :
    BaseOp st (layoutTree lt st) := by
  rw [layoutTree]
  refine baseOp_trans
    (baseOp_firstWalk (allKeys lt []).length lt [] [[]] st) ?_
  refine baseOp_trans
    (baseOp_secondWalk lt [] 0 0
      (firstWalk (allKeys lt []).length lt [] [[]] st)) ?_
  split
  · exact baseOp_normFold _ _ _
  · exact baseOp_refl _

/-! ## Key algebra -/

theorem below_refl (k : Key) : Below k k := ⟨[], by simp⟩

theorem below_app (k : Key) (rest : List Nat) : Below k (k ++ rest) :=
  ⟨rest, rfl⟩

theorem below_trans {a b c : Key} (h1 : Below a b) (h2 : Below b c) :
    Below a c := by
  obtain ⟨r1, rfl⟩ := h1
  obtain ⟨r2, rfl⟩ := h2
  exact ⟨r1 ++ r2, by simp⟩

theorem below_length {k j : Key} (h : Below k j) : k.length ≤ j.length := by
  obtain ⟨r, rfl⟩ := h
  simp

theorem not_below_child_parent (k : Key) (i : Nat) : ¬ Below (k ++ [i]) k := by
  intro h
  have := below_length h
  simp at this

theorem child_ne_parent (k : Key) (i : Nat) : k ++ [i] ≠ k := by
  intro h
  have : (k ++ [i]).length = k.length := by rw [h]
  simp at this

theorem strictBelow_of_below_child {k : Key} {i : Nat} {j : Key}
    (h : Below (k ++ [i]) j) : StrictBelow k j := by
  obtain ⟨r, rfl⟩ := h
  refine ⟨⟨i :: r, by simp⟩, ?_⟩
  intro hh
  have : (k ++ [i] ++ r).length = k.length := by rw [hh]
  simp at this

theorem below_eq_of_length_le {a b : Key} (h : Below a b)
    (hl : b.length ≤ a.length) : b = a := by
  obtain ⟨r, rfl⟩ := h
  have hr : r = [] := by
    rw [List.length_append] at hl
    exact List.eq_nil_of_length_eq_zero (by omega)
  rw [hr, List.append_nil]

theorem sibling_not_below {k : Key} {i m : Nat} (hne : m ≠ i) {j : Key}
    (hj : Below (k ++ [i]) j) : ¬ Below (k ++ [m]) j := by
  obtain ⟨r, rfl⟩ := hj
  rintro ⟨r2, he⟩
  rw [List.append_assoc, List.append_assoc] at he
  have h2 := List.append_cancel_left he
  simp only [List.cons_append, List.nil_append, List.cons.injEq] at h2
  exact hne h2.1.symm

theorem below_extension_of_not_self {k : Key} {j : Key} {x : Nat}
    (hb : Below k (j ++ [x])) (hne : ¬ Below k j) : k = j ++ [x] := by
  obtain ⟨r, he⟩ := hb
  rcases r with _ | ⟨a, r⟩
  · simpa using he.symm
  · exfalso
    apply hne
    have hlen : k.length + (a :: r).length = j.length + 1 := by
      have : (j ++ [x]).length = (k ++ a :: r).length := by rw [he]
      simpa using this.symm
    have hk : k.length ≤ j.length := by simp at hlen; omega
    refine ⟨j.drop k.length, ?_⟩
    have hj2 : (j ++ [x]).take k.length = k := by
      rw [he, List.take_append_of_le_length (by omega)]
      simp
    have hj3 : j.take k.length = k := by
      rw [List.take_append_of_le_length hk] at hj2
      exact hj2
    nth_rewrite 1 [← hj3]
    exact (List.take_append_drop k.length j).symm

/-! ## `childKeys` structure -/

theorem childKeys_length (k : Key) (n : Nat) : (childKeys k n).length = n := by
  simp [childKeys]

theorem mem_childKeys {k : Key} {n : Nat} {c : Key} :
    c ∈ childKeys k n ↔ ∃ i, i < n ∧ c = k ++ [i] := by
  simp only [childKeys, List.mem_map, List.mem_range]
  constructor
  · rintro ⟨i, h1, h2⟩
    exact ⟨i, h1, h2.symm⟩
  · rintro ⟨i, h1, h2⟩
    exact ⟨i, h1, h2.symm⟩

theorem childKeys_nodup (k : Key) (n : Nat) : (childKeys k n).Nodup := by
  refine (List.nodup_range n).map ?_
  intro a b hab
  have := List.append_cancel_left hab
  simpa using this

theorem jsGet_childKeys {k : Key} {n i : Nat} (h : i < n) :
    jsGet (childKeys k n) (i : Int) = k ++ [i] := by
  unfold jsGet childKeys
  rw [Int.toNat_ofNat]
  rw [List.getD_eq_getElem _ _ (by simpa using h)]
  simp

theorem childKeys_head_tail (k : Key) {n : Nat} (h : 0 < n) :
    ∃ tl, childKeys k n = (k ++ [0]) :: tl ∧
      tl.getLastD (k ++ [0]) = k ++ [n - 1] := by
  obtain ⟨m, rfl⟩ : ∃ m, n = m + 1 := ⟨n - 1, by omega⟩
  induction m with
  | zero => exact ⟨[], by simp [childKeys, List.range_succ], by simp⟩
  | succ p ih =>
      obtain ⟨tl, h1, h2⟩ := ih (by omega)
      refine ⟨tl ++ [k ++ [p + 1]], ?_, ?_⟩
      · have : childKeys k (p + 1 + 1)
            = childKeys k (p + 1) ++ [k ++ [p + 1]] := by
          simp [childKeys, List.range_succ]
        rw [this, h1]
        simp
      · simp

theorem mem_childKeys_below {k : Key} {n : Nat} {c : Key}
    (h : c ∈ childKeys k n) : Below k c ∧ c ≠ k := by
  obtain ⟨i, -, rfl⟩ := mem_childKeys.mp h
  exact ⟨below_app k [i], child_ne_parent k i⟩

theorem getLastD_mem (cs : List Key) (c : Key) : cs.getLastD c ∈ c :: cs := by
  induction cs generalizing c with
  | nil => simp
  | cons a tl ih =>
      rw [List.getLastD_cons, List.mem_cons]
      right
      exact ih a

/-! ## State lookup through list structure -/

theorem getS_not_mem {st : St} {j : Key} (h : ¬ j ∈ keysOf st) :
    getS st j = {} := by
  induction st with
  | nil => rfl
  | cons p rest ih =>
      rw [getS]
      rw [if_neg (fun hh => h (by simp [keysOf, hh]))]
      exact ih (fun hh => h (by simp [keysOf] at hh ⊢; exact Or.inr hh))

theorem keysOf_append (st1 st2 : St) :
    keysOf (st1 ++ st2) = keysOf st1 ++ keysOf st2 := by
  simp [keysOf]

theorem getS_append_not_mem {st1 : St} (st2 : St) {j : Key}
    (h : ¬ j ∈ keysOf st1) : getS (st1 ++ st2) j = getS st2 j := by
  induction st1 with
  | nil => rfl
  | cons p rest ih =>
      rw [List.cons_append, getS]
      rw [if_neg (fun hh => h (by simp [keysOf, hh]))]
      exact ih (fun hh => h (by simp [keysOf] at hh ⊢; exact Or.inr hh))

theorem getS_append_mem {st1 : St} (st2 : St) {j : Key}
    (h : j ∈ keysOf st1) : getS (st1 ++ st2) j = getS st1 j := by
  induction st1 with
  | nil => simp [keysOf] at h
  | cons p rest ih =>
      rw [List.cons_append, getS, getS]
      by_cases hp : p.1 = j
      · rw [if_pos hp, if_pos hp]
      · rw [if_neg hp, if_neg hp]
        refine ih ?_
        simp only [keysOf, List.map_cons, List.mem_cons] at h
        rcases h with h | h
        · exact absurd h.symm hp
        · exact h

/-! ## `allKeys` structure -/

theorem self_mem_allKeys (lt : LayoutTree) (k : Key) : k ∈ allKeys lt k := by
  cases lt with
  | mk i n w h e d num cs =>
      rw [allKeys]
      exact List.mem_cons_self k _

mutual

theorem mem_allKeys_below (lt : LayoutTree) (k j : Key)
    (h : j ∈ allKeys lt k) : Below k j := by
  cases lt with
  | mk i n w hh e d num cs =>
      rw [allKeys] at h
      rcases List.mem_cons.mp h with h | h
      · exact h ▸ below_refl k
      · obtain ⟨m, -, -, hm⟩ := mem_allKeysChildren_decomp cs k 0 j h
        exact below_trans (below_app k [m]) hm

theorem mem_allKeysChildren_decomp (cs : List LayoutTree) (k : Key) (i : Nat)
    (j : Key) (h : j ∈ allKeysChildren cs k i) :
    ∃ m, i ≤ m ∧ m < i + cs.length ∧ Below (k ++ [m]) j := by
  cases cs with
  | nil => rw [allKeysChildren] at h; exact absurd h (List.not_mem_nil j)
  | cons c rest =>
      rw [allKeysChildren] at h
      rcases List.mem_append.mp h with h | h
      · exact ⟨i, le_refl i, by simp, mem_allKeys_below c (k ++ [i]) j h⟩
      · obtain ⟨m, h1, h2, h3⟩ := mem_allKeysChildren_decomp rest k (i + 1) j h
        exact ⟨m, by omega, by simp at h2 ⊢; omega, h3⟩

end

theorem mem_allKeysChildren_root (cs : List LayoutTree) (k : Key) (i : Nat)
    (m : Nat) (h1 : i ≤ m) (h2 : m < i + cs.length) :
    k ++ [m] ∈ allKeysChildren cs k i := by
  induction cs generalizing i with
  | nil => simp at h2; omega
  | cons c rest ih =>
      rw [allKeysChildren]
      rcases Nat.eq_or_lt_of_le h1 with he | hlt
      · subst he
        exact List.mem_append.mpr (Or.inl (self_mem_allKeys c _))
      · refine List.mem_append.mpr (Or.inr (ih (i + 1) hlt ?_))
        simp at h2 ⊢
        omega

mutual

theorem allKeys_nodup (lt : LayoutTree) (k : Key) : (allKeys lt k).Nodup := by
  cases lt with
  | mk i n w h e d num cs =>
      rw [allKeys]
      refine List.nodup_cons.mpr ⟨?_, allKeysChildren_nodup cs k 0⟩
      intro hmem
      obtain ⟨m, -, -, hm⟩ := mem_allKeysChildren_decomp cs k 0 k hmem
      exact not_below_child_parent k m hm

theorem allKeysChildren_nodup (cs : List LayoutTree) (k : Key) (i : Nat) :
    (allKeysChildren cs k i).Nodup := by
  cases cs with
  | nil => rw [allKeysChildren]; exact List.nodup_nil
  | cons c rest =>
      rw [allKeysChildren]
      refine List.Nodup.append (allKeys_nodup c (k ++ [i]))
        (allKeysChildren_nodup rest k (i + 1)) ?_
      intro j hj1 hj2
      obtain ⟨m, hm1, -, hm3⟩ :=
        mem_allKeysChildren_decomp rest k (i + 1) j hj2
      exact sibling_not_below (by omega) (mem_allKeys_below c (k ++ [i]) j hj1)
        hm3

end

mutual

theorem keysOf_initList (lt : LayoutTree) (k : Key) :
    keysOf (initList lt k) = allKeys lt k := by
  cases lt with
  | mk i n w h e d num cs =>
      rw [initList, allKeys]
      simp only [keysOf, List.map_cons]
      rw [← keysOf]
      rw [keysOf_initListChildren cs k 0]

theorem keysOf_initListChildren (cs : List LayoutTree) (k : Key) (i : Nat) :
    keysOf (initListChildren cs k i) = allKeysChildren cs k i := by
  cases cs with
  | nil => rfl
  | cons c rest =>
      rw [initListChildren, allKeysChildren, keysOf, List.map_append]
      rw [← keysOf, ← keysOf]
      rw [keysOf_initList c (k ++ [i]),
        keysOf_initListChildren rest k (i + 1)]

end

mutual

theorem initList_entries (lt : LayoutTree) (k : Key) :
    ∀ p ∈ initList lt k, ∃ lt2 k2, p = (k2, initNode lt2 k2) := by
  cases lt with
  | mk i n w h e d num cs =>
      rw [initList]
      intro p hp
      rcases List.mem_cons.mp hp with hp | hp
      · exact ⟨.mk i n w h e d num cs, k, hp⟩
      · exact initListChildren_entries cs k 0 p hp

theorem initListChildren_entries (cs : List LayoutTree) (k : Key) (i : Nat) :
    ∀ p ∈ initListChildren cs k i, ∃ lt2 k2, p = (k2, initNode lt2 k2) := by
  cases cs with
  | nil => intro p hp; exact absurd hp (List.not_mem_nil p)
  | cons c rest =>
      rw [initListChildren]
      intro p hp
      rcases List.mem_append.mp hp with hp | hp
      · exact initList_entries c (k ++ [i]) p hp
      · exact initListChildren_entries rest k (i + 1) p hp

end

/-- Pointwise facts that hold of every entry and of the default hold of
every lookup. -/
theorem getS_prop (P : NS → Prop) (st : St) (hd : P {})
    (hall : ∀ p ∈ st, P p.2) (j : Key) : P (getS st j) := by
  induction st with
  | nil => exact hd
  | cons p rest ih =>
      rw [getS]
      split
      · exact hall p (List.mem_cons_self p rest)
      · exact ih (fun q hq => hall q (List.mem_cons_of_mem p hq))

theorem initList_mod_zero (lt : LayoutTree) (j : Key) :
    (getS (initList lt []) j).mod = 0 := by
  refine getS_prop (fun ns => ns.mod = 0) _ rfl ?_ j
  intro p hp
  obtain ⟨lt2, k2, rfl⟩ := initList_entries lt [] p hp
  rfl

/-! ## Shape coherence (`SkAt`): establishment and preservation -/

mutual

theorem skAt_congr (lt : LayoutTree) (k : Key) (st st2 : St)
    (hc : ∀ j, Below k j →
      (getS st2 j).children = (getS st j).children)
    (h : SkAt lt k st) : SkAt lt k st2 := by
  cases lt with
  | mk i n w hh e d num cs =>
      rw [SkAt] at h ⊢
      refine ⟨(hc k (below_refl k)).trans h.1, ?_⟩
      refine skAtChildren_congr cs k 0 st st2 ?_ h.2
      intro j m _ _ hb
      exact hc j (below_trans (below_app k [m]) hb)

theorem skAtChildren_congr (cs : List LayoutTree) (k : Key) (i : Nat)
    (st st2 : St)
    (hc : ∀ j m, i ≤ m → m < i + cs.length → Below (k ++ [m]) j →
      (getS st2 j).children = (getS st j).children)
    (h : SkAtChildren cs k i st) : SkAtChildren cs k i st2 := by
  cases cs with
  | nil => rw [SkAtChildren]; exact trivial
  | cons c rest =>
      rw [SkAtChildren] at h ⊢
      refine ⟨skAt_congr c (k ++ [i]) st st2 ?_ h.1, ?_⟩
      · intro j hb
        exact hc j i (le_refl i) (by simp) hb
      · refine skAtChildren_congr rest k (i + 1) st st2 ?_ h.2
        intro j m h1 h2 hb
        exact hc j m (by omega) (by simp at h2 ⊢; omega) hb

end

theorem skAt_of_baseOp {lt : LayoutTree} {k : Key} {st st2 : St}
    (hb : BaseOp st st2) (h : SkAt lt k st) : SkAt lt k st2 :=
  skAt_congr lt k st st2 (fun j _ => (hb.statics j).2.2.2.2.2.2.1) h

mutual

theorem skAt_children_shape (lt : LayoutTree) (k : Key) (st : St)
    (h : SkAt lt k st) :
    ∀ j ∈ allKeys lt k, (∃ n, (getS st j).children = childKeys j n) ∧
      ∀ c ∈ (getS st j).children, c ∈ allKeys lt k := by
  cases lt with
  | mk i n w hh e d num cs =>
      rw [SkAt] at h
      intro j hj
      rw [allKeys] at hj
      rcases List.mem_cons.mp hj with hj | hj
      · subst hj
        refine ⟨⟨cs.length, h.1⟩, ?_⟩
        intro c hc
        rw [h.1] at hc
        obtain ⟨m, hm, rfl⟩ := mem_childKeys.mp hc
        rw [allKeys]
        exact List.mem_cons_of_mem _ (mem_allKeysChildren_root cs j 0 m
          (by omega) (by omega))
      · obtain ⟨hsh, hcl⟩ := skAtChildren_shape cs k 0 st h.2 j hj
        refine ⟨hsh, ?_⟩
        intro c hc
        rw [allKeys]
        exact List.mem_cons_of_mem _ (hcl c hc)

theorem skAtChildren_shape (cs : List LayoutTree) (k : Key) (i : Nat)
    (st : St) (h : SkAtChildren cs k i st) :
    ∀ j ∈ allKeysChildren cs k i,
      (∃ n, (getS st j).children = childKeys j n) ∧
      ∀ c ∈ (getS st j).children, c ∈ allKeysChildren cs k i := by
  cases cs with
  | nil => intro j hj; exact absurd hj (List.not_mem_nil j)
  | cons c rest =>
      rw [SkAtChildren] at h
      intro j hj
      rw [allKeysChildren] at hj ⊢
      rcases List.mem_append.mp hj with hj | hj
      · obtain ⟨hsh, hcl⟩ := skAt_children_shape c (k ++ [i]) st h.1 j hj
        exact ⟨hsh, fun c2 hc2 => List.mem_append.mpr (Or.inl (hcl c2 hc2))⟩
      · obtain ⟨hsh, hcl⟩ := skAtChildren_shape rest k (i + 1) st h.2 j hj
        exact ⟨hsh, fun c2 hc2 => List.mem_append.mpr (Or.inr (hcl c2 hc2))⟩

end

mutual

theorem skAt_init_extend (lt : LayoutTree) (k : Key) (st : St)
    (h : ∀ j, Below k j → getS st j = getS (initList lt k) j) :
    SkAt lt k st := by
  cases lt with
  | mk i n w hh e d num cs =>
      rw [SkAt]
      constructor
      · rw [h k (below_refl k), initList, getS, if_pos rfl]
        rfl
      · refine skAtChildren_init_extend cs k 0 st ?_
        intro j m h1 h2 hb
        rw [h j (below_trans (below_app k [m]) hb)]
        rw [initList, getS]
        rw [if_neg ?_]
        intro he
        exact (strictBelow_of_below_child hb).2 he.symm

theorem skAtChildren_init_extend (cs : List LayoutTree) (k : Key) (i : Nat)
    (st : St)
    (h : ∀ j m, i ≤ m → m < i + cs.length → Below (k ++ [m]) j →
      getS st j = getS (initListChildren cs k i) j) :
    SkAtChildren cs k i st := by
  cases cs with
  | nil => rw [SkAtChildren]; exact trivial
  | cons c rest =>
      rw [SkAtChildren]
      constructor
      · refine skAt_init_extend c (k ++ [i]) st ?_
        intro j hb
        rw [h j i (le_refl i) (by simp) hb]
        rw [initListChildren]
        by_cases hm : j ∈ keysOf (initList c (k ++ [i]))
        · rw [getS_append_mem _ hm]
        · rw [getS_append_not_mem _ hm, getS_not_mem hm]
          rw [getS_not_mem ?_]
          rw [keysOf_initListChildren]
          intro hmem
          obtain ⟨m2, hm1, -, hm3⟩ :=
            mem_allKeysChildren_decomp rest k (i + 1) j hmem
          exact sibling_not_below (by omega) hb hm3
      · refine skAtChildren_init_extend rest k (i + 1) st ?_
        intro j m h1 h2 hb
        rw [h j m (by omega) (by simp at h2 ⊢; omega) hb]
        rw [initListChildren]
        rw [getS_append_not_mem]
        rw [keysOf_initList]
        intro hmem
        exact sibling_not_below (by omega) hb
          (mem_allKeys_below c (k ++ [i]) j hmem)

end

theorem skAt_initList (lt : LayoutTree) (k : Key) :
    SkAt lt k (initList lt k) :=
  skAt_init_extend lt k (initList lt k) (fun j _ => rfl)

/-! ## `WalkOp` / `RigidAt` algebra -/

theorem walkOp_refl (P : Key → Prop) (st : St) : WalkOp P st st :=
  ⟨baseOp_refl st, fun _ => rfl, fun _ => rfl, fun _ _ => rfl, fun _ _ => rfl,
    fun _ _ => rfl, fun _ _ _ => rfl⟩

theorem walkOp_mono {P Q : Key → Prop} {st st2 : St}
    (h : ∀ j, P j → Q j) (w : WalkOp P st st2) : WalkOp Q st st2 :=
  ⟨w.base, w.x, w.y, fun j hj => w.prelim j (fun hp => hj (h j hp)),
    fun j hj => w.change j (fun hp => hj (h j hp)),
    fun j hj => w.shift j (fun hp => hj (h j hp)),
    fun j hj hch => w.mod j (fun hp => hj (h j hp)) hch⟩

theorem walkOp_trans {P : Key → Prop} {st1 st2 st3 : St}
    (h1 : WalkOp P st1 st2) (h2 : WalkOp P st2 st3) : WalkOp P st1 st3 := by
  refine ⟨baseOp_trans h1.base h2.base, fun j => (h2.x j).trans (h1.x j),
    fun j => (h2.y j).trans (h1.y j),
    fun j hj => (h2.prelim j hj).trans (h1.prelim j hj),
    fun j hj => (h2.change j hj).trans (h1.change j hj),
    fun j hj => (h2.shift j hj).trans (h1.shift j hj),
    fun j hj hch => ?_⟩
  have hch2 : (getS st2 j).children ≠ [] := by
    rw [(h1.base.statics j).2.2.2.2.2.2.1]
    exact hch
  exact (h2.mod j hj hch2).trans (h1.mod j hj hch)

theorem walkOp_ite {c : Prop} [Decidable c] {P : Key → Prop} {st f g : St}
    (hf : WalkOp P st f) (hg : WalkOp P st g) :
    WalkOp P st (if c then f else g) := by
  split
  · exact hf
  · exact hg

/-- Master lemma for a single in-place write: region `P` must contain the
target unless the touched field is untouched (for `mod`, a childless target
is also fine). -/
theorem walkOp_updS (P : Key → Prop) (st : St) (k : Key) (f : NS → NS)
    (hstat : ∀ ns, (f ns).id = ns.id ∧ (f ns).width = ns.width ∧
      (f ns).height = ns.height ∧ (f ns).expanded = ns.expanded ∧
      (f ns).depth = ns.depth ∧ (f ns).number = ns.number ∧
      (f ns).children = ns.children ∧ (f ns).srcChildCount = ns.srcChildCount)
    (hx : ∀ ns, (f ns).x = ns.x) (hy : ∀ ns, (f ns).y = ns.y)
    (hp : P k ∨ ∀ ns, (f ns).prelim = ns.prelim)
    (hc : P k ∨ ∀ ns, (f ns).change = ns.change)
    (hs : P k ∨ ∀ ns, (f ns).shift = ns.shift)
    (hm : P k ∨ (getS st k).children = [] ∨ ∀ ns, (f ns).mod = ns.mod) :
    WalkOp P st (updS st k f) := by
  refine ⟨baseOp_updS st k f hstat, ?_, ?_, ?_, ?_, ?_, ?_⟩
  · intro j
    rw [getS_updS]
    split
    · rename_i hcond
      obtain ⟨rfl, -⟩ := hcond
      exact hx _
    · rfl
  · intro j
    rw [getS_updS]
    split
    · rename_i hcond
      obtain ⟨rfl, -⟩ := hcond
      exact hy _
    · rfl
  · intro j hPj
    rw [getS_updS]
    split
    · rename_i hcond
      obtain ⟨rfl, -⟩ := hcond
      rcases hp with hp | hp
      · exact absurd hp hPj
      · exact hp _
    · rfl
  · intro j hPj
    rw [getS_updS]
    split
    · rename_i hcond
      obtain ⟨rfl, -⟩ := hcond
      rcases hc with hc | hc
      · exact absurd hc hPj
      · exact hc _
    · rfl
  · intro j hPj
    rw [getS_updS]
    split
    · rename_i hcond
      obtain ⟨rfl, -⟩ := hcond
      rcases hs with hs | hs
      · exact absurd hs hPj
      · exact hs _
    · rfl
  · intro j hPj hch
    rw [getS_updS]
    split
    · rename_i hcond
      obtain ⟨rfl, -⟩ := hcond
      rcases hm with hm | hm | hm
      · exact absurd hm hPj
      · exact absurd hm hch
      · exact hm _
    · rfl

/-- Lookups commute with an update that preserves the observed field. -/
theorem updS_preserve {α : Sort _} (g : NS → α) (st : St) (k : Key)
    (f : NS → NS) (hf : ∀ ns, g (f ns) = g ns) (j : Key) :
    g (getS (updS st k f) j) = g (getS st j) := by
  rw [getS_updS]
  split
  · rename_i hcond
    obtain ⟨rfl, -⟩ := hcond
    exact hf _
  · rfl

theorem rigidAt_of_eq {st st2 : St} {j : Key}
    (hp : (getS st2 j).prelim = (getS st j).prelim)
    (hm : (getS st2 j).mod = (getS st j).mod) : RigidAt st st2 j :=
  ⟨0, by rw [hp, add_zero], by rw [hm, add_zero]⟩

theorem rigidAt_trans {st1 st2 st3 : St} {j : Key} (h1 : RigidAt st1 st2 j)
    (h2 : RigidAt st2 st3 j) : RigidAt st1 st3 j := by
  obtain ⟨d1, hp1, hm1⟩ := h1
  obtain ⟨d2, hp2, hm2⟩ := h2
  exact ⟨d1 + d2, by rw [hp2, hp1]; ring, by rw [hm2, hm1]; ring⟩

theorem rigidAt_ite {c : Prop} [Decidable c] {st f g : St} {j : Key}
    (hf : RigidAt st f j) (hg : RigidAt st g j) :
    RigidAt st (if c then f else g) j := by
  split
  · exact hf
  · exact hg

/-! ## Frame facts for the individual layout ops -/

theorem walkOp_moveSubtree (wl wr : Key) (S : ℚ) (st : St) :
    WalkOp (fun j => j = wr) st (moveSubtree wl wr S st) := by
  rw [moveSubtree]
  split
  · exact walkOp_updS _ st wr _ (fun ns => by simp) (fun ns => rfl)
      (fun ns => rfl) (Or.inl rfl) (Or.inl rfl) (Or.inl rfl) (Or.inl rfl)
  · exact walkOp_refl _ st

theorem moveSubtree_rigid (wl wr : Key) (S : ℚ) (st : St) :
    RigidAt st (moveSubtree wl wr S st) wr := by
  rw [moveSubtree]
  split
  · by_cases hm : wr ∈ keysOf st
    · exact ⟨S, by rw [getS_updS_mem st wr _ hm], by rw [getS_updS_mem st wr _ hm]⟩
    · exact rigidAt_of_eq (by rw [getS_updS_not_mem st wr _ hm])
        (by rw [getS_updS_not_mem st wr _ hm])
  · exact rigidAt_of_eq rfl rfl

theorem nextRight_none {st : St} {r : Key} (h : nextRight st r = none) :
    (getS st r).children = [] := by
  rw [nextRight] at h
  rcases hc : (getS st r).children with _ | ⟨c, cs⟩
  · rfl
  · rw [hc] at h
    obtain ⟨a, ha⟩ := Option.isSome_iff_exists.mp
      (List.getLast?_isSome.mpr (List.cons_ne_nil c cs))
    rw [ha] at h
    simp at h

theorem nextLeft_none {st : St} {r : Key} (h : nextLeft st r = none) :
    (getS st r).children = [] := by
  rw [nextLeft] at h
  rcases hc : (getS st r).children with _ | ⟨c, cs⟩
  · rfl
  · rw [hc] at h
    simp at h

theorem threadAdjR_walk (P : Key → Prop) (s : St) (vIL vOR : Option Key)
    (δ : ℚ) :
    WalkOp P s (if (nextRightO s vIL).isSome && (nextRightO s vOR).isNone
      then
        match vOR with
        | some r0 => updS s r0 (fun ns =>
            { ns with thread := nextRightO s vIL, mod := ns.mod + δ })
        | none => s
      else s) := by
  split
  · rename_i hc1
    rcases hO : vOR with _ | r0
    · exact walkOp_refl P s
    · subst hO
      have hch : (getS s r0).children = [] := by
        rw [Bool.and_eq_true] at hc1
        exact nextRight_none (by
          have := hc1.2
          rw [Option.isNone_iff_eq_none] at this
          simpa [nextRightO] using this)
      exact walkOp_updS P s r0 _ (fun ns => by simp) (fun ns => rfl)
        (fun ns => rfl) (Or.inr fun ns => rfl) (Or.inr fun ns => rfl)
        (Or.inr fun ns => rfl) (Or.inr (Or.inl hch))
  · exact walkOp_refl P s

theorem threadAdjL_walk (P : Key → Prop) (s : St) (vIR vOL : Option Key)
    (δ : ℚ) :
    WalkOp P s (if (nextLeftO s vIR).isSome && (nextLeftO s vOL).isNone
      then
        match vOL with
        | some l0 => updS s l0 (fun ns =>
            { ns with thread := nextLeftO s vIR, mod := ns.mod + δ })
        | none => s
      else s) := by
  split
  · rename_i hc1
    rcases hO : vOL with _ | l0
    · exact walkOp_refl P s
    · subst hO
      have hch : (getS s l0).children = [] := by
        rw [Bool.and_eq_true] at hc1
        exact nextLeft_none (by
          have := hc1.2
          rw [Option.isNone_iff_eq_none] at this
          simpa [nextLeftO] using this)
      exact walkOp_updS P s l0 _ (fun ns => by simp) (fun ns => rfl)
        (fun ns => rfl) (Or.inr fun ns => rfl) (Or.inr fun ns => rfl)
        (Or.inr fun ns => rfl) (Or.inr (Or.inl hch))
  · exact walkOp_refl P s

theorem threadAdjR_rigid (s : St) (vIL vOR : Option Key) (δ : ℚ) (v : Key)
    (hch : (getS s v).children ≠ []) :
    (getS (if (nextRightO s vIL).isSome && (nextRightO s vOR).isNone
      then
        match vOR with
        | some r0 => updS s r0 (fun ns =>
            { ns with thread := nextRightO s vIL, mod := ns.mod + δ })
        | none => s
      else s) v).prelim = (getS s v).prelim ∧
    (getS (if (nextRightO s vIL).isSome && (nextRightO s vOR).isNone
      then
        match vOR with
        | some r0 => updS s r0 (fun ns =>
            { ns with thread := nextRightO s vIL, mod := ns.mod + δ })
        | none => s
      else s) v).mod = (getS s v).mod := by
  split
  · rename_i hc1
    rcases hO : vOR with _ | r0
    · exact ⟨rfl, rfl⟩
    · subst hO
      have hcr : (getS s r0).children = [] := by
        rw [Bool.and_eq_true] at hc1
        exact nextRight_none (by
          have := hc1.2
          rw [Option.isNone_iff_eq_none] at this
          simpa [nextRightO] using this)
      have hne : v ≠ r0 := by
        intro hh
        rw [hh] at hch
        exact hch hcr
      rw [getS_updS_ne _ _ _ _ hne]
      exact ⟨rfl, rfl⟩
  · exact ⟨rfl, rfl⟩

theorem threadAdjL_rigid (s : St) (vIR vOL : Option Key) (δ : ℚ) (v : Key)
    (hch : (getS s v).children ≠ []) :
    (getS (if (nextLeftO s vIR).isSome && (nextLeftO s vOL).isNone
      then
        match vOL with
        | some l0 => updS s l0 (fun ns =>
            { ns with thread := nextLeftO s vIR, mod := ns.mod + δ })
        | none => s
      else s) v).prelim = (getS s v).prelim ∧
    (getS (if (nextLeftO s vIR).isSome && (nextLeftO s vOL).isNone
      then
        match vOL with
        | some l0 => updS s l0 (fun ns =>
            { ns with thread := nextLeftO s vIR, mod := ns.mod + δ })
        | none => s
      else s) v).mod = (getS s v).mod := by
  split
  · rename_i hc1
    rcases hO : vOL with _ | l0
    · exact ⟨rfl, rfl⟩
    · subst hO
      have hcr : (getS s l0).children = [] := by
        rw [Bool.and_eq_true] at hc1
        exact nextLeft_none (by
          have := hc1.2
          rw [Option.isNone_iff_eq_none] at this
          simpa [nextLeftO] using this)
      have hne : v ≠ l0 := by
        intro hh
        rw [hh] at hch
        exact hch hcr
      rw [getS_updS_ne _ _ _ _ hne]
      exact ⟨rfl, rfl⟩
  · exact ⟨rfl, rfl⟩

theorem apportionTail_walk (P : Key → Prop) (a : ALoop) :
    WalkOp P a.st (apportionTail a) := by
  unfold apportionTail
  exact walkOp_trans (threadAdjR_walk P a.st a.vIL a.vOR (a.sIL - a.sOR))
    (threadAdjL_walk P _ a.vIR a.vOL (a.sIR - a.sOL))

theorem apportionTail_rigid (a : ALoop) (v : Key)
    (hch : (getS a.st v).children ≠ []) :
    RigidAt a.st (apportionTail a) v := by
  simp only [apportionTail]
  have R1 := threadAdjR_rigid a.st a.vIL a.vOR (a.sIL - a.sOR) v hch
  have W1 := threadAdjR_walk (fun _ => False) a.st a.vIL a.vOR
    (a.sIL - a.sOR)
  generalize hS2 : (if (nextRightO a.st a.vIL).isSome
        && (nextRightO a.st a.vOR).isNone
      then
        match a.vOR with
        | some r0 => updS a.st r0 (fun ns =>
            { ns with thread := nextRightO a.st a.vIL,
                      mod := ns.mod + (a.sIL - a.sOR) })
        | none => a.st
      else a.st) = s2
  rw [hS2] at R1 W1
  have hch2 : (getS s2 v).children ≠ [] := by
    rw [(W1.base.statics v).2.2.2.2.2.2.1]
    exact hch
  have R2 := threadAdjL_rigid s2 a.vIR a.vOL (a.sIR - a.sOL) v hch2
  exact rigidAt_of_eq (R2.1.trans R1.1) (R2.2.trans R1.2)

theorem apportionLoop_walk (v da : Key) (sibs : List Key) (fuel : Nat)
    (a : ALoop) :
    WalkOp (fun j => j = v) a.st (apportionLoop v da sibs fuel a).st ∧
    RigidAt a.st (apportionLoop v da sibs fuel a).st v := by
  induction fuel generalizing a with
  | zero => exact ⟨walkOp_refl _ a.st, rigidAt_of_eq rfl rfl⟩
  | succ n ih =>
      rw [apportionLoop]
      split
      case h_2 => exact ⟨walkOp_refl _ a.st, rigidAt_of_eq rfl rfl⟩
      case h_1 nIL nIR heq =>
        have hanc : WalkOp (fun j => j = v) a.st
            (match nextRightO a.st a.vOR with
              | some r => updS a.st r (fun ns => { ns with ancestor := v })
              | none => a.st) := by
          rcases nextRightO a.st a.vOR with _ | r
          · exact walkOp_refl _ a.st
          · exact walkOp_updS _ a.st r _ (fun ns => by simp) (fun ns => rfl)
              (fun ns => rfl) (Or.inr fun ns => rfl) (Or.inr fun ns => rfl)
              (Or.inr fun ns => rfl) (Or.inr (Or.inr fun ns => rfl))
        have hancR : RigidAt a.st
            (match nextRightO a.st a.vOR with
              | some r => updS a.st r (fun ns => { ns with ancestor := v })
              | none => a.st) v := by
          rcases nextRightO a.st a.vOR with _ | r
          · exact rigidAt_of_eq rfl rfl
          · exact rigidAt_of_eq
              (updS_preserve (fun ns => ns.prelim) a.st r
                (fun ns => { ns with ancestor := v }) (fun ns => rfl) v)
              (updS_preserve (fun ns => ns.mod) a.st r
                (fun ns => { ns with ancestor := v }) (fun ns => rfl) v)
        refine ⟨walkOp_trans ?_ (ih _).1, rigidAt_trans ?_ (ih _).2⟩
        · exact walkOp_ite
            (walkOp_trans hanc (walkOp_moveSubtree _ v _ _)) hanc
        · exact rigidAt_ite
            (rigidAt_trans hancR (moveSubtree_rigid _ v _ _)) hancR

theorem apportion_walk (fuel : Nat) (v da : Key) (sibs : List Key)
    (st : St) :
    WalkOp (fun j => j = v) st (apportion fuel v da sibs st).2 ∧
    ((getS st v).children ≠ [] →
      RigidAt st (apportion fuel v da sibs st).2 v) := by
  obtain ⟨WL, RL⟩ :=
    apportionLoop_walk v da sibs fuel (apportionStart v sibs st)
  simp only [apportion]
  by_cases h : jsIndexOf sibs v ≤ 0
  · rw [if_pos h]
    exact ⟨walkOp_refl _ st, fun _ => rigidAt_of_eq rfl rfl⟩
  · rw [if_neg h]
    constructor
    · exact walkOp_trans WL (apportionTail_walk _
        (apportionLoop v da sibs fuel (apportionStart v sibs st)))
    · intro hch
      refine rigidAt_trans RL (apportionTail_rigid
        (apportionLoop v da sibs fuel (apportionStart v sibs st)) v ?_)
      rw [(WL.base.statics v).2.2.2.2.2.2.1]
      exact hch

/-! ## `executeShifts` frame facts -/

theorem execShiftsAux_untouched (L : List Key) (sa ca : ℚ) (st : St)
    (j : Key) (hj : ¬ j ∈ L) :
    getS (executeShiftsAux L sa ca st) j = getS st j := by
  induction L generalizing sa ca st with
  | nil => rfl
  | cons c rest ih =>
      rw [executeShiftsAux]
      rw [ih _ _ _ (fun hh => hj (List.mem_cons_of_mem c hh))]
      exact getS_updS_ne st c _ j (fun hh => hj (hh ▸ List.mem_cons_self c rest))

theorem execShiftsAux_preserve {α : Sort _} (g : NS → α)
    (hg : ∀ ns δ, g { ns with prelim := ns.prelim + δ, mod := ns.mod + δ }
      = g ns) (L : List Key) (sa ca : ℚ) (st : St) (j : Key) :
    g (getS (executeShiftsAux L sa ca st) j) = g (getS st j) := by
  induction L generalizing sa ca st with
  | nil => rfl
  | cons c rest ih =>
      rw [executeShiftsAux]
      rw [ih _ _ _]
      exact updS_preserve g st c _ (fun ns => hg ns sa) j

theorem execShiftsAux_rigid (L : List Key) (hnd : L.Nodup) (sa ca : ℚ)
    (st : St) : ∀ c ∈ L, RigidAt st (executeShiftsAux L sa ca st) c := by
  induction L generalizing sa ca st with
  | nil => intro c hc; exact absurd hc (List.not_mem_nil c)
  | cons c0 rest ih =>
      intro c hc
      rw [executeShiftsAux]
      have hnr : ¬ c0 ∈ rest := (List.nodup_cons.mp hnd).1
      rcases List.mem_cons.mp hc with rfl | hc
      · have h1 : RigidAt st (updS st c (fun ns =>
            { ns with prelim := ns.prelim + sa, mod := ns.mod + sa })) c := by
          by_cases hm : c ∈ keysOf st
          · exact ⟨sa, by rw [getS_updS_mem st c _ hm],
              by rw [getS_updS_mem st c _ hm]⟩
          · exact rigidAt_of_eq (by rw [getS_updS_not_mem st c _ hm])
              (by rw [getS_updS_not_mem st c _ hm])
        have h2 := execShiftsAux_untouched rest
          (sa + (getS st c).shift + (ca + (getS st c).change))
          (ca + (getS st c).change) (updS st c (fun ns =>
            { ns with prelim := ns.prelim + sa, mod := ns.mod + sa })) c hnr
        exact rigidAt_trans h1 (rigidAt_of_eq (by rw [h2]) (by rw [h2]))
      · have hne : c ≠ c0 := fun hh => hnr (hh ▸ hc)
        refine rigidAt_trans (rigidAt_of_eq ?_ ?_)
          (ih (List.nodup_cons.mp hnd).2 _ _ _ c hc)
        · rw [getS_updS_ne _ _ _ _ hne]
        · rw [getS_updS_ne _ _ _ _ hne]

/-! ## Preservation of the Buchheim invariant -/

theorem modEqAt_of_nil {st : St} {j : Key}
    (h : (getS st j).children = []) : modEqAt st j := by
  intro c cs hcc
  rw [h] at hcc
  exact absurd hcc (List.cons_ne_nil c cs).symm

theorem modEqAt_walkOp_preserve {P : Key → Prop} {st st2 : St} {j : Key}
    (w : WalkOp P st st2) (hj : ¬ P j)
    (hch : ∀ c ∈ (getS st j).children, ¬ P c)
    (h : modEqAt st j) : modEqAt st2 j := by
  intro c cs hcc
  have hcj : (getS st j).children = c :: cs := by
    rw [← (w.base.statics j).2.2.2.2.2.2.1]
    exact hcc
  have hne : (getS st j).children ≠ [] := by rw [hcj]; simp
  have hcmem : c ∈ (getS st j).children := by rw [hcj]; simp
  have hlmem : cs.getLastD c ∈ (getS st j).children := by
    rw [hcj]
    exact getLastD_mem cs c
  rw [w.mod j hj hne, w.prelim j hj, w.prelim c (hch c hcmem),
    w.prelim _ (hch _ hlmem), (w.base.statics (cs.getLastD c)).2.1,
    (w.base.statics j).2.1]
  exact h c cs hcj

theorem modEqAt_rigid_preserve {st st2 : St} {j : Key}
    (hch : (getS st2 j).children = (getS st j).children)
    (hw : (getS st2 j).width = (getS st j).width)
    (hr : RigidAt st st2 j)
    (hcp : ∀ c ∈ (getS st j).children,
      (getS st2 c).prelim = (getS st c).prelim ∧
      (getS st2 c).width = (getS st c).width)
    (h : modEqAt st j) : modEqAt st2 j := by
  intro c cs hcc
  have hcj : (getS st j).children = c :: cs := by rw [← hch]; exact hcc
  have hcmem : c ∈ (getS st j).children := by rw [hcj]; simp
  have hlmem : cs.getLastD c ∈ (getS st j).children := by
    rw [hcj]
    exact getLastD_mem cs c
  obtain ⟨δ, hp, hm⟩ := hr
  rw [hm, hp, hw, (hcp c hcmem).1, (hcp _ hlmem).1, (hcp _ hlmem).2]
  rw [h c cs hcj]
  ring

theorem modEqAt_updS_preserve {st : St} {t : Key} {f : NS → NS} {j : Key}
    (hne : j ≠ t) (hnc : ¬ t ∈ (getS st j).children)
    (h : modEqAt st j) : modEqAt (updS st t f) j := by
  intro c cs hcc
  rw [getS_updS_ne st t f j hne] at hcc ⊢
  have hcmem : c ∈ (getS st j).children := by rw [hcc]; simp
  have hlmem : cs.getLastD c ∈ (getS st j).children := by
    rw [hcc]
    exact getLastD_mem cs c
  rw [getS_updS_ne st t f c (fun hh => hnc (hh ▸ hcmem)),
    getS_updS_ne st t f _ (fun hh => hnc (hh ▸ hlmem))]
  exact h c cs hcc

/-! ## Small `childKeys` / `jsGet` bridges -/

theorem jsGet_childKeys_zero {k : Key} {n : Nat} (h : 0 < n) :
    jsGet (childKeys k n) 0 = k ++ [0] := by
  simpa using jsGet_childKeys h

theorem jsGet_childKeys_last {k : Key} {n : Nat} (h : 0 < n) :
    jsGet (childKeys k n) ((n : Int) - 1) = k ++ [n - 1] := by
  have h2 : ((n : Int) - 1) = ((n - 1 : Nat) : Int) := by omega
  rw [h2, jsGet_childKeys (by omega)]

theorem childKeys_ne_nil {k : Key} {n : Nat} (h : 0 < n) :
    childKeys k n ≠ [] := by
  intro hh
  have := childKeys_length k n
  rw [hh] at this
  simp at this
  omega

theorem mem_childKeys_length {k : Key} {n : Nat} {c : Key}
    (h : c ∈ childKeys k n) : c.length = k.length + 1 := by
  obtain ⟨i, -, rfl⟩ := mem_childKeys.mp h
  simp

theorem skAtChildren_of_baseOp {cs : List LayoutTree} {k : Key} {i : Nat}
    {st st2 : St} (hb : BaseOp st st2) (h : SkAtChildren cs k i st) :
    SkAtChildren cs k i st2 :=
  skAtChildren_congr cs k i st st2
    (fun j _ _ _ _ => (hb.statics j).2.2.2.2.2.2.1) h

/-! ## The `firstWalk` master invariant (frame + Buchheim equation) -/

mutual

theorem fw_master (fuel : Nat) (sk : LayoutTree) :
    ∀ (k : Key) (siblings : List Key) (st : St),
    SkAt sk k st →
    (∀ j ∈ allKeys sk k, j ∈ keysOf st) →
    (∀ j, Below k j → (getS st j).children ≠ [] → (getS st j).mod = 0) →
    WalkOp (Below k) st (firstWalk fuel sk k siblings st) ∧
    ∀ j ∈ allKeys sk k, modEqAt (firstWalk fuel sk k siblings st) j := by
  cases sk with
  | mk i0 n0 w0 h0 e0 d0 num0 cs =>
      intro k siblings st hsk hkeys hfresh
      rw [SkAt] at hsk
      obtain ⟨hskc, hskcs⟩ := hsk
      simp only [firstWalk]
      by_cases hcs : cs.isEmpty
      · rw [if_pos hcs]
        have hcs' : cs = [] := by simpa using hcs
        subst hcs'
        have hchk : (getS st k).children = [] := by
          rw [hskc]
          rfl
        constructor
        · refine walkOp_ite ?_ ?_ <;>
            exact walkOp_updS _ st k _ (fun ns => by simp) (fun ns => rfl)
              (fun ns => rfl) (Or.inl (below_refl k)) (Or.inr fun ns => rfl)
              (Or.inr fun ns => rfl) (Or.inr (Or.inr fun ns => rfl))
        · intro j hj
          rw [allKeys, allKeysChildren] at hj
          rcases List.mem_cons.mp hj with rfl | hj
          · apply modEqAt_of_nil
            split <;> (rw [getS_updS]; split <;> exact hchk)
          · exact absurd hj (List.not_mem_nil j)
      · rw [if_neg hcs]
        have hn : 0 < cs.length := by
          cases cs with
          | nil => simp at hcs
          | cons a b => simp
        have hchk : (getS st k).children ≠ [] := by
          rw [hskc]
          exact childKeys_ne_nil hn
        obtain ⟨WA, MA⟩ := fwc_master fuel cs k (childKeys k cs.length) 0
          (jsGet (childKeys k cs.length) 0) st hskcs
          (fun j hj => hkeys j (by
            rw [allKeys]
            exact List.mem_cons_of_mem _ hj))
          (fun j m _ hm hb hc2 => hfresh j
            (below_trans (below_app k [m]) hb) hc2)
        obtain ⟨sA, hsA⟩ : ∃ sA,
            (firstWalkChildren fuel cs k (childKeys k cs.length) 0
              (jsGet (childKeys k cs.length) 0) st).2 = sA := ⟨_, rfl⟩
        rw [hsA] at WA MA ⊢
        have hSkA : SkAtChildren cs k 0 sA :=
          skAtChildren_of_baseOp WA.base hskcs
        have hchA : (getS sA k).children = childKeys k cs.length := by
          rw [(WA.base.statics k).2.2.2.2.2.2.1]
          exact hskc
        obtain ⟨sB, hsB⟩ : ∃ sB, executeShifts k sA = sB := ⟨_, rfl⟩
        rw [hsB]
        rw [executeShifts, hchA] at hsB
        -- frame of the executeShifts step
        have hmemL : ∀ {j : Key}, j ∈ (childKeys k cs.length).reverse ↔
            j ∈ childKeys k cs.length := by
          intro j
          exact List.mem_reverse
        have hUnt : ∀ j, ¬ j ∈ childKeys k cs.length →
            getS sB j = getS sA j := by
          intro j hj
          rw [← hsB]
          exact execShiftsAux_untouched _ _ _ _ j (fun hh => hj (hmemL.mp hh))
        have WB : WalkOp (Below k) sA sB := by
          refine ⟨?_, ?_, ?_, ?_, ?_, ?_, ?_⟩
          · rw [← hsB]
            exact baseOp_executeShiftsAux _ _ _ _
          · intro j
            rw [← hsB]
            exact execShiftsAux_preserve (fun ns => ns.x) (fun ns δ => rfl)
              _ _ _ _ j
          · intro j
            rw [← hsB]
            exact execShiftsAux_preserve (fun ns => ns.y) (fun ns δ => rfl)
              _ _ _ _ j
          · intro j hj
            rw [hUnt j (fun hh => hj (mem_childKeys_below hh).1)]
          · intro j hj
            rw [← hsB]
            exact execShiftsAux_preserve (fun ns => ns.change)
              (fun ns δ => rfl) _ _ _ _ j
          · intro j hj
            rw [← hsB]
            exact execShiftsAux_preserve (fun ns => ns.shift)
              (fun ns δ => rfl) _ _ _ _ j
          · intro j hj _
            rw [hUnt j (fun hh => hj (mem_childKeys_below hh).1)]
        have RB : ∀ c ∈ childKeys k cs.length, RigidAt sA sB c := by
          intro c hc
          rw [← hsB]
          exact execShiftsAux_rigid _
            (List.nodup_reverse.mpr (childKeys_nodup k _)) _ _ sA
            c (hmemL.mpr hc)
        have hkeysB : keysOf sB = keysOf st := by
          rw [← hsB]
          exact (baseOp_trans WA.base (baseOp_executeShiftsAux _ _ _ _)).keys
        have hkmemB : k ∈ keysOf sB := by
          rw [hkeysB]
          exact hkeys k (self_mem_allKeys _ k)
        have hknotL : ¬ k ∈ childKeys k cs.length := by
          intro hh
          have := mem_childKeys_length hh
          omega
        have hmodB0 : (getS sB k).mod = 0 := by
          rw [hUnt k hknotL]
          rw [WA.mod k ?_ hchk]
          · exact hfresh k (below_refl k) hchk
          · rintro ⟨m, -, -, hm⟩
            exact not_below_child_parent k m hm
        have hchB : (getS sB k).children = childKeys k cs.length := by
          rw [hUnt k hknotL]
          exact hchA
        -- the head/last children
        obtain ⟨tl, hht, hlast⟩ := childKeys_head_tail (k := k) hn
        have hfcne : (k ++ [0] : Key) ≠ k := child_ne_parent k 0
        have hlcne : (k ++ [cs.length - 1] : Key) ≠ k :=
          child_ne_parent k (cs.length - 1)
        constructor
        · -- the WalkOp conclusion
          refine walkOp_trans (walkOp_trans (walkOp_mono ?_ WA) WB)
            (walkOp_ite ?_ ?_)
          · rintro j ⟨m, -, -, hm⟩
            exact below_trans (below_app k [m]) hm
          · exact walkOp_updS _ sB k _ (fun ns => by simp) (fun ns => rfl)
              (fun ns => rfl) (Or.inl (below_refl k))
              (Or.inr fun ns => rfl) (Or.inr fun ns => rfl)
              (Or.inl (below_refl k))
          · exact walkOp_updS _ sB k _ (fun ns => by simp) (fun ns => rfl)
              (fun ns => rfl) (Or.inl (below_refl k))
              (Or.inr fun ns => rfl) (Or.inr fun ns => rfl)
              (Or.inr (Or.inr fun ns => rfl))
        · -- the modEq conclusion
          intro j hj
          rw [allKeys] at hj
          rcases List.mem_cons.mp hj with rfl | hj
          · -- establishment at the node itself
            have hmem2 : ∀ f : NS → NS,
                getS (updS sB j f) j = f (getS sB j) :=
              fun f => getS_updS_mem sB j f hkmemB
            split
            · -- pushed right by a left sibling: mod := newPrelim - midpoint
              intro c cs' hcc
              rw [hmem2] at hcc
              have hcc2 : (getS sB j).children = c :: cs' := hcc
              rw [hchB, hht] at hcc2
              injection hcc2 with hc1 hc2
              subst hc1
              subst hc2
              rw [hlast, hmem2]
              rw [getS_updS_ne sB j _ _ (child_ne_parent j 0)]
              rw [getS_updS_ne sB j _ _ (child_ne_parent j (cs.length - 1))]
              dsimp only
              rw [childKeys_length, jsGet_childKeys_zero hn,
                jsGet_childKeys_last hn]
            · -- first sibling: prelim := midpoint, mod untouched (= 0)
              intro c cs' hcc
              rw [hmem2] at hcc
              have hcc2 : (getS sB j).children = c :: cs' := hcc
              rw [hchB, hht] at hcc2
              injection hcc2 with hc1 hc2
              subst hc1
              subst hc2
              rw [hlast, hmem2]
              rw [getS_updS_ne sB j _ _ (child_ne_parent j 0)]
              rw [getS_updS_ne sB j _ _ (child_ne_parent j (cs.length - 1))]
              dsimp only
              rw [hmodB0, childKeys_length, jsGet_childKeys_zero hn,
                jsGet_childKeys_last hn]
              ring
          · -- preservation inside the children's subtrees
            obtain ⟨m, hm0, hmlt, hmb⟩ :=
              mem_allKeysChildren_decomp cs k 0 j hj
            obtain ⟨⟨nj, hshj⟩, -⟩ := skAtChildren_shape cs k 0 sA hSkA j hj
            have hjltk : k.length < j.length := by
              have := below_length hmb
              simp at this
              omega
            have hMB : modEqAt sB j := by
              by_cases hjm : j = k ++ [m]
              · subst hjm
                refine modEqAt_rigid_preserve
                  ((WB.base.statics _).2.2.2.2.2.2.1)
                  ((WB.base.statics _).2.1)
                  (RB _ (mem_childKeys.mpr ⟨m, by omega, rfl⟩)) ?_ (MA _ hj)
                intro c2 hc2
                rw [hshj] at hc2
                have hlen := mem_childKeys_length hc2
                have hnotL : ¬ c2 ∈ childKeys k cs.length := by
                  intro hh
                  have := mem_childKeys_length hh
                  simp at hlen
                  omega
                rw [hUnt c2 hnotL]
                exact ⟨rfl, rfl⟩
              · have hjnotL : ¬ j ∈ childKeys k cs.length := by
                  intro hh
                  have h1 := mem_childKeys_length hh
                  exact hjm (below_eq_of_length_le hmb (by simp; omega))
                have huj := hUnt j hjnotL
                refine modEqAt_rigid_preserve (by rw [huj]) (by rw [huj])
                  (rigidAt_of_eq (by rw [huj]) (by rw [huj])) ?_ (MA _ hj)
                intro c2 hc2
                rw [hshj] at hc2
                have h1 := mem_childKeys_length hc2
                have hnotL2 : ¬ c2 ∈ childKeys k cs.length := by
                  intro hh
                  have h2 := mem_childKeys_length hh
                  omega
                rw [hUnt c2 hnotL2]
                exact ⟨rfl, rfl⟩
            have hnej : j ≠ k := by
              intro hh
              rw [hh] at hjltk
              omega
            have hknotchild : ¬ k ∈ (getS sB j).children := by
              rw [(WB.base.statics j).2.2.2.2.2.2.1, hshj]
              intro hh
              have := mem_childKeys_length hh
              omega
            split <;> exact modEqAt_updS_preserve hnej hknotchild hMB

theorem fwc_master (fuel : Nat) (cs : List LayoutTree) :
    ∀ (k : Key) (childKs : List Key) (i : Nat) (da : Key) (st : St),
    SkAtChildren cs k i st →
    (∀ j ∈ allKeysChildren cs k i, j ∈ keysOf st) →
    (∀ j m, i ≤ m → m < i + cs.length → Below (k ++ [m]) j →
      (getS st j).children ≠ [] → (getS st j).mod = 0) →
    WalkOp (fun j => ∃ m, i ≤ m ∧ m < i + cs.length ∧ Below (k ++ [m]) j) st
      (firstWalkChildren fuel cs k childKs i da st).2 ∧
    ∀ j ∈ allKeysChildren cs k i,
      modEqAt (firstWalkChildren fuel cs k childKs i da st).2 j := by
  cases cs with
  | nil =>
      intro k childKs i da st hsk hkeys hfresh
      rw [firstWalkChildren]
      constructor
      · exact walkOp_refl _ st
      · intro j hj
        rw [allKeysChildren] at hj
        exact absurd hj (List.not_mem_nil j)
  | cons c rest =>
      intro k childKs i da st hsk hkeys hfresh
      rw [SkAtChildren] at hsk
      obtain ⟨hskc, hskrest⟩ := hsk
      simp only [firstWalkChildren]
      obtain ⟨W1, M1⟩ := fw_master fuel c (k ++ [i]) childKs st hskc
        (fun j hj => hkeys j (by
          rw [allKeysChildren]
          exact List.mem_append.mpr (Or.inl hj)))
        (fun j hb hc2 => hfresh j i (le_refl i) (by simp) hb hc2)
      obtain ⟨s1, hs1⟩ : ∃ s1,
          firstWalk fuel c (k ++ [i]) childKs st = s1 := ⟨_, rfl⟩
      rw [hs1] at W1 M1 ⊢
      obtain ⟨W2, R2⟩ := apportion_walk fuel (k ++ [i]) da childKs s1
      obtain ⟨rr, hrr⟩ : ∃ rr,
          apportion fuel (k ++ [i]) da childKs s1 = rr := ⟨_, rfl⟩
      rw [hrr] at W2 R2 ⊢
      have hb12 : BaseOp st rr.2 := baseOp_trans W1.base W2.base
      have hskrest2 : SkAtChildren rest k (i + 1) rr.2 :=
        skAtChildren_of_baseOp hb12 hskrest
      have hfresh2 : ∀ j m, i + 1 ≤ m → m < (i + 1) + rest.length →
          Below (k ++ [m]) j → (getS rr.2 j).children ≠ [] →
          (getS rr.2 j).mod = 0 := by
        intro j m hm1 hm2 hb hc2
        have hnotb : ¬ Below (k ++ [i]) j := sibling_not_below (by omega) hb
        have hne : j ≠ k ++ [i] := by
          intro hh
          rw [hh] at hnotb
          exact hnotb (below_refl _)
        rw [(W2.base.statics j).2.2.2.2.2.2.1,
          (W1.base.statics j).2.2.2.2.2.2.1] at hc2
        rw [W2.mod j hne (by
          rw [(W1.base.statics j).2.2.2.2.2.2.1]
          exact hc2)]
        rw [W1.mod j hnotb hc2]
        exact hfresh j m (by omega) (by simp at hm2 ⊢; omega) hb hc2
      obtain ⟨W3, M3⟩ := fwc_master fuel rest k childKs (i + 1) rr.1 rr.2
        hskrest2
        (fun j hj => by
          rw [hb12.keys]
          exact hkeys j (by
            rw [allKeysChildren]
            exact List.mem_append.mpr (Or.inr hj)))
        hfresh2
      constructor
      · refine walkOp_trans (walkOp_trans (walkOp_mono ?_ W1)
          (walkOp_mono ?_ W2)) (walkOp_mono ?_ W3)
        · intro j hj
          exact ⟨i, le_refl i, by simp, hj⟩
        · intro j hj
          exact ⟨i, le_refl i, by simp, by rw [hj]; exact below_refl _⟩
        · rintro j ⟨m, hm1, hm2, hm3⟩
          exact ⟨m, by omega, by simp at hm2 ⊢; omega, hm3⟩
      · intro j hj
        rw [allKeysChildren] at hj
        rcases List.mem_append.mp hj with hj1 | hj2
        · have hjb : Below (k ++ [i]) j := mem_allKeys_below c (k ++ [i]) j hj1
          have hskc1 : SkAt c (k ++ [i]) s1 := skAt_of_baseOp W1.base hskc
          obtain ⟨⟨nj, hshj⟩, -⟩ :=
            skAt_children_shape c (k ++ [i]) s1 hskc1 j hj1
          have hjlen : (k ++ [i]).length ≤ j.length := below_length hjb
          have hM2 : modEqAt rr.2 j := by
            by_cases hjv : j = k ++ [i]
            · by_cases hc1 : (getS s1 j).children = []
              · apply modEqAt_of_nil
                rw [(W2.base.statics j).2.2.2.2.2.2.1]
                exact hc1
              · refine modEqAt_rigid_preserve
                  ((W2.base.statics j).2.2.2.2.2.2.1)
                  ((W2.base.statics j).2.1) ?_ ?_ (M1 j hj1)
                · rw [hjv]
                  refine R2 ?_
                  rw [← hjv]
                  exact hc1
                · intro c2 hc2
                  rw [hshj] at hc2
                  have h1 := mem_childKeys_length hc2
                  have hne2 : ¬ c2 = k ++ [i] := by
                    intro hh
                    rw [hh, hjv] at h1
                    simp at h1
                  exact ⟨W2.prelim c2 hne2, (W2.base.statics c2).2.1⟩
            · refine modEqAt_walkOp_preserve W2 hjv ?_ (M1 j hj1)
              intro c2 hc2
              rw [hshj] at hc2
              have h1 := mem_childKeys_length hc2
              intro hh
              rw [hh] at h1
              simp at h1 hjlen
              omega
          refine modEqAt_walkOp_preserve W3 ?_ ?_ hM2
          · rintro ⟨m, hm1, hm2, hm3⟩
            exact sibling_not_below (by omega) hjb hm3
          · intro c2 hc2
            rw [(W2.base.statics j).2.2.2.2.2.2.1, hshj] at hc2
            obtain ⟨x, hx, rfl⟩ := mem_childKeys.mp hc2
            rintro ⟨m, hm1, hm2, hm3⟩
            exact sibling_not_below (by omega)
              (below_trans hjb (below_app j [x])) hm3
        · exact M3 j hj2

end

/-! ## The `secondWalk` master lemma: `x = prelim + Σ ancestor mods` -/

mutual

theorem sw_master (sk : LayoutTree) :
    ∀ (k : Key) (m : ℚ) (depth : Nat) (st : St),
    SkAt sk k st →
    (∀ j ∈ allKeys sk k, j ∈ keysOf st) →
    BaseOp st (secondWalk sk k m depth st) ∧
    (∀ j, (getS (secondWalk sk k m depth st) j).prelim
        = (getS st j).prelim ∧
      (getS (secondWalk sk k m depth st) j).mod = (getS st j).mod) ∧
    (∀ j, ¬ Below k j →
      (getS (secondWalk sk k m depth st) j).x = (getS st j).x) ∧
    (getS (secondWalk sk k m depth st) k).x = (getS st k).prelim + m ∧
    (∀ j ∈ allKeys sk k, ∀ c ∈ (getS st j).children,
      (getS (secondWalk sk k m depth st) c).x =
        (getS st c).prelim +
          ((getS (secondWalk sk k m depth st) j).x - (getS st j).prelim) +
          (getS st j).mod) := by
  cases sk with
  | mk i0 n0 w0 h0 e0 d0 num0 cs =>
      intro k m depth st hsk hkeys
      rw [SkAt] at hsk
      obtain ⟨hskc, hskcs⟩ := hsk
      have hkmem : k ∈ keysOf st := hkeys k (self_mem_allKeys _ k)
      simp only [secondWalk]
      obtain ⟨s1, hs1⟩ : ∃ s1, updS st k (fun ns =>
          { ns with x := ns.prelim + m,
                    y := (depth : ℚ) * (NODE_H + NODE_GAP_Y) }) = s1 :=
        ⟨_, rfl⟩
      rw [hs1]
      have hb1 : BaseOp st s1 := by
        rw [← hs1]
        exact baseOp_updS _ _ _ (fun ns => by simp)
      have hpm1 : ∀ j, (getS s1 j).prelim = (getS st j).prelim ∧
          (getS s1 j).mod = (getS st j).mod := by
        intro j
        rw [← hs1]
        exact ⟨updS_preserve (fun ns => ns.prelim) st k (fun ns =>
            { ns with x := ns.prelim + m,
                      y := (depth : ℚ) * (NODE_H + NODE_GAP_Y) })
            (fun ns => rfl) j,
          updS_preserve (fun ns => ns.mod) st k (fun ns =>
            { ns with x := ns.prelim + m,
                      y := (depth : ℚ) * (NODE_H + NODE_GAP_Y) })
            (fun ns => rfl) j⟩
      have hx1k : (getS s1 k).x = (getS st k).prelim + m := by
        rw [← hs1, getS_updS_mem st k _ hkmem]
      have hx1ne : ∀ j, j ≠ k → (getS s1 j).x = (getS st j).x := by
        intro j hj
        rw [← hs1, getS_updS_ne st k _ j hj]
      have hmodk : (getS s1 k).mod = (getS st k).mod := (hpm1 k).2
      rw [hmodk]
      have hskcs1 : SkAtChildren cs k 0 s1 := skAtChildren_of_baseOp hb1 hskcs
      obtain ⟨Bb, Bpm, Bxf, Bxv, Brel⟩ :=
        swc_master cs k (m + (getS st k).mod) (depth + 1) 0 s1 hskcs1
          (fun j hj => by
            rw [hb1.keys]
            exact hkeys j (by
              rw [allKeys]
              exact List.mem_cons_of_mem _ hj))
      have hxk : (getS (secondWalkChildren cs k (m + (getS st k).mod)
          (depth + 1) 0 s1) k).x = (getS st k).prelim + m := by
        rw [Bxf k ?_, hx1k]
        rintro ⟨m2, -, -, hm2⟩
        exact not_below_child_parent k m2 hm2
      refine ⟨baseOp_trans hb1 Bb, ?_, ?_, hxk, ?_⟩
      · intro j
        obtain ⟨hp, hm'⟩ := Bpm j
        obtain ⟨hp1, hm1⟩ := hpm1 j
        exact ⟨hp.trans hp1, hm'.trans hm1⟩
      · intro j hj
        rw [Bxf j ?_, hx1ne j ?_]
        · intro hh
          exact hj (hh ▸ below_refl k)
        · rintro ⟨m2, -, -, hm2⟩
          exact hj (below_trans (below_app k [m2]) hm2)
      · intro j hj c hc
        rw [allKeys] at hj
        rcases List.mem_cons.mp hj with rfl | hj
        · -- j = k: children are the direct child keys
          rw [hskc] at hc
          obtain ⟨m2, hm2, rfl⟩ := mem_childKeys.mp hc
          rw [Bxv m2 (by omega) (by omega)]
          rw [(hpm1 _).1, hxk]
          ring
        · -- j deeper: the children relation comes from the recursion
          obtain ⟨m2, -, -, hmb⟩ := mem_allKeysChildren_decomp cs k 0 j hj
          have hcs1 : c ∈ (getS s1 j).children := by
            rw [(hb1.statics j).2.2.2.2.2.2.1]
            exact hc
          have hrel := Brel j hj c hcs1
          rw [(hpm1 c).1, (hpm1 j).1, (hpm1 j).2] at hrel
          exact hrel

theorem swc_master (cs : List LayoutTree) :
    ∀ (k : Key) (m : ℚ) (depth : Nat) (i : Nat) (st : St),
    SkAtChildren cs k i st →
    (∀ j ∈ allKeysChildren cs k i, j ∈ keysOf st) →
    BaseOp st (secondWalkChildren cs k m depth i st) ∧
    (∀ j, (getS (secondWalkChildren cs k m depth i st) j).prelim
        = (getS st j).prelim ∧
      (getS (secondWalkChildren cs k m depth i st) j).mod
        = (getS st j).mod) ∧
    (∀ j, (¬ ∃ m2, i ≤ m2 ∧ m2 < i + cs.length ∧ Below (k ++ [m2]) j) →
      (getS (secondWalkChildren cs k m depth i st) j).x = (getS st j).x) ∧
    (∀ m2, i ≤ m2 → m2 < i + cs.length →
      (getS (secondWalkChildren cs k m depth i st) (k ++ [m2])).x =
        (getS st (k ++ [m2])).prelim + m) ∧
    (∀ j ∈ allKeysChildren cs k i, ∀ c ∈ (getS st j).children,
      (getS (secondWalkChildren cs k m depth i st) c).x =
        (getS st c).prelim +
          ((getS (secondWalkChildren cs k m depth i st) j).x
            - (getS st j).prelim) +
          (getS st j).mod) := by
  cases cs with
  | nil =>
      intro k m depth i st hsk hkeys
      rw [secondWalkChildren]
      refine ⟨baseOp_refl st, fun j => ⟨rfl, rfl⟩, fun j _ => rfl, ?_, ?_⟩
      · intro m2 h1 h2
        simp at h2
        omega
      · intro j hj
        rw [allKeysChildren] at hj
        exact absurd hj (List.not_mem_nil j)
  | cons c0 rest =>
      intro k m depth i st hsk hkeys
      rw [SkAtChildren] at hsk
      obtain ⟨hskc, hskrest⟩ := hsk
      simp only [secondWalkChildren]
      obtain ⟨Ab, Apm, Axf, Axv, Arel⟩ := sw_master c0 (k ++ [i]) m depth st
        hskc
        (fun j hj => hkeys j (by
          rw [allKeysChildren]
          exact List.mem_append.mpr (Or.inl hj)))
      obtain ⟨s1, hs1⟩ : ∃ s1, secondWalk c0 (k ++ [i]) m depth st = s1 :=
        ⟨_, rfl⟩
      rw [hs1] at Ab Apm Axf Axv Arel ⊢
      have hskrest1 : SkAtChildren rest k (i + 1) s1 :=
        skAtChildren_of_baseOp Ab hskrest
      obtain ⟨Bb, Bpm, Bxf, Bxv, Brel⟩ :=
        swc_master rest k m depth (i + 1) s1 hskrest1
          (fun j hj => by
            rw [Ab.keys]
            exact hkeys j (by
              rw [allKeysChildren]
              exact List.mem_append.mpr (Or.inr hj)))
      refine ⟨baseOp_trans Ab Bb, ?_, ?_, ?_, ?_⟩
      · intro j
        obtain ⟨hp, hm'⟩ := Bpm j
        obtain ⟨hp1, hm1⟩ := Apm j
        exact ⟨hp.trans hp1, hm'.trans hm1⟩
      · intro j hj
        rw [Bxf j ?_, Axf j ?_]
        · intro hb
          exact hj ⟨i, le_refl i, by simp, hb⟩
        · rintro ⟨m2, hm1, hm2, hm3⟩
          refine hj ⟨m2, by omega, by simp at hm2 ⊢; omega, hm3⟩
      · intro m2 h1 h2
        rcases Nat.eq_or_lt_of_le h1 with rfl | hlt
        · rw [Bxf _ ?_, Axv]
          rintro ⟨m3, hm1, hm2, hm3⟩
          exact sibling_not_below (by omega) (below_refl _) hm3
        · rw [Bxv m2 (by omega) (by simp at h2 ⊢; omega)]
          rw [(Apm _).1]
      · intro j hj c hc
        rw [allKeysChildren] at hj
        rcases List.mem_append.mp hj with hj1 | hj2
        · -- first child's subtree
          have hjb : Below (k ++ [i]) j :=
            mem_allKeys_below c0 (k ++ [i]) j hj1
          obtain ⟨⟨nj, hshj⟩, -⟩ :=
            skAt_children_shape c0 (k ++ [i]) st hskc j hj1
          have hxj' : ¬ ∃ m3, i + 1 ≤ m3 ∧ m3 < (i + 1) + rest.length ∧
              Below (k ++ [m3]) j := by
            rintro ⟨m3, hm1, hm2, hm3⟩
            exact sibling_not_below (by omega) hjb hm3
          have hxc' : ¬ ∃ m3, i + 1 ≤ m3 ∧ m3 < (i + 1) + rest.length ∧
              Below (k ++ [m3]) c := by
            rintro ⟨m3, hm1, hm2, hm3⟩
            have hcb : Below (k ++ [i]) c := by
              rw [hshj] at hc
              obtain ⟨x, hx, rfl⟩ := mem_childKeys.mp hc
              exact below_trans hjb (below_app j [x])
            exact sibling_not_below (by omega) hcb hm3
          have hrel := Arel j hj1 c hc
          rw [← Bxf j hxj', ← Bxf c hxc'] at hrel
          exact hrel
        · -- later siblings' subtrees
          have hcs1 : c ∈ (getS s1 j).children := by
            rw [(Ab.statics j).2.2.2.2.2.2.1]
            exact hc
          have hrel := Brel j hj2 c hcs1
          rw [(Apm c).1, (Apm j).1, (Apm j).2] at hrel
          exact hrel

end

/-! ## The normalization fold -/

theorem normFold_untouched (ks : List Key) (off : ℚ) (st : St) (j : Key)
    (hj : ¬ j ∈ ks) :
    getS (ks.foldl (fun acc k2 => updS acc k2
      (fun ns => { ns with x := ns.x - off })) st) j = getS st j := by
  induction ks generalizing st with
  | nil => rfl
  | cons a rest ih =>
      rw [List.foldl_cons]
      rw [ih _ (fun hh => hj (List.mem_cons_of_mem a hh))]
      exact getS_updS_ne st a _ j
        (fun hh => hj (hh ▸ List.mem_cons_self a rest))

theorem normFold_x (ks : List Key) (hnd : ks.Nodup) (off : ℚ) (st : St)
    (hkeys : ∀ j ∈ ks, j ∈ keysOf st) :
    ∀ j ∈ ks, (getS (ks.foldl (fun acc k2 => updS acc k2
      (fun ns => { ns with x := ns.x - off })) st) j).x
        = (getS st j).x - off := by
  induction ks generalizing st with
  | nil => intro j hj; exact absurd hj (List.not_mem_nil j)
  | cons a rest ih =>
      intro j hj
      rw [List.foldl_cons]
      rcases List.mem_cons.mp hj with rfl | hj2
      · rw [normFold_untouched rest off _ j (List.nodup_cons.mp hnd).1]
        rw [getS_updS_mem st j _ (hkeys j (List.mem_cons_self j rest))]
      · rw [ih (List.nodup_cons.mp hnd).2 _ (fun j2 hj2' => by
          rw [keysOf_updS]
          exact hkeys j2 (List.mem_cons_of_mem a hj2')) j hj2]
        rw [getS_updS_ne st a _ j
          (fun hh => (List.nodup_cons.mp hnd).1 (hh ▸ hj2))]

/-! ## From the pointwise span equation to the skeleton-recursive `SpanMidOk` -/

mutual

theorem spanMidOk_of_pointwise (lt : LayoutTree) :
    ∀ (k : Key) (st : St),
    SkAt lt k st →
    (∀ j ∈ allKeys lt k, ∀ c cs2, (getS st j).children = c :: cs2 →
      2 * (getS st j).x + (getS st j).width =
        (getS st c).x + (getS st (cs2.getLastD c)).x +
          (getS st (cs2.getLastD c)).width) →
    SpanMidOk st lt k := by
  cases lt with
  | mk i0 n0 w0 h0 e0 d0 num0 cs =>
      intro k st hsk hpt
      rw [SkAt] at hsk
      obtain ⟨hskc, hskcs⟩ := hsk
      rw [SpanMidOk]
      constructor
      · intro hn
        obtain ⟨tl, hht, hlast⟩ := childKeys_head_tail k hn
        have hcc : (getS st k).children = (k ++ [0]) :: tl := by
          rw [hskc, hht]
        have := hpt k (self_mem_allKeys _ k) (k ++ [0]) tl hcc
        rw [hlast] at this
        exact this
      · refine spanMidOkChildren_of_pointwise cs k 0 st hskcs ?_
        intro j hj c cs2 hcc
        exact hpt j (by
          rw [allKeys]
          exact List.mem_cons_of_mem _ hj) c cs2 hcc

theorem spanMidOkChildren_of_pointwise (cs : List LayoutTree) :
    ∀ (k : Key) (i : Nat) (st : St),
    SkAtChildren cs k i st →
    (∀ j ∈ allKeysChildren cs k i, ∀ c cs2,
      (getS st j).children = c :: cs2 →
      2 * (getS st j).x + (getS st j).width =
        (getS st c).x + (getS st (cs2.getLastD c)).x +
          (getS st (cs2.getLastD c)).width) →
    SpanMidOkChildren st cs k i := by
  cases cs with
  | nil =>
      intro k i st _ _
      rw [SpanMidOkChildren]
      exact trivial
  | cons c0 rest =>
      intro k i st hsk hpt
      rw [SkAtChildren] at hsk
      rw [SpanMidOkChildren]
      constructor
      · refine spanMidOk_of_pointwise c0 (k ++ [i]) st hsk.1 ?_
        intro j hj c cs2 hcc
        exact hpt j (by
          rw [allKeysChildren]
          exact List.mem_append.mpr (Or.inl hj)) c cs2 hcc
      · refine spanMidOkChildren_of_pointwise rest k (i + 1) st hsk.2 ?_
        intro j hj c cs2 hcc
        exact hpt j (by
          rw [allKeysChildren]
          exact List.mem_append.mpr (Or.inr hj)) c cs2 hcc

end

/-! ## Assembly: the pointwise span equation holds of every finished layout -/

theorem runLayout_pointwise_span (lt : LayoutTree) :
    SkAt lt [] (runLayout lt) ∧
    ∀ j ∈ allKeys lt [], ∀ c cs2,
      (getS (runLayout lt) j).children = c :: cs2 →
      2 * (getS (runLayout lt) j).x + (getS (runLayout lt) j).width =
        (getS (runLayout lt) c).x + (getS (runLayout lt) (cs2.getLastD c)).x +
          (getS (runLayout lt) (cs2.getLastD c)).width := by
  have hkeys0 : ∀ j ∈ allKeys lt [], j ∈ keysOf (initList lt []) := by
    intro j hj
    rw [keysOf_initList]
    exact hj
  obtain ⟨W1, M1⟩ := fw_master (allKeys lt []).length lt [] [[]]
    (initList lt []) (skAt_initList lt []) hkeys0
    (fun j _ _ => initList_mod_zero lt j)
  simp only [runLayout, layoutTree]
  obtain ⟨s1, hs1⟩ : ∃ s1, firstWalk (allKeys lt []).length lt [] [[]]
      (initList lt []) = s1 := ⟨_, rfl⟩
  rw [hs1] at W1 M1 ⊢
  have hsk1 : SkAt lt [] s1 := skAt_of_baseOp W1.base (skAt_initList lt [])
  have hkeys1 : ∀ j ∈ allKeys lt [], j ∈ keysOf s1 := by
    intro j hj
    rw [W1.base.keys]
    exact hkeys0 j hj
  obtain ⟨Sb, Spm, Sxf, Sxv, Srel⟩ := sw_master lt [] 0 0 s1 hsk1 hkeys1
  obtain ⟨s2, hs2⟩ : ∃ s2, secondWalk lt [] 0 0 s1 = s2 := ⟨_, rfl⟩
  rw [hs2] at Sb Spm Sxf Sxv Srel ⊢
  have hsk2 : SkAt lt [] s2 := skAt_of_baseOp Sb hsk1
  have hkeys2 : ∀ j ∈ allKeys lt [], j ∈ keysOf s2 := by
    intro j hj
    rw [Sb.keys]
    exact hkeys1 j hj
  have hpt2 : ∀ j ∈ allKeys lt [], ∀ c cs2,
      (getS s2 j).children = c :: cs2 →
      2 * (getS s2 j).x + (getS s2 j).width =
        (getS s2 c).x + (getS s2 (cs2.getLastD c)).x +
          (getS s2 (cs2.getLastD c)).width := by
    intro j hj c cs2 hcc
    have hcc1 : (getS s1 j).children = c :: cs2 := by
      rw [← (Sb.statics j).2.2.2.2.2.2.1]
      exact hcc
    have hc : c ∈ (getS s1 j).children := by rw [hcc1]; simp
    have hl : cs2.getLastD c ∈ (getS s1 j).children := by
      rw [hcc1]
      exact getLastD_mem cs2 c
    have hrc := Srel j hj c hc
    have hrl := Srel j hj _ hl
    have hmq := M1 j hj c cs2 hcc1
    rw [(Sb.statics j).2.1, (Sb.statics (cs2.getLastD c)).2.1]
    linarith
  obtain ⟨off, hoff⟩ : ∃ off, (allKeys lt []).foldl
      (fun acc k => min acc (getS s2 k).x) ((getS s2 ([] : Key)).x) = off :=
    ⟨_, rfl⟩
  rw [hoff]
  split
  · -- normalization fired: everything moves by the same offset
    constructor
    · exact skAt_of_baseOp (baseOp_normFold _ _ _) hsk2
    · intro j hj c cs2 hcc
      have hb3 : BaseOp s2 ((allKeys lt []).foldl
          (fun acc k2 => updS acc k2
            (fun ns => { ns with x := ns.x - off })) s2) :=
        baseOp_normFold _ _ _
      have hcc2 : (getS s2 j).children = c :: cs2 := by
        rw [← (hb3.statics j).2.2.2.2.2.2.1]
        exact hcc
      obtain ⟨-, hclose⟩ := skAt_children_shape lt [] s2 hsk2 j hj
      have hcm : c ∈ allKeys lt [] := hclose c (by rw [hcc2]; simp)
      have hlm : cs2.getLastD c ∈ allKeys lt [] :=
        hclose _ (by rw [hcc2]; exact getLastD_mem cs2 c)
      have hx := normFold_x (allKeys lt []) (allKeys_nodup lt []) off s2
        hkeys2
      rw [hx j hj, hx c hcm, hx _ hlm, (hb3.statics j).2.1,
        (hb3.statics (cs2.getLastD c)).2.1]
      have := hpt2 j hj c cs2 hcc2
      linarith
  · exact ⟨hsk2, hpt2⟩

/-- **C2 (amended).** After layout, every node with at least one visible
child satisfies the span-midpoint equation
`2·x + width = x_first + x_last + width_last`: the parent's center is the
midpoint of its children's span (first child's left edge to last child's
right edge) — equivalently, the midpoint of the first and last child's
centers whenever those two children have equal widths.  This holds for
every source tree, measure and expanded set, at every node, with no
left-sibling exception (the `mod` adjustment keeps the equation exact). -/
theorem c2_span_midpoint_characterization (measure : String → ℚ)
    (ast : AstNode) (s : List String) :
    SpanMidOk (layoutOf measure ast s)
      (buildLayoutTree measure ast "root" s 0) [] := by
  obtain ⟨hsk, hpt⟩ := runLayout_pointwise_span
    (buildLayoutTree measure ast "root" s 0)
  exact spanMidOk_of_pointwise _ [] _ hsk hpt

/-! ## `buildLayoutTree` output is well-formed (widths, sibling numbers) -/

theorem goodTree_withNumber {lt : LayoutTree} (h : GoodTree lt) (n : Nat) :
    GoodTree (lt.withNumber n) := by
  cases lt with
  | mk i nd w hh e d num cs =>
      rw [LayoutTree.withNumber]
      rw [GoodTree] at h ⊢
      exact h

theorem withNumber_number (lt : LayoutTree) (n : Nat) :
    (lt.withNumber n).number = n := by
  cases lt with
  | mk i nd w hh e d num cs => rfl

mutual

theorem goodTree_build (measure : String → ℚ) (ast : AstNode)
    (path : String) (s : List String) (depth : Nat) :
    GoodTree (buildLayoutTree measure ast path s depth) := by
  cases ast with
  | mk k n t cs =>
      rw [buildLayoutTree, GoodTree]
      refine ⟨le_trans (by norm_num) (le_max_left (60 : ℚ) _), ?_⟩
      split
      · exact goodChildren_build measure cs path s depth 0
      · rw [GoodChildren]
        exact trivial

theorem goodChildren_build (measure : String → ℚ) (cs : List AstNode)
    (path : String) (s : List String) (depth : Nat) (i : Nat) :
    GoodChildren (buildLayoutChildren measure cs path s depth i) (i + 1) := by
  cases cs with
  | nil =>
      rw [buildLayoutChildren, GoodChildren]
      exact trivial
  | cons c rest =>
      rw [buildLayoutChildren, GoodChildren]
      exact ⟨withNumber_number _ _,
        goodTree_withNumber (goodTree_build measure c _ s (depth + 1)) _,
        goodChildren_build measure rest path s depth (i + 1)⟩

end

theorem goodChildren_mem {cs : List LayoutTree} {m0 : Nat}
    (h : GoodChildren cs m0) : ∀ c ∈ cs, GoodTree c := by
  induction cs generalizing m0 with
  | nil => intro c hc; exact absurd hc (List.not_mem_nil c)
  | cons a rest ih =>
      rw [GoodChildren] at h
      intro c hc
      rcases List.mem_cons.mp hc with rfl | hc
      · exact h.2.1
      · exact ih h.2.2 c hc

mutual

theorem initList_width_entries (lt : LayoutTree) (k : Key)
    (hg : GoodTree lt) : ∀ p ∈ initList lt k, 0 ≤ p.2.width := by
  cases lt with
  | mk i nd w hh e d num cs =>
      rw [GoodTree] at hg
      rw [initList]
      intro p hp
      rcases List.mem_cons.mp hp with rfl | hp
      · exact hg.1
      · exact initListChildren_width_entries cs k 0
          (goodChildren_mem hg.2) p hp

theorem initListChildren_width_entries (cs : List LayoutTree) (k : Key)
    (i : Nat) (hg : ∀ c ∈ cs, GoodTree c) :
    ∀ p ∈ initListChildren cs k i, 0 ≤ p.2.width := by
  cases cs with
  | nil => intro p hp; exact absurd hp (List.not_mem_nil p)
  | cons c rest =>
      rw [initListChildren]
      intro p hp
      rcases List.mem_append.mp hp with hp | hp
      · exact initList_width_entries c (k ++ [i])
          (hg c (List.mem_cons_self c rest)) p hp
      · exact initListChildren_width_entries rest k (i + 1)
          (fun c2 hc2 => hg c2 (List.mem_cons_of_mem c hc2)) p hp

end

theorem initList_width_nonneg (lt : LayoutTree) (hg : GoodTree lt)
    (j : Key) : 0 ≤ (getS (initList lt []) j).width := by
  refine getS_prop (fun ns => 0 ≤ ns.width) _ le_rfl ?_ j
  exact initList_width_entries lt [] hg

theorem initListChildren_number (cs : List LayoutTree) (k : Key) :
    ∀ (i m m0 : Nat), GoodChildren cs m0 → i ≤ m → m < i + cs.length →
    (getS (initListChildren cs k i) (k ++ [m])).number = m0 + (m - i) := by
  induction cs with
  | nil => intro i m m0 _ h1 h2; simp at h2; omega
  | cons c rest ih =>
      intro i m m0 hg h1 h2
      rw [GoodChildren] at hg
      obtain ⟨hnum, hgt, hgrest⟩ := hg
      rw [initListChildren]
      by_cases hm : m = i
      · subst hm
        rw [getS_append_mem _ (by
          rw [keysOf_initList]
          exact self_mem_allKeys c (k ++ [m]))]
        cases c with
        | mk ci cn cw chh ce cd cnum ccs =>
            rw [initList, getS, if_pos rfl]
            rw [LayoutTree.number] at hnum
            simp only [initNode, LayoutTree.number]
            omega
      · rw [getS_append_not_mem _ ?_]
        · rw [ih (i + 1) m (m0 + 1) hgrest (by omega)
            (by simp at h2 ⊢; omega)]
          omega
        · rw [keysOf_initList]
          intro hmem
          have hb := mem_allKeys_below c (k ++ [i]) _ hmem
          have h3 := below_eq_of_length_le hb (by simp)
          have h4 := List.append_cancel_left h3
          simp at h4
          exact hm h4

mutual

theorem numA_congr (lt : LayoutTree) (k : Key) (st st2 : St)
    (hc : ∀ j, Below k j → (getS st2 j).number = (getS st j).number)
    (h : NumA lt k st) : NumA lt k st2 := by
  cases lt with
  | mk i n w hh e d num cs =>
      rw [NumA] at h ⊢
      refine ⟨?_, numAChildren_congr cs k 0 st st2 ?_ h.2⟩
      · intro m hm
        rw [hc (k ++ [m]) (below_app k [m])]
        exact h.1 m hm
      · intro j m _ _ hb
        exact hc j (below_trans (below_app k [m]) hb)

theorem numAChildren_congr (cs : List LayoutTree) (k : Key) (i : Nat)
    (st st2 : St)
    (hc : ∀ j m, i ≤ m → m < i + cs.length → Below (k ++ [m]) j →
      (getS st2 j).number = (getS st j).number)
    (h : NumAChildren cs k i st) : NumAChildren cs k i st2 := by
  cases cs with
  | nil => rw [NumAChildren]; exact trivial
  | cons c rest =>
      rw [NumAChildren] at h ⊢
      refine ⟨numA_congr c (k ++ [i]) st st2 ?_ h.1,
        numAChildren_congr rest k (i + 1) st st2 ?_ h.2⟩
      · intro j hb
        exact hc j i (le_refl i) (by simp) hb
      · intro j m h1 h2 hb
        exact hc j m (by omega) (by simp at h2 ⊢; omega) hb

end

theorem numA_of_baseOp {lt : LayoutTree} {k : Key} {st st2 : St}
    (hb : BaseOp st st2) (h : NumA lt k st) : NumA lt k st2 :=
  numA_congr lt k st st2 (fun j _ => (hb.statics j).2.2.2.2.2.1) h

mutual

theorem numA_init_extend (lt : LayoutTree) (k : Key) (st : St)
    (hg : GoodTree lt)
    (h : ∀ j, Below k j → getS st j = getS (initList lt k) j) :
    NumA lt k st := by
  cases lt with
  | mk i0 n0 w0 h0 e0 d0 num0 cs =>
      rw [GoodTree] at hg
      rw [NumA]
      constructor
      · intro m hm
        rw [h (k ++ [m]) (below_app k [m])]
        rw [initList, getS, if_neg (fun hh => child_ne_parent k m hh.symm)]
        rw [initListChildren_number cs k 0 m 1 hg.2 (by omega) (by omega)]
        omega
      · refine numAChildren_init_extend cs k 0 st
          (goodChildren_mem hg.2) ?_
        intro j m h1 h2 hb
        rw [h j (below_trans (below_app k [m]) hb)]
        rw [initList, getS]
        rw [if_neg ?_]
        intro he
        exact (strictBelow_of_below_child hb).2 he.symm

theorem numAChildren_init_extend (cs : List LayoutTree) (k : Key) (i : Nat)
    (st : St) (hg : ∀ c ∈ cs, GoodTree c)
    (h : ∀ j m, i ≤ m → m < i + cs.length → Below (k ++ [m]) j →
      getS st j = getS (initListChildren cs k i) j) :
    NumAChildren cs k i st := by
  cases cs with
  | nil => rw [NumAChildren]; exact trivial
  | cons c rest =>
      rw [NumAChildren]
      constructor
      · refine numA_init_extend c (k ++ [i]) st
          (hg c (List.mem_cons_self c rest)) ?_
        intro j hb
        rw [h j i (le_refl i) (by simp) hb]
        rw [initListChildren]
        by_cases hm : j ∈ keysOf (initList c (k ++ [i]))
        · rw [getS_append_mem _ hm]
        · rw [getS_append_not_mem _ hm, getS_not_mem hm]
          rw [getS_not_mem ?_]
          rw [keysOf_initListChildren]
          intro hmem
          obtain ⟨m2, hm1, -, hm3⟩ :=
            mem_allKeysChildren_decomp rest k (i + 1) j hmem
          exact sibling_not_below (by omega) hb hm3
      · refine numAChildren_init_extend rest k (i + 1) st
          (fun c2 hc2 => hg c2 (List.mem_cons_of_mem c hc2)) ?_
        intro j m h1 h2 hb
        rw [h j m (by omega) (by simp at h2 ⊢; omega) hb]
        rw [initListChildren]
        rw [getS_append_not_mem]
        rw [keysOf_initList]
        intro hmem
        exact sibling_not_below (by omega) hb
          (mem_allKeys_below c (k ++ [i]) j hmem)

end

theorem numA_initList (lt : LayoutTree) (hg : GoodTree lt) :
    NumA lt [] (initList lt []) :=
  numA_init_extend lt [] (initList lt []) hg (fun j _ => rfl)

/-! ## `jsIndexOf` on the child-key list -/

theorem findIdx_nodup_at (l : List Key) (v : Key) :
    ∀ (i : Nat) (h : i < l.length), l.Nodup → l.get ⟨i, h⟩ = v →
    ∀ off, l.findIdx? (fun j => j == v) off = some (off + i) := by
  induction l with
  | nil => intro i h; simp at h
  | cons a rest ih =>
      intro i h hnd hv off
      rw [List.findIdx?_cons]
      cases i with
      | zero =>
          simp only [List.get] at hv
          subst hv
          simp
      | succ t =>
          simp only [List.get] at hv
          have hmem : v ∈ rest := hv ▸ rest.get_mem t _
          have hne : ¬ a = v := by
            intro hh
            exact (List.nodup_cons.mp hnd).1 (hh ▸ hmem)
          rw [if_neg (by simpa using hne)]
          rw [ih t (by simpa using h) (List.nodup_cons.mp hnd).2 hv (off + 1)]
          congr 1
          omega

theorem jsIndexOf_childKeys {k : Key} {n i : Nat} (h : i < n) :
    jsIndexOf (childKeys k n) (k ++ [i]) = (i : Int) := by
  have hlen : i < (childKeys k n).length := by
    rw [childKeys_length]
    exact h
  have hget : (childKeys k n).get ⟨i, hlen⟩ = k ++ [i] := by
    simp [childKeys]
  rw [jsIndexOf]
  rw [findIdx_nodup_at (childKeys k n) (k ++ [i]) i hlen
    (childKeys_nodup k n) hget 0]
  simp

theorem ite_or {α : Sort _} {c : Prop} [Decidable c] (a b : α) :
    (if c then a else b) = a ∨ (if c then a else b) = b := by
  split
  · exact Or.inl rfl
  · exact Or.inr rfl

theorem apportion_fst (fuel : Nat) (v da : Key) (sibs : List Key)
    (st : St) :
    (apportion fuel v da sibs st).1 = v ∨
    (apportion fuel v da sibs st).1 = da := by
  simp only [apportion]
  split
  · exact Or.inr rfl
  · exact ite_or v da

/-! ## The per-sibling `apportion` ledger -/

theorem moveSubtree_ledger (wl wr : Key) (S : ℚ) (st : St) (hS : 0 < S)
    (hb : 1 ≤ (getS st wl).number) :
    ((getS (moveSubtree wl wr S st) wr).prelim
        - (getS (moveSubtree wl wr S st) wr).shift
      = (getS st wr).prelim - (getS st wr).shift) ∧
    (getS (moveSubtree wl wr S st) wr).change ≤ (getS st wr).change ∧
    ((getS (moveSubtree wl wr S st) wr).shift
        + (((getS (moveSubtree wl wr S st) wr).number : ℚ) - 1)
          * (getS (moveSubtree wl wr S st) wr).change
      ≤ (getS st wr).shift
        + (((getS st wr).number : ℚ) - 1) * (getS st wr).change) := by
  rw [moveSubtree]
  split
  · rename_i hsub
    by_cases hm : wr ∈ keysOf st
    · rw [getS_updS_mem st wr _ hm]
      have hd : (0 : ℚ) < ((getS st wr).number : ℚ)
          - ((getS st wl).number : ℚ) := by
        have : ((0 : ℤ) : ℚ) < ((((getS st wr).number : ℤ)
            - ((getS st wl).number : ℤ) : ℤ) : ℚ) := by
          exact_mod_cast hsub
        push_cast at this
        linarith
      have hb2 : (1 : ℚ) ≤ ((getS st wl).number : ℚ) := by
        exact_mod_cast hb
      have hcast : (((((getS st wr).number : ℤ)
          - ((getS st wl).number : ℤ) : ℤ)) : ℚ)
          = ((getS st wr).number : ℚ) - ((getS st wl).number : ℚ) := by
        push_cast
        ring
      refine ⟨?_, ?_, ?_⟩
      · dsimp only
        ring
      · dsimp only
        rw [hcast]
        have : 0 ≤ S / (((getS st wr).number : ℚ)
            - ((getS st wl).number : ℚ)) :=
          div_nonneg (le_of_lt hS) (le_of_lt hd)
        linarith
      · dsimp only
        rw [hcast]
        have key : S ≤ (((getS st wr).number : ℚ) - 1) *
            (S / (((getS st wr).number : ℚ)
              - ((getS st wl).number : ℚ))) := by
          rw [mul_div_assoc'] at *
          rw [le_div_iff hd]
          nlinarith
        set q := S / (((getS st wr).number : ℚ)
          - ((getS st wl).number : ℚ)) with hq
        nlinarith [key]
    · rw [getS_updS_not_mem st wr _ hm]
      exact ⟨rfl, le_refl _, le_refl _⟩
  · exact ⟨rfl, le_refl _, le_refl _⟩

theorem apportionLoop_ledger (v da : Key) (sibs : List Key) (fuel : Nat)
    (a : ALoop)
    (hsb : ∀ s ∈ sibs, 1 ≤ (getS a.st s).number)
    (hda : 1 ≤ (getS a.st da).number) :
    ((getS (apportionLoop v da sibs fuel a).st v).prelim
        - (getS (apportionLoop v da sibs fuel a).st v).shift
      = (getS a.st v).prelim - (getS a.st v).shift) ∧
    (getS (apportionLoop v da sibs fuel a).st v).change
      ≤ (getS a.st v).change ∧
    ((getS (apportionLoop v da sibs fuel a).st v).shift
        + (((getS (apportionLoop v da sibs fuel a).st v).number : ℚ) - 1)
          * (getS (apportionLoop v da sibs fuel a).st v).change
      ≤ (getS a.st v).shift
        + (((getS a.st v).number : ℚ) - 1) * (getS a.st v).change) := by
  induction fuel generalizing a with
  | zero => exact ⟨rfl, le_refl _, le_refl _⟩
  | succ n ih =>
      simp only [apportionLoop]
      split
      case h_2 => exact ⟨rfl, le_refl _, le_refl _⟩
      case h_1 nIL nIR heq1 heq2 =>
        -- the ancestor write changes no relevant field anywhere
        obtain ⟨s2, hs2⟩ : ∃ s2, (match nextRightO a.st a.vOR with
            | some r => updS a.st r (fun ns => { ns with ancestor := v })
            | none => a.st) = s2 := ⟨_, rfl⟩
        have h2same : ∀ j, (getS s2 j).prelim = (getS a.st j).prelim ∧
            (getS s2 j).shift = (getS a.st j).shift ∧
            (getS s2 j).change = (getS a.st j).change ∧
            (getS s2 j).number = (getS a.st j).number := by
          intro j
          rw [← hs2]
          rcases nextRightO a.st a.vOR with _ | r
          · exact ⟨rfl, rfl, rfl, rfl⟩
          · exact ⟨updS_preserve (fun ns => ns.prelim) a.st r
                (fun ns => { ns with ancestor := v }) (fun ns => rfl) j,
              updS_preserve (fun ns => ns.shift) a.st r
                (fun ns => { ns with ancestor := v }) (fun ns => rfl) j,
              updS_preserve (fun ns => ns.change) a.st r
                (fun ns => { ns with ancestor := v }) (fun ns => rfl) j,
              updS_preserve (fun ns => ns.number) a.st r
                (fun ns => { ns with ancestor := v }) (fun ns => rfl) j⟩
        rw [hs2]
        -- the conditional moveSubtree step
        obtain ⟨s3, hs3⟩ : ∃ s3, (if 0 < ((getS s2 nIL).prelim + a.sIL)
              - ((getS s2 nIR).prelim + a.sIR) + (getS s2 nIL).width
              + NODE_GAP_X then
            moveSubtree (findAncestor s2 nIL da sibs) v
              (((getS s2 nIL).prelim + a.sIL)
                - ((getS s2 nIR).prelim + a.sIR) + (getS s2 nIL).width
                + NODE_GAP_X) s2
          else s2) = s3 := ⟨_, rfl⟩
        have h3led : ((getS s3 v).prelim - (getS s3 v).shift
              = (getS s2 v).prelim - (getS s2 v).shift) ∧
            (getS s3 v).change ≤ (getS s2 v).change ∧
            ((getS s3 v).shift + (((getS s3 v).number : ℚ) - 1)
                * (getS s3 v).change
              ≤ (getS s2 v).shift + (((getS s2 v).number : ℚ) - 1)
                * (getS s2 v).change) := by
          rw [← hs3]
          split
          · rename_i hpos
            refine moveSubtree_ledger _ v _ s2 hpos ?_
            rw [findAncestor]
            split
            · rename_i hcont
              refine (h2same _).2.2.2 ▸ hsb _ ?_
              exact List.mem_of_elem_eq_true hcont
            · exact (h2same da).2.2.2 ▸ hda
          · exact ⟨rfl, le_refl _, le_refl _⟩
        have h3num : ∀ j, (getS s3 j).number = (getS a.st j).number := by
          intro j
          rw [← hs3]
          split
          · rw [← (h2same j).2.2.2]
            rw [moveSubtree]
            split
            · exact updS_preserve (fun ns => ns.number) s2 v _
                (fun ns => by simp) j
            · rfl
          · exact (h2same j).2.2.2
        rw [hs3]
        refine ⟨?_, ?_, ?_⟩
        · refine ((ih _ ?_ ?_).1).trans ?_
          · intro s hs
            dsimp only
            rw [h3num s]
            exact hsb s hs
          · dsimp only
            rw [h3num da]
            exact hda
          · dsimp only
            rw [h3led.1, (h2same v).1, (h2same v).2.1]
        · refine le_trans ((ih _ ?_ ?_).2.1) ?_
          · intro s hs
            dsimp only
            rw [h3num s]
            exact hsb s hs
          · dsimp only
            rw [h3num da]
            exact hda
          · dsimp only
            exact h3led.2.1.trans (le_of_eq (h2same v).2.2.1)
        · refine le_trans ((ih _ ?_ ?_).2.2) ?_
          · intro s hs
            dsimp only
            rw [h3num s]
            exact hsb s hs
          · dsimp only
            rw [h3num da]
            exact hda
          · dsimp only
            have h4 := h3led.2.2
            rw [(h2same v).2.1, (h2same v).2.2.1, (h2same v).2.2.2] at h4
            exact h4

theorem threadAdjR_fields (s : St) (vIL vOR : Option Key) (δ : ℚ)
    (j : Key) :
    (getS (if (nextRightO s vIL).isSome && (nextRightO s vOR).isNone
      then
        match vOR with
        | some r0 => updS s r0 (fun ns =>
            { ns with thread := nextRightO s vIL, mod := ns.mod + δ })
        | none => s
      else s) j).prelim = (getS s j).prelim ∧
    (getS (if (nextRightO s vIL).isSome && (nextRightO s vOR).isNone
      then
        match vOR with
        | some r0 => updS s r0 (fun ns =>
            { ns with thread := nextRightO s vIL, mod := ns.mod + δ })
        | none => s
      else s) j).shift = (getS s j).shift ∧
    (getS (if (nextRightO s vIL).isSome && (nextRightO s vOR).isNone
      then
        match vOR with
        | some r0 => updS s r0 (fun ns =>
            { ns with thread := nextRightO s vIL, mod := ns.mod + δ })
        | none => s
      else s) j).change = (getS s j).change ∧
    (getS (if (nextRightO s vIL).isSome && (nextRightO s vOR).isNone
      then
        match vOR with
        | some r0 => updS s r0 (fun ns =>
            { ns with thread := nextRightO s vIL, mod := ns.mod + δ })
        | none => s
      else s) j).number = (getS s j).number := by
  split
  · rcases vOR with _ | r0
    · exact ⟨rfl, rfl, rfl, rfl⟩
    · exact ⟨updS_preserve (fun ns => ns.prelim) s r0 (fun ns =>
          { ns with thread := nextRightO s vIL, mod := ns.mod + δ })
          (fun ns => rfl) j,
        updS_preserve (fun ns => ns.shift) s r0 (fun ns =>
          { ns with thread := nextRightO s vIL, mod := ns.mod + δ })
          (fun ns => rfl) j,
        updS_preserve (fun ns => ns.change) s r0 (fun ns =>
          { ns with thread := nextRightO s vIL, mod := ns.mod + δ })
          (fun ns => rfl) j,
        updS_preserve (fun ns => ns.number) s r0 (fun ns =>
          { ns with thread := nextRightO s vIL, mod := ns.mod + δ })
          (fun ns => rfl) j⟩
  · exact ⟨rfl, rfl, rfl, rfl⟩

theorem threadAdjL_fields (s : St) (vIR vOL : Option Key) (δ : ℚ)
    (j : Key) :
    (getS (if (nextLeftO s vIR).isSome && (nextLeftO s vOL).isNone
      then
        match vOL with
        | some l0 => updS s l0 (fun ns =>
            { ns with thread := nextLeftO s vIR, mod := ns.mod + δ })
        | none => s
      else s) j).prelim = (getS s j).prelim ∧
    (getS (if (nextLeftO s vIR).isSome && (nextLeftO s vOL).isNone
      then
        match vOL with
        | some l0 => updS s l0 (fun ns =>
            { ns with thread := nextLeftO s vIR, mod := ns.mod + δ })
        | none => s
      else s) j).shift = (getS s j).shift ∧
    (getS (if (nextLeftO s vIR).isSome && (nextLeftO s vOL).isNone
      then
        match vOL with
        | some l0 => updS s l0 (fun ns =>
            { ns with thread := nextLeftO s vIR, mod := ns.mod + δ })
        | none => s
      else s) j).change = (getS s j).change ∧
    (getS (if (nextLeftO s vIR).isSome && (nextLeftO s vOL).isNone
      then
        match vOL with
        | some l0 => updS s l0 (fun ns =>
            { ns with thread := nextLeftO s vIR, mod := ns.mod + δ })
        | none => s
      else s) j).number = (getS s j).number := by
  split
  · rcases vOL with _ | l0
    · exact ⟨rfl, rfl, rfl, rfl⟩
    · exact ⟨updS_preserve (fun ns => ns.prelim) s l0 (fun ns =>
          { ns with thread := nextLeftO s vIR, mod := ns.mod + δ })
          (fun ns => rfl) j,
        updS_preserve (fun ns => ns.shift) s l0 (fun ns =>
          { ns with thread := nextLeftO s vIR, mod := ns.mod + δ })
          (fun ns => rfl) j,
        updS_preserve (fun ns => ns.change) s l0 (fun ns =>
          { ns with thread := nextLeftO s vIR, mod := ns.mod + δ })
          (fun ns => rfl) j,
        updS_preserve (fun ns => ns.number) s l0 (fun ns =>
          { ns with thread := nextLeftO s vIR, mod := ns.mod + δ })
          (fun ns => rfl) j⟩
  · exact ⟨rfl, rfl, rfl, rfl⟩

theorem apportionTail_fields (a : ALoop) (j : Key) :
    (getS (apportionTail a) j).prelim = (getS a.st j).prelim ∧
    (getS (apportionTail a) j).shift = (getS a.st j).shift ∧
    (getS (apportionTail a) j).change = (getS a.st j).change ∧
    (getS (apportionTail a) j).number = (getS a.st j).number := by
  simp only [apportionTail]
  have H1 := threadAdjR_fields a.st a.vIL a.vOR (a.sIL - a.sOR) j
  generalize hS2 : (if (nextRightO a.st a.vIL).isSome
        && (nextRightO a.st a.vOR).isNone
      then
        match a.vOR with
        | some r0 => updS a.st r0 (fun ns =>
            { ns with thread := nextRightO a.st a.vIL,
                      mod := ns.mod + (a.sIL - a.sOR) })
        | none => a.st
      else a.st) = s2
  rw [hS2] at H1
  have H2 := threadAdjL_fields s2 a.vIR a.vOL (a.sIR - a.sOL) j
  exact ⟨H2.1.trans H1.1, H2.2.1.trans H1.2.1,
    H2.2.2.1.trans H1.2.2.1, H2.2.2.2.trans H1.2.2.2⟩

theorem apportion_ledger (fuel : Nat) (v da : Key) (sibs : List Key)
    (st : St) (hsb : ∀ s ∈ sibs, 1 ≤ (getS st s).number)
    (hda : 1 ≤ (getS st da).number) :
    ((getS (apportion fuel v da sibs st).2 v).prelim
        - (getS (apportion fuel v da sibs st).2 v).shift
      = (getS st v).prelim - (getS st v).shift) ∧
    (getS (apportion fuel v da sibs st).2 v).change
      ≤ (getS st v).change ∧
    ((getS (apportion fuel v da sibs st).2 v).shift
        + (((getS (apportion fuel v da sibs st).2 v).number : ℚ) - 1)
          * (getS (apportion fuel v da sibs st).2 v).change
      ≤ (getS st v).shift
        + (((getS st v).number : ℚ) - 1) * (getS st v).change) := by
  obtain ⟨L1, L2, L3⟩ := apportionLoop_ledger v da sibs fuel
    (apportionStart v sibs st) hsb hda
  have HT := apportionTail_fields
    (apportionLoop v da sibs fuel (apportionStart v sibs st)) v
  simp only [apportion]
  by_cases h : jsIndexOf sibs v ≤ 0
  · rw [if_pos h]
    exact ⟨rfl, le_refl _, le_refl _⟩
  · rw [if_neg h]
    refine ⟨?_, ?_, ?_⟩
    · show (getS (apportionTail (apportionLoop v da sibs fuel
            (apportionStart v sibs st))) v).prelim
          - (getS (apportionTail (apportionLoop v da sibs fuel
            (apportionStart v sibs st))) v).shift
        = (getS st v).prelim - (getS st v).shift
      rw [HT.1, HT.2.1]
      exact L1
    · show (getS (apportionTail (apportionLoop v da sibs fuel
            (apportionStart v sibs st))) v).change ≤ (getS st v).change
      rw [HT.2.2.1]
      exact L2
    · show (getS (apportionTail (apportionLoop v da sibs fuel
            (apportionStart v sibs st))) v).shift
          + (((getS (apportionTail (apportionLoop v da sibs fuel
            (apportionStart v sibs st))) v).number : ℚ) - 1)
            * (getS (apportionTail (apportionLoop v da sibs fuel
              (apportionStart v sibs st))) v).change
        ≤ (getS st v).shift
          + (((getS st v).number : ℚ) - 1) * (getS st v).change
      rw [HT.2.1, HT.2.2.1, HT.2.2.2]
      exact L3

/-! ## `executeShifts` in closed form -/

theorem execDelta_congr (L : List Key) (st st2 : St)
    (h : ∀ c ∈ L, (getS st2 c).shift = (getS st c).shift ∧
      (getS st2 c).change = (getS st c).change) :
    ∀ sa ca, execDelta L sa ca st2 = execDelta L sa ca st := by
  induction L with
  | nil => intro sa ca; rfl
  | cons c rest ih =>
      intro sa ca
      rw [execDelta, execDelta]
      rw [(h c (List.mem_cons_self c rest)).1,
        (h c (List.mem_cons_self c rest)).2]
      exact ih (fun c2 hc2 => h c2 (List.mem_cons_of_mem c hc2)) _ _

theorem execDelta_eq (L : List Key) (st : St) :
    ∀ sa ca, execDelta L sa ca st
      = sa + (L.length : ℚ) * ca + wsr L st := by
  induction L with
  | nil => intro sa ca; simp [execDelta, wsr]
  | cons c rest ih =>
      intro sa ca
      rw [execDelta, wsr, ih]
      push_cast [List.length_cons]
      ring

theorem execShiftsAux_last (c0 : Key) :
    ∀ (L : List Key) (sa ca : ℚ) (st : St), (L ++ [c0]).Nodup →
    c0 ∈ keysOf st →
    (getS (executeShiftsAux (L ++ [c0]) sa ca st) c0).prelim
      = (getS st c0).prelim + execDelta L sa ca st ∧
    (getS (executeShiftsAux (L ++ [c0]) sa ca st) c0).mod
      = (getS st c0).mod + execDelta L sa ca st := by
  intro L
  induction L with
  | nil =>
      intro sa ca st _ hmem
      rw [List.nil_append, executeShiftsAux, executeShiftsAux]
      rw [getS_updS_mem st c0 _ hmem]
      exact ⟨rfl, rfl⟩
  | cons c rest ih =>
      intro sa ca st hnd hmem
      rw [List.cons_append, executeShiftsAux]
      have hne : c0 ≠ c := by
        intro hh
        have := (List.nodup_cons.mp (List.cons_append c rest [c0] ▸ hnd)).1
        exact this (hh ▸ List.mem_append.mpr (Or.inr (List.mem_cons_self c0 [])))
      obtain ⟨h1, h2⟩ := ih (sa + (getS st c).shift + (ca + (getS st c).change))
        (ca + (getS st c).change)
        (updS st c (fun ns =>
          { ns with prelim := ns.prelim + sa, mod := ns.mod + sa }))
        (by
          have := (List.cons_append c rest [c0] ▸ hnd)
          exact (List.nodup_cons.mp this).2)
        (by rw [keysOf_updS]; exact hmem)
      rw [h1, h2]
      rw [getS_updS_ne st c _ c0 hne]
      rw [execDelta_congr rest _
        (updS st c (fun ns =>
          { ns with prelim := ns.prelim + sa, mod := ns.mod + sa }))
        (fun c2 _ =>
          ⟨updS_preserve (fun ns => ns.shift) st c (fun ns =>
              { ns with prelim := ns.prelim + sa, mod := ns.mod + sa })
              (fun ns => rfl) c2,
            updS_preserve (fun ns => ns.change) st c (fun ns =>
              { ns with prelim := ns.prelim + sa, mod := ns.mod + sa })
              (fun ns => rfl) c2⟩)]
      rw [execDelta]
      exact ⟨rfl, rfl⟩

theorem execShiftsAux_consecutive (p q : Key) :
    ∀ (L1 L2 : List Key) (sa ca : ℚ) (st : St),
    (L1 ++ p :: q :: L2).Nodup →
    p ∈ keysOf st → q ∈ keysOf st →
    (getS (executeShiftsAux (L1 ++ p :: q :: L2) sa ca st) q).prelim
      - (getS (executeShiftsAux (L1 ++ p :: q :: L2) sa ca st) p).prelim
    = ((getS st q).prelim - (getS st p).prelim) + (getS st p).shift
      + (L1.foldl (fun acc c => acc + (getS st c).change) ca)
      + (getS st p).change := by
  intro L1
  induction L1 with
  | nil =>
      intro L2 sa ca st hnd hp hq
      rw [List.nil_append] at hnd ⊢
      rw [executeShiftsAux]
      rw [executeShiftsAux]
      have hnp := List.nodup_cons.mp hnd
      have hnq := List.nodup_cons.mp hnp.2
      have hqp : q ≠ p := by
        intro hh
        exact hnp.1 (hh ▸ List.mem_cons_self q L2)
      have hPnotL2 : ¬ p ∈ L2 := fun hh =>
        hnp.1 (List.mem_cons_of_mem q hh)
      have hQnotL2 : ¬ q ∈ L2 := hnq.1
      rw [execShiftsAux_untouched _ _ _ _ q hQnotL2,
        execShiftsAux_untouched _ _ _ _ p hPnotL2]
      have hq2 : q ∈ keysOf (updS st p (fun ns =>
          { ns with prelim := ns.prelim + sa, mod := ns.mod + sa })) := by
        rw [keysOf_updS]
        exact hq
      rw [getS_updS_mem _ q _ hq2]
      rw [getS_updS_ne _ _ _ q hqp]
      rw [getS_updS_ne _ _ _ p (fun hh => hqp hh.symm)]
      rw [getS_updS_mem st p _ hp]
      rw [List.foldl_nil]
      dsimp only
      ring
  | cons c L1' ih =>
      intro L2 sa ca st hnd hp hq
      rw [List.cons_append, executeShiftsAux]
      have hrec := ih L2 (sa + (getS st c).shift + (ca + (getS st c).change))
        (ca + (getS st c).change)
        (updS st c (fun ns =>
          { ns with prelim := ns.prelim + sa, mod := ns.mod + sa }))
        ((List.nodup_cons.mp (List.cons_append c L1' (p :: q :: L2) ▸ hnd)).2)
        (by rw [keysOf_updS]; exact hp)
        (by rw [keysOf_updS]; exact hq)
      rw [hrec]
      have hcupd : ∀ j, (getS (updS st c (fun ns =>
          { ns with prelim := ns.prelim + sa, mod := ns.mod + sa })) j).shift
            = (getS st j).shift ∧
          (getS (updS st c (fun ns =>
          { ns with prelim := ns.prelim + sa, mod := ns.mod + sa })) j).change
            = (getS st j).change := by
        intro j
        exact ⟨updS_preserve (fun ns => ns.shift) st c (fun ns =>
            { ns with prelim := ns.prelim + sa, mod := ns.mod + sa })
            (fun ns => rfl) j,
          updS_preserve (fun ns => ns.change) st c (fun ns =>
            { ns with prelim := ns.prelim + sa, mod := ns.mod + sa })
            (fun ns => rfl) j⟩
      have hcnem : ¬ c ∈ (p :: q :: L2) := by
        have := (List.nodup_cons.mp
          (List.cons_append c L1' (p :: q :: L2) ▸ hnd)).1
        intro hh
        exact this (List.mem_append.mpr (Or.inr hh))
      have hcp : c ≠ p := fun hh =>
        hcnem (hh ▸ List.mem_cons_self p (q :: L2))
      have hcq : c ≠ q := by
        intro hh
        apply hcnem
        rw [hh]
        exact List.mem_cons_of_mem p (List.mem_cons_self q L2)
      rw [getS_updS_ne st c _ q (fun hh => hcq hh.symm),
        getS_updS_ne st c _ p (fun hh => hcp hh.symm)]
      rw [List.foldl_cons]
      have hfold : ∀ (l : List Key) (acc : ℚ),
          l.foldl (fun acc2 c2 => acc2 + (getS (updS st c (fun ns =>
            { ns with prelim := ns.prelim + sa, mod := ns.mod + sa }))
              c2).change) acc
          = l.foldl (fun acc2 c2 => acc2 + (getS st c2).change) acc := by
        intro l
        induction l with
        | nil => intro acc; rfl
        | cons a rest ih2 =>
            intro acc
            rw [List.foldl_cons, List.foldl_cons, (hcupd a).2]
            exact ih2 _
      rw [hfold]

/-! ## Small bridges for the separation proof -/

theorem apportion_idx0 (fuel : Nat) (v da : Key) (sibs : List Key)
    (st : St) (h : jsIndexOf sibs v ≤ 0) :
    apportion fuel v da sibs st = (da, st) := by
  simp only [apportion]
  rw [if_pos h]

theorem fold_change_nonpos (st : St) :
    ∀ (L : List Key), (∀ c ∈ L, (getS st c).change ≤ 0) →
    ∀ a : ℚ, a ≤ 0 →
    L.foldl (fun acc c => acc + (getS st c).change) a ≤ 0 := by
  intro L
  induction L with
  | nil => intro _ a ha; exact ha
  | cons c rest ih =>
      intro h a ha
      rw [List.foldl_cons]
      exact ih (fun c2 hc2 => h c2 (List.mem_cons_of_mem c hc2)) _
        (by linarith [h c (List.mem_cons_self c rest)])

theorem wsr_tail_nonpos (k : Key) (st : St) :
    ∀ (t : Nat),
    (∀ u, u < t → (getS st (k ++ [u + 1])).shift
      + ((u : ℚ) + 1) * (getS st (k ++ [u + 1])).change ≤ 0) →
    wsr (((List.range t).map (fun u => k ++ [u + 1])).reverse) st ≤ 0 := by
  intro t
  induction t with
  | zero =>
      intro _
      rw [List.range_zero, List.map_nil, List.reverse_nil, wsr]
  | succ t ih =>
      intro h
      rw [List.range_succ, List.map_append, List.reverse_append]
      rw [List.map_cons, List.map_nil, List.reverse_cons, List.reverse_nil,
        List.nil_append, List.singleton_append]
      rw [wsr]
      have hlen : ((List.range t).map (fun u => k ++ [u + 1])).reverse.length
          = t := by
        simp
      rw [hlen]
      have h1 := h t (by omega)
      have h2 := ih (fun u hu => h u (by omega))
      linarith

theorem childKeys_cons_map (k : Key) {n : Nat} (h : 0 < n) :
    childKeys k n = (k ++ [0]) ::
      ((List.range (n - 1)).map (fun u => k ++ [u + 1])) := by
  obtain ⟨t, rfl⟩ : ∃ t, n = t + 1 := ⟨n - 1, by omega⟩
  rw [childKeys, List.range_succ_eq_map, List.map_cons, List.map_map]
  rw [Nat.add_sub_cancel]
  rfl

theorem childKeys_split_pair (k : Key) {m n : Nat} (h1 : 1 ≤ m)
    (h2 : m < n) :
    childKeys k n =
      ((List.range (m - 1)).map (fun u => k ++ [u])) ++
        (k ++ [m - 1]) :: (k ++ [m]) ::
          ((List.range (n - (m + 1))).map (fun u => k ++ [m + 1 + u])) := by
  obtain ⟨b, rfl⟩ : ∃ b, n = (m + 1) + b := ⟨n - (m + 1), by omega⟩
  obtain ⟨a, rfl⟩ : ∃ a, m = a + 1 := ⟨m - 1, by omega⟩
  have hb : a + 1 + 1 + b - (a + 1 + 1) = b := by omega
  have ha : a + 1 - 1 = a := by omega
  rw [childKeys, hb, ha]
  have hr : List.range (a + 1 + 1 + b)
      = (List.range a ++ [a] ++ [a + 1]) ++
        (List.range b).map (fun u => a + 1 + 1 + u) := by
    rw [List.range_add, List.range_succ, List.range_succ]
  rw [hr]
  rw [List.map_append, List.map_append, List.map_append, List.map_map]
  simp only [List.map_cons, List.map_nil]
  rw [List.append_assoc, List.append_assoc]
  congr 1

theorem foldMin_le_init (f : Key → ℚ) :
    ∀ (ks : List Key) (a : ℚ),
    ks.foldl (fun acc k2 => min acc (f k2)) a ≤ a := by
  intro ks
  induction ks with
  | nil => intro a; exact le_refl a
  | cons c rest ih =>
      intro a
      rw [List.foldl_cons]
      exact (ih _).trans (min_le_left _ _)

theorem foldMin_le_mem (f : Key → ℚ) :
    ∀ (ks : List Key) (a : ℚ) (j : Key), j ∈ ks →
    ks.foldl (fun acc k2 => min acc (f k2)) a ≤ f j := by
  intro ks
  induction ks with
  | nil => intro a j hj; exact absurd hj (List.not_mem_nil j)
  | cons c rest ih =>
      intro a j hj
      rw [List.foldl_cons]
      rcases List.mem_cons.mp hj with rfl | hj
      · exact (foldMin_le_init f rest _).trans (min_le_right _ _)
      · exact ih _ j hj

theorem foldMin_shift (f g : Key → ℚ) (off : ℚ) :
    ∀ (ks : List Key) (a : ℚ), (∀ j ∈ ks, g j = f j - off) →
    ks.foldl (fun acc k2 => min acc (g k2)) (a - off)
      = ks.foldl (fun acc k2 => min acc (f k2)) a - off := by
  intro ks
  induction ks with
  | nil => intro a _; rfl
  | cons c rest ih =>
      intro a h
      rw [List.foldl_cons, List.foldl_cons]
      rw [h c (List.mem_cons_self c rest), min_sub_sub_right]
      exact ih _ (fun j hj => h j (List.mem_cons_of_mem c hj))

theorem sep_chain (x w : Nat → ℚ) (g : ℚ) (hg : 0 ≤ g) (n : Nat)
    (hw : ∀ m, m < n → 0 ≤ w m)
    (hadj : ∀ m, 1 ≤ m → m < n → x (m - 1) + w (m - 1) + g ≤ x m) :
    ∀ j2, j2 < n → ∀ i, i < j2 → x i + w i + g ≤ x j2 := by
  intro j2
  induction j2 with
  | zero => intro _ i hi; exact absurd hi (Nat.not_lt_zero i)
  | succ t ih =>
      intro hj2 i hi
      have hstep := hadj (t + 1) (by omega) hj2
      simp only [Nat.add_sub_cancel] at hstep
      rcases Nat.lt_or_ge i t with hit | hit
      · have hch := ih (by omega) i hit
        have hwt := hw t (by omega)
        linarith
      · have hieq : i = t := by omega
        subst hieq
        linarith

theorem sepOk_congr {st st2 : St} {k : Key} {n : Nat}
    (h : ∀ m, m < n →
      (getS st2 (k ++ [m])).prelim = (getS st (k ++ [m])).prelim ∧
      (getS st2 (k ++ [m])).width = (getS st (k ++ [m])).width)
    (hs : sepOk st k n) : sepOk st2 k n := by
  intro m h1 h2
  rw [(h (m - 1) (by omega)).1, (h (m - 1) (by omega)).2, (h m h2).1]
  exact hs m h1 h2

theorem firstChildOk_congr {st st2 : St} {k : Key} {n : Nat}
    (hc : (getS st2 (k ++ [0])).children = (getS st (k ++ [0])).children)
    (hm : (getS st (k ++ [0])).children ≠ [] →
      (getS st2 (k ++ [0])).mod = (getS st (k ++ [0])).mod)
    (hp : (getS st (k ++ [0])).children = [] →
      (getS st2 (k ++ [0])).prelim = (getS st (k ++ [0])).prelim)
    (h : firstChildOk st k n) : firstChildOk st2 k n := by
  intro hn
  obtain ⟨h1, h2⟩ := h hn
  constructor
  · intro hne
    rw [hc] at hne
    rw [hm hne]
    exact h1 hne
  · intro he
    rw [hc] at he
    rw [hp he]
    exact h2 he

theorem initList_shift_zero (lt : LayoutTree) (j : Key) :
    (getS (initList lt []) j).shift = 0 := by
  refine getS_prop (fun ns => ns.shift = 0) _ rfl ?_ j
  intro p hp
  obtain ⟨lt2, k2, rfl⟩ := initList_entries lt [] p hp
  rfl

theorem initList_change_zero (lt : LayoutTree) (j : Key) :
    (getS (initList lt []) j).change = 0 := by
  refine getS_prop (fun ns => ns.change = 0) _ rfl ?_ j
  intro p hp
  obtain ⟨lt2, k2, rfl⟩ := initList_entries lt [] p hp
  rfl

theorem reverse_pair_split {α : Type _} (A B : List α) (q p : α) :
    (A ++ q :: p :: B).reverse = B.reverse ++ p :: q :: A.reverse := by
  simp

/-! ## The `firstWalk` separation master: sibling `prelim` gaps and
first-child facts -/

mutual

theorem fw_sep (fuel : Nat) (sk : LayoutTree) :
    ∀ (k : Key) (siblings : List Key) (st : St),
    SkAt sk k st →
    (∀ j ∈ allKeys sk k, j ∈ keysOf st) →
    (∀ j, Below k j → (getS st j).children ≠ [] → (getS st j).mod = 0) →
    (∀ j, Below k j → (getS st j).shift = 0 ∧ (getS st j).change = 0) →
    NumA sk k st →
    (0 < jsIndexOf siblings k →
      ¬ Below k (jsGet siblings (jsIndexOf siblings k - 1))) →
    (getS (firstWalk fuel sk k siblings st) k).shift = 0 ∧
    (getS (firstWalk fuel sk k siblings st) k).change = 0 ∧
    (0 < jsIndexOf siblings k →
      (getS (firstWalk fuel sk k siblings st) k).prelim
        = (getS st (jsGet siblings (jsIndexOf siblings k - 1))).prelim
          + (getS st (jsGet siblings (jsIndexOf siblings k - 1))).width
          + NODE_GAP_X) ∧
    (jsIndexOf siblings k ≤ 0 → (getS st k).children ≠ [] →
      (getS (firstWalk fuel sk k siblings st) k).mod = 0) ∧
    (jsIndexOf siblings k ≤ 0 → (getS st k).children = [] →
      (getS (firstWalk fuel sk k siblings st) k).prelim = 0) ∧
    (∀ j ∈ allKeys sk k,
      sepOk (firstWalk fuel sk k siblings st) j
        ((getS (firstWalk fuel sk k siblings st) j).children).length ∧
      firstChildOk (firstWalk fuel sk k siblings st) j
        ((getS (firstWalk fuel sk k siblings st) j).children).length) := by
  cases sk with
  | mk i0 n0 w0 h0 e0 d0 num0 cs =>
      intro k siblings st hsk hkeys hfreshM hfreshSC hnum hls
      rw [SkAt] at hsk
      obtain ⟨hskc, hskcs⟩ := hsk
      rw [NumA] at hnum
      obtain ⟨hnumlv, hnumcs⟩ := hnum
      simp only [firstWalk]
      by_cases hcs : cs.isEmpty
      · -- leaf node
        rw [if_pos hcs]
        have hcs' : cs = [] := by simpa using hcs
        subst hcs'
        have hchk : (getS st k).children = [] := by
          rw [hskc]
          rfl
        have hkmem : k ∈ keysOf st := hkeys k (self_mem_allKeys _ k)
        by_cases hidx : 0 < jsIndexOf siblings k
        · rw [if_pos hidx]
          refine ⟨?_, ?_, ?_, ?_, ?_, ?_⟩
          · rw [getS_updS_mem st k _ hkmem]
            exact (hfreshSC k (below_refl k)).1
          · rw [getS_updS_mem st k _ hkmem]
            exact (hfreshSC k (below_refl k)).2
          · intro h
            rw [getS_updS_mem st k _ hkmem]
          · intro h
            exact absurd h (not_le.mpr hidx)
          · intro h
            exact absurd h (not_le.mpr hidx)
          · intro j hj
            rw [allKeys, allKeysChildren] at hj
            rcases List.mem_cons.mp hj with rfl | hj
            · rw [getS_updS_mem st j _ hkmem]
              show sepOk _ j (((getS st j).children).length) ∧
                firstChildOk _ j (((getS st j).children).length)
              rw [hchk]
              constructor
              · intro m h1 h2
                exact absurd h2 (Nat.not_lt_zero m)
              · intro h0
                exact absurd h0 (lt_irrefl 0)
            · exact absurd hj (List.not_mem_nil j)
        · rw [if_neg hidx]
          refine ⟨?_, ?_, ?_, ?_, ?_, ?_⟩
          · rw [getS_updS_mem st k _ hkmem]
            exact (hfreshSC k (below_refl k)).1
          · rw [getS_updS_mem st k _ hkmem]
            exact (hfreshSC k (below_refl k)).2
          · intro h
            exact absurd h hidx
          · intro h hch
            exact absurd hchk hch
          · intro h hch
            rw [getS_updS_mem st k _ hkmem]
          · intro j hj
            rw [allKeys, allKeysChildren] at hj
            rcases List.mem_cons.mp hj with rfl | hj
            · rw [getS_updS_mem st j _ hkmem]
              show sepOk _ j (((getS st j).children).length) ∧
                firstChildOk _ j (((getS st j).children).length)
              rw [hchk]
              constructor
              · intro m h1 h2
                exact absurd h2 (Nat.not_lt_zero m)
              · intro h0
                exact absurd h0 (lt_irrefl 0)
            · exact absurd hj (List.not_mem_nil j)
      · -- internal node
        rw [if_neg hcs]
        have hn : 0 < cs.length := by
          cases cs with
          | nil => simp at hcs
          | cons a b => simp
        have hchk : (getS st k).children ≠ [] := by
          rw [hskc]
          exact childKeys_ne_nil hn
        have hkeysA : ∀ j ∈ allKeysChildren cs k 0, j ∈ keysOf st :=
          fun j hj => hkeys j (by
            rw [allKeys]
            exact List.mem_cons_of_mem _ hj)
        have hfreshMA : ∀ j m, 0 ≤ m → m < 0 + cs.length →
            Below (k ++ [m]) j → (getS st j).children ≠ [] →
            (getS st j).mod = 0 :=
          fun j m _ hm hb hc2 => hfreshM j
            (below_trans (below_app k [m]) hb) hc2
        have hfreshSCA : ∀ j m, 0 ≤ m → m < 0 + cs.length →
            Below (k ++ [m]) j →
            (getS st j).shift = 0 ∧ (getS st j).change = 0 :=
          fun j m _ hm hb => hfreshSC j (below_trans (below_app k [m]) hb)
        obtain ⟨WA, MA⟩ := fwc_master fuel cs k (childKeys k cs.length) 0
          (jsGet (childKeys k cs.length) 0) st hskcs hkeysA hfreshMA
        obtain ⟨G1, G2, G4, G3⟩ := fwc_sep fuel cs k 0
          (jsGet (childKeys k cs.length) 0) st cs.length hskcs hkeysA
          hfreshMA hfreshSCA hnumcs hnumlv
          (by
            have hh := hnumlv 0 hn
            rw [jsGet_childKeys_zero hn]
            omega)
          (by omega)
        obtain ⟨sA, hsA⟩ : ∃ sA,
            (firstWalkChildren fuel cs k (childKeys k cs.length) 0
              (jsGet (childKeys k cs.length) 0) st).2 = sA := ⟨_, rfl⟩
        rw [hsA] at WA MA G1 G2 G4 G3 ⊢
        have hSkA : SkAtChildren cs k 0 sA :=
          skAtChildren_of_baseOp WA.base hskcs
        have hchA : (getS sA k).children = childKeys k cs.length := by
          rw [(WA.base.statics k).2.2.2.2.2.2.1]
          exact hskc
        obtain ⟨sB, hsB⟩ : ∃ sB, executeShifts k sA = sB := ⟨_, rfl⟩
        rw [hsB]
        rw [executeShifts, hchA] at hsB
        have hmemL : ∀ {j : Key}, j ∈ (childKeys k cs.length).reverse ↔
            j ∈ childKeys k cs.length := by
          intro j
          exact List.mem_reverse
        have hUnt : ∀ j, ¬ j ∈ childKeys k cs.length →
            getS sB j = getS sA j := by
          intro j hj
          rw [← hsB]
          exact execShiftsAux_untouched _ _ _ _ j (fun hh => hj (hmemL.mp hh))
        have hPrch : ∀ (j : Key), (getS sB j).children = (getS sA j).children
            ∧ (getS sB j).width = (getS sA j).width
            ∧ (getS sB j).shift = (getS sA j).shift
            ∧ (getS sB j).change = (getS sA j).change
            ∧ (getS sB j).number = (getS sA j).number := by
          intro j
          rw [← hsB]
          exact ⟨execShiftsAux_preserve (fun ns => ns.children)
              (fun ns δ => rfl) _ _ _ _ j,
            execShiftsAux_preserve (fun ns => ns.width)
              (fun ns δ => rfl) _ _ _ _ j,
            execShiftsAux_preserve (fun ns => ns.shift)
              (fun ns δ => rfl) _ _ _ _ j,
            execShiftsAux_preserve (fun ns => ns.change)
              (fun ns δ => rfl) _ _ _ _ j,
            execShiftsAux_preserve (fun ns => ns.number)
              (fun ns δ => rfl) _ _ _ _ j⟩
        have hkeysB : keysOf sB = keysOf st := by
          rw [← hsB]
          exact (baseOp_trans WA.base (baseOp_executeShiftsAux _ _ _ _)).keys
        have hkmemB : k ∈ keysOf sB := by
          rw [hkeysB]
          exact hkeys k (self_mem_allKeys _ k)
        have hknotL : ¬ k ∈ childKeys k cs.length := by
          intro hh
          have := mem_childKeys_length hh
          omega
        have hmodB0 : (getS sB k).mod = 0 := by
          rw [hUnt k hknotL]
          rw [WA.mod k ?_ hchk]
          · exact hfreshM k (below_refl k) hchk
          · rintro ⟨m, -, -, hm⟩
            exact not_below_child_parent k m hm
        have hshB0 : (getS sB k).shift = 0 := by
          rw [(hPrch k).2.2.1]
          rw [WA.shift k ?_]
          · exact (hfreshSC k (below_refl k)).1
          · rintro ⟨m, -, -, hm⟩
            exact not_below_child_parent k m hm
        have hchgB0 : (getS sB k).change = 0 := by
          rw [(hPrch k).2.2.2.1]
          rw [WA.change k ?_]
          · exact (hfreshSC k (below_refl k)).2
          · rintro ⟨m, -, -, hm⟩
            exact not_below_child_parent k m hm
        have hchB : (getS sB k).children = childKeys k cs.length := by
          rw [(hPrch k).1]
          exact hchA
        -- sibling `prelim` separation at `k` after `executeShifts`
        have hsepB : ∀ m, 1 ≤ m → m < cs.length →
            (getS sB (k ++ [m - 1])).prelim
              + (getS sB (k ++ [m - 1])).width + NODE_GAP_X
              ≤ (getS sB (k ++ [m])).prelim := by
          intro m h1 h2
          have hdec := childKeys_split_pair k h1 h2
          have hrevdec : (childKeys k cs.length).reverse
              = ((List.range (cs.length - (m + 1))).map
                  (fun u => k ++ [m + 1 + u])).reverse
                ++ (k ++ [m]) :: (k ++ [m - 1]) ::
                  ((List.range (m - 1)).map (fun u => k ++ [u])).reverse := by
            rw [hdec]
            exact reverse_pair_split _ _ _ _
          have hnd2 : (((List.range (cs.length - (m + 1))).map
                (fun u => k ++ [m + 1 + u])).reverse
              ++ (k ++ [m]) :: (k ++ [m - 1]) ::
                ((List.range (m - 1)).map (fun u => k ++ [u])).reverse).Nodup := by
            rw [← hrevdec]
            exact List.nodup_reverse.mpr (childKeys_nodup k cs.length)
          have hpm : (k ++ [m] : Key) ∈ keysOf sA := by
            rw [WA.base.keys]
            exact hkeysA _ (mem_allKeysChildren_root cs k 0 m (by omega)
              (by omega))
          have hqm : (k ++ [m - 1] : Key) ∈ keysOf sA := by
            rw [WA.base.keys]
            exact hkeysA _ (mem_allKeysChildren_root cs k 0 (m - 1) (by omega)
              (by omega))
          have hcons := execShiftsAux_consecutive (k ++ [m]) (k ++ [m - 1])
            (((List.range (cs.length - (m + 1))).map
              (fun u => k ++ [m + 1 + u])).reverse)
            (((List.range (m - 1)).map (fun u => k ++ [u])).reverse)
            0 0 sA hnd2 hpm hqm
          have hsB2 := hsB
          rw [hrevdec] at hsB2
          rw [hsB2] at hcons
          have hG1m := G1 m h1 (by omega) (by omega)
          have hfold : (((List.range (cs.length - (m + 1))).map
                (fun u => k ++ [m + 1 + u])).reverse).foldl
                (fun acc c => acc + (getS sA c).change) 0 ≤ 0 := by
            refine fold_change_nonpos sA _ ?_ 0 le_rfl
            intro c hc
            rw [List.mem_reverse] at hc
            obtain ⟨u, hu, rfl⟩ := List.mem_map.mp hc
            rw [List.mem_range] at hu
            exact (G2 (m + 1 + u) (by omega) (by omega)).1
          have hcp : (getS sA (k ++ [m])).change ≤ 0 :=
            (G2 m (by omega) (by omega)).1
          have hwq := (hPrch (k ++ [m - 1])).2.1
          linarith
        -- first-child facts at `k` after `executeShifts`
        have hconsmap := childKeys_cons_map k hn
        have hrev0 : (childKeys k cs.length).reverse
            = (((List.range (cs.length - 1)).map
                (fun u => k ++ [u + 1])).reverse) ++ [k ++ [0]] := by
          rw [hconsmap]
          exact List.reverse_cons _ _
        have hfcB : ((getS sA (k ++ [0])).children ≠ [] →
              (getS sB (k ++ [0])).mod ≤ 0) ∧
            ((getS sA (k ++ [0])).children = [] →
              (getS sB (k ++ [0])).prelim ≤ 0) := by
          have hnd0 : ((((List.range (cs.length - 1)).map
                (fun u => k ++ [u + 1])).reverse) ++ [k ++ [0]]).Nodup := by
            rw [← hrev0]
            exact List.nodup_reverse.mpr (childKeys_nodup k cs.length)
          have hm0 : (k ++ [0] : Key) ∈ keysOf sA := by
            rw [WA.base.keys]
            exact hkeysA _ (mem_allKeysChildren_root cs k 0 0 (by omega)
              (by omega))
          have hlast := execShiftsAux_last (k ++ [0])
            (((List.range (cs.length - 1)).map
              (fun u => k ++ [u + 1])).reverse) 0 0 sA hnd0 hm0
          have hsB3 := hsB
          rw [hrev0] at hsB3
          rw [hsB3] at hlast
          have hdelta : execDelta (((List.range (cs.length - 1)).map
                (fun u => k ++ [u + 1])).reverse) 0 0 sA
              = wsr (((List.range (cs.length - 1)).map
                (fun u => k ++ [u + 1])).reverse) sA := by
            rw [execDelta_eq]
            ring
          have hwsr : wsr (((List.range (cs.length - 1)).map
              (fun u => k ++ [u + 1])).reverse) sA ≤ 0 := by
            refine wsr_tail_nonpos k sA (cs.length - 1) ?_
            intro u hu
            have := (G2 (u + 1) (by omega) (by omega)).2
            push_cast at this ⊢
            linarith
          obtain ⟨hG4i, hG4l⟩ := G4 rfl hn
          have hchg0 : (getS sA (k ++ [0])).children
              = (getS st (k ++ [0])).children :=
            (WA.base.statics (k ++ [0])).2.2.2.2.2.2.1
          constructor
          · intro hne
            rw [hlast.2, hdelta]
            rw [hG4i (by rw [← hchg0]; exact hne)]
            linarith
          · intro he
            rw [hlast.1, hdelta]
            rw [hG4l (by rw [← hchg0]; exact he)]
            linarith
        -- deep facts survive `executeShifts`
        have hdeepB : ∀ j ∈ allKeysChildren cs k 0,
            sepOk sB j ((getS sB j).children).length ∧
            firstChildOk sB j ((getS sB j).children).length := by
          intro j hj
          obtain ⟨⟨nj, hshj⟩, -⟩ := skAtChildren_shape cs k 0 sA hSkA j hj
          obtain ⟨m, -, -, hmb⟩ := mem_allKeysChildren_decomp cs k 0 j hj
          have hjlen : k.length + 1 ≤ j.length := by
            have := below_length hmb
            simp at this
            omega
          have hchjuntouched : ∀ c ∈ (getS sA j).children, getS sB c = getS sA c := by
            intro c hc
            rw [hshj] at hc
            have hclen := mem_childKeys_length hc
            refine hUnt c ?_
            intro hh
            have := mem_childKeys_length hh
            omega
          have hchjB : (getS sB j).children = (getS sA j).children :=
            (hPrch j).1
          rw [hchjB, hshj, childKeys_length]
          obtain ⟨hsepj, hfcj⟩ := G3 j hj
          rw [hshj, childKeys_length] at hsepj hfcj
          constructor
          · refine sepOk_congr ?_ hsepj
            intro m2 hm2
            have hmemch : (j ++ [m2] : Key) ∈ (getS sA j).children := by
              rw [hshj]
              exact mem_childKeys.mpr ⟨m2, hm2, rfl⟩
            rw [hchjuntouched _ hmemch]
            exact ⟨rfl, rfl⟩
          · by_cases hnj : 0 < nj
            · have hmemch : (j ++ [0] : Key) ∈ (getS sA j).children := by
                rw [hshj]
                exact mem_childKeys.mpr ⟨0, hnj, rfl⟩
              refine firstChildOk_congr ?_ ?_ ?_ hfcj
              · rw [hchjuntouched _ hmemch]
              · intro h2
                rw [hchjuntouched _ hmemch]
              · intro h2
                rw [hchjuntouched _ hmemch]
            · intro h0
              exact absurd h0 hnj
        -- final `updS` at `k`
        have hlsfacts : 0 < jsIndexOf siblings k →
            (getS sB (jsGet siblings (jsIndexOf siblings k - 1))).prelim
              = (getS st (jsGet siblings (jsIndexOf siblings k - 1))).prelim
            ∧ (getS sB (jsGet siblings (jsIndexOf siblings k - 1))).width
              = (getS st (jsGet siblings (jsIndexOf siblings k - 1))).width := by
          intro hpos
          have hnb := hls hpos
          have hnotchild : ¬ jsGet siblings (jsIndexOf siblings k - 1)
              ∈ childKeys k cs.length := by
            intro hh
            exact hnb (mem_childKeys_below hh).1
          have hnotP : ¬ ∃ m, 0 ≤ m ∧ m < 0 + cs.length ∧
              Below (k ++ [m]) (jsGet siblings (jsIndexOf siblings k - 1)) := by
            rintro ⟨m, -, -, hm⟩
            exact hnb (below_trans (below_app k [m]) hm)
          rw [hUnt _ hnotchild]
          exact ⟨WA.prelim _ hnotP,
            ((WA.base.statics (jsGet siblings
              (jsIndexOf siblings k - 1))).2.1)⟩
        by_cases hidx : 0 < jsIndexOf siblings k
        · rw [if_pos hidx]
          refine ⟨?_, ?_, ?_, ?_, ?_, ?_⟩
          · rw [getS_updS_mem sB k _ hkmemB]
            exact hshB0
          · rw [getS_updS_mem sB k _ hkmemB]
            exact hchgB0
          · intro h
            rw [getS_updS_mem sB k _ hkmemB]
            dsimp only
            rw [(hlsfacts hidx).1, (hlsfacts hidx).2]
          · intro h
            exact absurd h (not_le.mpr hidx)
          · intro h
            exact absurd h (not_le.mpr hidx)
          · intro j hj
            rw [allKeys] at hj
            rcases List.mem_cons.mp hj with rfl | hj
            · rw [getS_updS_mem sB j _ hkmemB]
              show sepOk _ j (((getS sB j).children).length) ∧
                firstChildOk _ j (((getS sB j).children).length)
              rw [hchB, childKeys_length]
              constructor
              · refine sepOk_congr ?_ (fun m h1 h2 => hsepB m h1 h2)
                intro m2 hm2
                rw [getS_updS_ne sB j _ _ (child_ne_parent j m2)]
                exact ⟨rfl, rfl⟩
              · intro h0
                rw [getS_updS_ne sB j _ _ (child_ne_parent j 0)]
                have hchg0 : (getS sA (j ++ [0])).children
                    = (getS sB (j ++ [0])).children := ((hPrch (j ++ [0])).1).symm
                constructor
                · intro hne
                  exact hfcB.1 (by rw [hchg0]; exact hne)
                · intro he
                  exact hfcB.2 (by rw [hchg0]; exact he)
            · obtain ⟨hsepj, hfcj⟩ := hdeepB j hj
              obtain ⟨m, -, -, hmb⟩ := mem_allKeysChildren_decomp cs k 0 j hj
              have hjlen : k.length + 1 ≤ j.length := by
                have := below_length hmb
                simp at this
                omega
              have hjchne : ∀ m2 : Nat, (j ++ [m2] : Key) ≠ k := by
                intro m2 hh
                have : (j ++ [m2]).length = k.length := by rw [hh]
                simp at this
                omega
              have hjne : j ≠ k := by
                intro hh
                rw [hh] at hjlen
                omega
              rw [getS_updS_ne sB k _ j hjne]
              constructor
              · refine sepOk_congr ?_ hsepj
                intro m2 hm2
                rw [getS_updS_ne sB k _ _ (hjchne m2)]
                exact ⟨rfl, rfl⟩
              · refine firstChildOk_congr ?_ ?_ ?_ hfcj
                · rw [getS_updS_ne sB k _ _ (hjchne 0)]
                · intro h2
                  rw [getS_updS_ne sB k _ _ (hjchne 0)]
                · intro h2
                  rw [getS_updS_ne sB k _ _ (hjchne 0)]
        · rw [if_neg hidx]
          refine ⟨?_, ?_, ?_, ?_, ?_, ?_⟩
          · rw [getS_updS_mem sB k _ hkmemB]
            exact hshB0
          · rw [getS_updS_mem sB k _ hkmemB]
            exact hchgB0
          · intro h
            exact absurd h hidx
          · intro h hch
            rw [getS_updS_mem sB k _ hkmemB]
            exact hmodB0
          · intro h hch
            exact absurd hch (by
              intro hh
              exact hchk hh)
          · intro j hj
            rw [allKeys] at hj
            rcases List.mem_cons.mp hj with rfl | hj
            · rw [getS_updS_mem sB j _ hkmemB]
              show sepOk _ j (((getS sB j).children).length) ∧
                firstChildOk _ j (((getS sB j).children).length)
              rw [hchB, childKeys_length]
              constructor
              · refine sepOk_congr ?_ (fun m h1 h2 => hsepB m h1 h2)
                intro m2 hm2
                rw [getS_updS_ne sB j _ _ (child_ne_parent j m2)]
                exact ⟨rfl, rfl⟩
              · intro h0
                rw [getS_updS_ne sB j _ _ (child_ne_parent j 0)]
                have hchg0 : (getS sA (j ++ [0])).children
                    = (getS sB (j ++ [0])).children := ((hPrch (j ++ [0])).1).symm
                constructor
                · intro hne
                  exact hfcB.1 (by rw [hchg0]; exact hne)
                · intro he
                  exact hfcB.2 (by rw [hchg0]; exact he)
            · obtain ⟨hsepj, hfcj⟩ := hdeepB j hj
              obtain ⟨m, -, -, hmb⟩ := mem_allKeysChildren_decomp cs k 0 j hj
              have hjlen : k.length + 1 ≤ j.length := by
                have := below_length hmb
                simp at this
                omega
              have hjchne : ∀ m2 : Nat, (j ++ [m2] : Key) ≠ k := by
                intro m2 hh
                have : (j ++ [m2]).length = k.length := by rw [hh]
                simp at this
                omega
              have hjne : j ≠ k := by
                intro hh
                rw [hh] at hjlen
                omega
              rw [getS_updS_ne sB k _ j hjne]
              constructor
              · refine sepOk_congr ?_ hsepj
                intro m2 hm2
                rw [getS_updS_ne sB k _ _ (hjchne m2)]
                exact ⟨rfl, rfl⟩
              · refine firstChildOk_congr ?_ ?_ ?_ hfcj
                · rw [getS_updS_ne sB k _ _ (hjchne 0)]
                · intro h2
                  rw [getS_updS_ne sB k _ _ (hjchne 0)]
                · intro h2
                  rw [getS_updS_ne sB k _ _ (hjchne 0)]

theorem fwc_sep (fuel : Nat) (cs : List LayoutTree) :
    ∀ (k : Key) (i : Nat) (da : Key) (st : St) (n : Nat),
    SkAtChildren cs k i st →
    (∀ j ∈ allKeysChildren cs k i, j ∈ keysOf st) →
    (∀ j m, i ≤ m → m < i + cs.length → Below (k ++ [m]) j →
      (getS st j).children ≠ [] → (getS st j).mod = 0) →
    (∀ j m, i ≤ m → m < i + cs.length → Below (k ++ [m]) j →
      (getS st j).shift = 0 ∧ (getS st j).change = 0) →
    NumAChildren cs k i st →
    (∀ m, m < n → (getS st (k ++ [m])).number = m + 1) →
    1 ≤ (getS st da).number →
    i + cs.length = n →
    (∀ m, 1 ≤ m → i ≤ m → m < n →
      (getS (firstWalkChildren fuel cs k (childKeys k n) i da st).2
          (k ++ [m])).prelim
        = (getS (firstWalkChildren fuel cs k (childKeys k n) i da st).2
            (k ++ [m - 1])).prelim
          + (getS (firstWalkChildren fuel cs k (childKeys k n) i da st).2
              (k ++ [m - 1])).width
          + NODE_GAP_X
          + (getS (firstWalkChildren fuel cs k (childKeys k n) i da st).2
              (k ++ [m])).shift) ∧
    (∀ m, i ≤ m → m < n →
      (getS (firstWalkChildren fuel cs k (childKeys k n) i da st).2
          (k ++ [m])).change ≤ 0 ∧
      (getS (firstWalkChildren fuel cs k (childKeys k n) i da st).2
            (k ++ [m])).shift
          + (m : ℚ) * (getS (firstWalkChildren fuel cs k
              (childKeys k n) i da st).2 (k ++ [m])).change ≤ 0) ∧
    (i = 0 → 0 < n →
      ((getS st (k ++ [0])).children ≠ [] →
        (getS (firstWalkChildren fuel cs k (childKeys k n) i da st).2
          (k ++ [0])).mod = 0) ∧
      ((getS st (k ++ [0])).children = [] →
        (getS (firstWalkChildren fuel cs k (childKeys k n) i da st).2
          (k ++ [0])).prelim = 0)) ∧
    (∀ j ∈ allKeysChildren cs k i,
      sepOk (firstWalkChildren fuel cs k (childKeys k n) i da st).2 j
        ((getS (firstWalkChildren fuel cs k (childKeys k n) i da st).2
          j).children).length ∧
      firstChildOk (firstWalkChildren fuel cs k (childKeys k n) i da st).2 j
        ((getS (firstWalkChildren fuel cs k (childKeys k n) i da st).2
          j).children).length) := by
  cases cs with
  | nil =>
      intro k i da st n hsk hkeys hfreshM hfreshSC hnum hnumlv hda hin
      rw [firstWalkChildren]
      rw [List.length_nil] at hin
      refine ⟨?_, ?_, ?_, ?_⟩
      · intro m h1 h2 h3
        omega
      · intro m h1 h2
        omega
      · intro h0 hn
        omega
      · intro j hj
        rw [allKeysChildren] at hj
        exact absurd hj (List.not_mem_nil j)
  | cons c rest =>
      intro k i da st n hsk hkeys hfreshM hfreshSC hnum hnumlv hda hin
      rw [SkAtChildren] at hsk
      obtain ⟨hskc, hskrest⟩ := hsk
      rw [NumAChildren] at hnum
      obtain ⟨hnumc, hnumrest⟩ := hnum
      have hiltn : i < n := by
        rw [List.length_cons] at hin
        omega
      simp only [firstWalkChildren]
      have hkeysc : ∀ j ∈ allKeys c (k ++ [i]), j ∈ keysOf st :=
        fun j hj => hkeys j (by
          rw [allKeysChildren]
          exact List.mem_append.mpr (Or.inl hj))
      have hidxi : jsIndexOf (childKeys k n) (k ++ [i]) = (i : Int) :=
        jsIndexOf_childKeys hiltn
      -- the recursive `firstWalk` on the child
      obtain ⟨W1, M1⟩ := fw_master fuel c (k ++ [i]) (childKeys k n) st hskc
        hkeysc
        (fun j hb hc2 => hfreshM j i (le_refl i) (by simp) hb hc2)
      obtain ⟨Fsh, Fchg, F3, F6, F7, F4⟩ := fw_sep fuel c (k ++ [i])
        (childKeys k n) st hskc hkeysc
        (fun j hb hc2 => hfreshM j i (le_refl i) (by simp) hb hc2)
        (fun j hb => hfreshSC j i (le_refl i) (by simp) hb)
        hnumc
        (by
          intro hpos hb
          rw [hidxi] at hb
          have hi1 : 1 ≤ i := by
            rw [hidxi] at hpos
            omega
          have htn : ((i : Int) - 1).toNat = i - 1 := by omega
          rw [jsGet, htn] at hb
          have hget : (childKeys k n).getD (i - 1) [] = k ++ [i - 1] := by
            have := jsGet_childKeys (k := k) (n := n) (i := i - 1) (by omega)
            rw [jsGet] at this
            have htn2 : ((i - 1 : Nat) : Int).toNat = i - 1 := by omega
            rw [htn2] at this
            exact this
          rw [hget] at hb
          have heq := below_eq_of_length_le hb (by simp)
          have := List.append_cancel_left heq
          simp at this
          omega)
      obtain ⟨s1, hs1⟩ : ∃ s1,
          firstWalk fuel c (k ++ [i]) (childKeys k n) st = s1 := ⟨_, rfl⟩
      rw [hs1] at W1 M1 Fsh Fchg F3 F6 F7 F4 ⊢
      -- `apportion` on the child
      obtain ⟨W2, R2⟩ := apportion_walk fuel (k ++ [i]) da (childKeys k n) s1
      have hsb1 : ∀ s ∈ childKeys k n, 1 ≤ (getS s1 s).number := by
        intro s hsmem
        obtain ⟨m, hm, rfl⟩ := mem_childKeys.mp hsmem
        rw [(W1.base.statics (k ++ [m])).2.2.2.2.2.1, hnumlv m hm]
        omega
      have hda1 : 1 ≤ (getS s1 da).number := by
        rw [(W1.base.statics da).2.2.2.2.2.1]
        exact hda
      obtain ⟨LG1, LG2, LG3⟩ := apportion_ledger fuel (k ++ [i]) da
        (childKeys k n) s1 hsb1 hda1
      obtain ⟨rr, hrr⟩ : ∃ rr,
          apportion fuel (k ++ [i]) da (childKeys k n) s1 = rr := ⟨_, rfl⟩
      rw [hrr] at W2 R2 LG1 LG2 LG3 ⊢
      have hb12 : BaseOp st rr.2 := baseOp_trans W1.base W2.base
      have hskrest2 : SkAtChildren rest k (i + 1) rr.2 :=
        skAtChildren_of_baseOp hb12 hskrest
      have hkeysrest : ∀ j ∈ allKeysChildren rest k (i + 1),
          j ∈ keysOf rr.2 := by
        intro j hj
        rw [hb12.keys]
        exact hkeys j (by
          rw [allKeysChildren]
          exact List.mem_append.mpr (Or.inr hj))
      have hfreshM2 : ∀ j m, i + 1 ≤ m → m < (i + 1) + rest.length →
          Below (k ++ [m]) j → (getS rr.2 j).children ≠ [] →
          (getS rr.2 j).mod = 0 := by
        intro j m hm1 hm2 hb hc2
        have hnotb : ¬ Below (k ++ [i]) j := sibling_not_below (by omega) hb
        have hne : j ≠ k ++ [i] := by
          intro hh
          rw [hh] at hnotb
          exact hnotb (below_refl _)
        rw [(W2.base.statics j).2.2.2.2.2.2.1,
          (W1.base.statics j).2.2.2.2.2.2.1] at hc2
        rw [W2.mod j hne (by
          rw [(W1.base.statics j).2.2.2.2.2.2.1]
          exact hc2)]
        rw [W1.mod j hnotb hc2]
        exact hfreshM j m (by omega) (by simp; omega) hb hc2
      have hfreshSC2 : ∀ j m, i + 1 ≤ m → m < (i + 1) + rest.length →
          Below (k ++ [m]) j →
          (getS rr.2 j).shift = 0 ∧ (getS rr.2 j).change = 0 := by
        intro j m hm1 hm2 hb
        have hnotb : ¬ Below (k ++ [i]) j := sibling_not_below (by omega) hb
        have hne : j ≠ k ++ [i] := by
          intro hh
          rw [hh] at hnotb
          exact hnotb (below_refl _)
        rw [W2.shift j hne, W1.shift j hnotb,
          W2.change j hne, W1.change j hnotb]
        exact hfreshSC j m (by omega) (by simp; omega) hb
      have hnumrest2 : NumAChildren rest k (i + 1) rr.2 :=
        numAChildren_congr rest k (i + 1) st rr.2
          (fun j m _ _ _ => (hb12.statics j).2.2.2.2.2.1) hnumrest
      have hnumlv2 : ∀ m, m < n → (getS rr.2 (k ++ [m])).number = m + 1 :=
        fun m hm => by
          rw [(hb12.statics (k ++ [m])).2.2.2.2.2.1]
          exact hnumlv m hm
      have hda2 : 1 ≤ (getS rr.2 rr.1).number := by
        rcases apportion_fst fuel (k ++ [i]) da (childKeys k n) s1 with h | h
        · rw [hrr] at h
          rw [h, (hb12.statics (k ++ [i])).2.2.2.2.2.1, hnumlv i hiltn]
          omega
        · rw [hrr] at h
          rw [h, (hb12.statics da).2.2.2.2.2.1]
          exact hda
      have hin2 : (i + 1) + rest.length = n := by
        rw [List.length_cons] at hin
        omega
      obtain ⟨W3, -⟩ := fwc_master fuel rest k (childKeys k n) (i + 1) rr.1
        rr.2 hskrest2 hkeysrest hfreshM2
      obtain ⟨G1r, G2r, -, G3r⟩ := fwc_sep fuel rest k (i + 1) rr.1 rr.2 n
        hskrest2 hkeysrest hfreshM2 hfreshSC2 hnumrest2 hnumlv2 hda2 hin2
      obtain ⟨sE, hsE⟩ : ∃ sE,
          (firstWalkChildren fuel rest k (childKeys k n) (i + 1)
            rr.1 rr.2).2 = sE := ⟨_, rfl⟩
      rw [hsE] at W3 G1r G2r G3r ⊢
      -- frame: nodes at sibling positions `≤ i` are untouched by the rest
      have hnotP3 : ∀ (j : Key), Below (k ++ [i]) j →
          ¬ ∃ m2, i + 1 ≤ m2 ∧ m2 < (i + 1) + rest.length ∧
            Below (k ++ [m2]) j := by
        rintro j hbj ⟨m2, hm2a, -, hm2b⟩
        exact sibling_not_below (by omega) hbj hm2b
      have hnotP3lo : ∀ (m : Nat), m ≤ i →
          ¬ ∃ m2, i + 1 ≤ m2 ∧ m2 < (i + 1) + rest.length ∧
            Below (k ++ [m2]) (k ++ [m]) := by
        rintro m hm ⟨m2, hm2a, -, hm2b⟩
        have heq := below_eq_of_length_le hm2b (by simp)
        have := List.append_cancel_left heq
        simp at this
        omega
      have hprevfr : ∀ (m : Nat), m < i →
          (getS sE (k ++ [m])).prelim = (getS st (k ++ [m])).prelim ∧
          (getS sE (k ++ [m])).shift = (getS st (k ++ [m])).shift ∧
          (getS sE (k ++ [m])).change = (getS st (k ++ [m])).change := by
        intro m hm
        have hnb1 : ¬ Below (k ++ [i]) (k ++ [m]) := by
          intro hb
          have heq := below_eq_of_length_le hb (by simp)
          have := List.append_cancel_left heq
          simp at this
          omega
        have hne1 : (k ++ [m] : Key) ≠ k ++ [i] := by
          intro hh
          have := List.append_cancel_left hh
          simp at this
          omega
        refine ⟨?_, ?_, ?_⟩
        · rw [W3.prelim _ (hnotP3lo m (by omega)), W2.prelim _ hne1,
            W1.prelim _ hnb1]
        · rw [W3.shift _ (hnotP3lo m (by omega)), W2.shift _ hne1,
            W1.shift _ hnb1]
        · rw [W3.change _ (hnotP3lo m (by omega)), W2.change _ hne1,
            W1.change _ hnb1]
      have hifr : (getS sE (k ++ [i])).prelim = (getS rr.2 (k ++ [i])).prelim ∧
          (getS sE (k ++ [i])).shift = (getS rr.2 (k ++ [i])).shift ∧
          (getS sE (k ++ [i])).change = (getS rr.2 (k ++ [i])).change := by
        refine ⟨?_, ?_, ?_⟩
        · rw [W3.prelim _ (hnotP3lo i (le_refl i))]
        · rw [W3.shift _ (hnotP3lo i (le_refl i))]
        · rw [W3.change _ (hnotP3lo i (le_refl i))]
      have hB2E : BaseOp rr.2 sE := W3.base
      have hB0E : BaseOp st sE := baseOp_trans hb12 hB2E
      refine ⟨?_, ?_, ?_, ?_⟩
      · -- G1
        intro m h1m him hmn
        rcases Nat.lt_or_ge m (i + 1) with hmi | hmi
        · have hmeq : m = i := by omega
          subst hmeq
          have hi1 : 1 ≤ m := h1m
          -- the value written by `firstWalk` on child `m`
          have hF3 := F3 (by rw [hidxi]; omega)
          have htn : ((m : Int) - 1).toNat = m - 1 := by omega
          have hget : jsGet (childKeys k n) (jsIndexOf (childKeys k n)
              (k ++ [m]) - 1) = k ++ [m - 1] := by
            rw [hidxi, jsGet, htn]
            have := jsGet_childKeys (k := k) (n := n) (i := m - 1) (by omega)
            rw [jsGet] at this
            have htn2 : ((m - 1 : Nat) : Int).toNat = m - 1 := by omega
            rw [htn2] at this
            exact this
          rw [hget] at hF3
          have hsh1 : (getS s1 (k ++ [m])).shift = 0 := Fsh
          -- transport across `apportion` (prelim - shift preserved)
          have hPS : (getS rr.2 (k ++ [m])).prelim
              - (getS rr.2 (k ++ [m])).shift
              = (getS st (k ++ [m - 1])).prelim
                + (getS st (k ++ [m - 1])).width + NODE_GAP_X := by
            rw [LG1, hF3, hsh1]
            ring
          have hprev := hprevfr (m - 1) (by omega)
          have hw : (getS sE (k ++ [m - 1])).width
              = (getS st (k ++ [m - 1])).width :=
            (hB0E.statics (k ++ [m - 1])).2.1
          rw [hifr.1, hifr.2.1, hprev.1, hw]
          linarith [hPS]
        · exact G1r m h1m hmi hmn
      · -- G2
        intro m him hmn
        rcases Nat.lt_or_ge m (i + 1) with hmi | hmi
        · have hmeq : m = i := by omega
          subst hmeq
          have hsh1 : (getS s1 (k ++ [m])).shift = 0 := Fsh
          have hchg1 : (getS s1 (k ++ [m])).change = 0 := Fchg
          have hnum2 : (getS rr.2 (k ++ [m])).number = m + 1 := by
            rw [(hb12.statics (k ++ [m])).2.2.2.2.2.1]
            exact hnumlv m hmn
          constructor
          · rw [hifr.2.2]
            calc (getS rr.2 (k ++ [m])).change
                ≤ (getS s1 (k ++ [m])).change := LG2
              _ = 0 := hchg1
          · rw [hifr.2.1, hifr.2.2]
            have h3 := LG3
            rw [hnum2, (W1.base.statics (k ++ [m])).2.2.2.2.2.1,
              hnumlv m hmn] at h3
            rw [hsh1, hchg1] at h3
            push_cast at h3 ⊢
            linarith
        · exact G2r m hmi hmn
      · -- G4 (first-child facts, only when i = 0)
        intro hi0 h0n
        subst hi0
        have hidx0 : jsIndexOf (childKeys k n) (k ++ [0]) ≤ 0 := by
          rw [hidxi]
          omega
        have hrr0 : apportion fuel (k ++ [0]) da (childKeys k n) s1
            = (da, s1) := apportion_idx0 fuel _ da _ s1 hidx0
        have hrr2 : rr.2 = s1 := by
          rw [← hrr, hrr0]
        have hnbc : ¬ ∃ m2, 0 + 1 ≤ m2 ∧ m2 < (0 + 1) + rest.length ∧
            Below (k ++ [m2]) (k ++ [0]) := hnotP3lo 0 (le_refl 0)
        constructor
        · intro hne
          have hch2 : (getS rr.2 (k ++ [0])).children ≠ [] := by
            rw [(hb12.statics (k ++ [0])).2.2.2.2.2.2.1]
            exact hne
          rw [W3.mod _ hnbc hch2, hrr2]
          exact F6 hidx0 hne
        · intro he
          rw [W3.prelim _ hnbc, hrr2]
          exact F7 hidx0 he
      · -- deep facts
        intro j hj
        rw [allKeysChildren] at hj
        rcases List.mem_append.mp hj with hj1 | hj2
        · -- inside child `i`'s subtree
          have hjb : Below (k ++ [i]) j := mem_allKeys_below c (k ++ [i]) j hj1
          have hskc1 : SkAt c (k ++ [i]) s1 := skAt_of_baseOp W1.base hskc
          obtain ⟨⟨nj, hshj⟩, -⟩ := skAt_children_shape c (k ++ [i]) s1
            hskc1 j hj1
          have hjlen : k.length + 1 ≤ j.length := by
            have := below_length hjb
            simp at this
            omega
          obtain ⟨hsepj, hfcj⟩ := F4 j hj1
          rw [hshj, childKeys_length] at hsepj hfcj
          have hchjE : (getS sE j).children = (getS s1 j).children := by
            rw [(hB2E.statics j).2.2.2.2.2.2.1,
              (W2.base.statics j).2.2.2.2.2.2.1]
          have hchild_fr : ∀ m2 : Nat,
              (getS sE (j ++ [m2])).prelim = (getS s1 (j ++ [m2])).prelim ∧
              (getS sE (j ++ [m2])).width = (getS s1 (j ++ [m2])).width := by
            intro m2
            have hlen2 : k.length + 2 ≤ (j ++ [m2]).length := by
              simp
              omega
            have hne2 : (j ++ [m2] : Key) ≠ k ++ [i] := by
              intro hh
              have : (j ++ [m2]).length = (k ++ [i]).length := by rw [hh]
              simp at this
              omega
            have hnbP3 : ¬ ∃ m3, i + 1 ≤ m3 ∧ m3 < (i + 1) + rest.length ∧
                Below (k ++ [m3]) (j ++ [m2]) := by
              rintro ⟨m3, hm3a, -, hm3⟩
              exact sibling_not_below (by omega)
                (below_trans hjb (below_app j [m2])) hm3
            refine ⟨?_, ?_⟩
            · rw [W3.prelim _ hnbP3, W2.prelim _ hne2]
            · rw [(hB2E.statics (j ++ [m2])).2.1,
                (W2.base.statics (j ++ [m2])).2.1]
          have hmod_fr : ∀ m2 : Nat, (getS s1 (j ++ [m2])).children ≠ [] →
              (getS sE (j ++ [m2])).mod = (getS s1 (j ++ [m2])).mod := by
            intro m2 hne
            have hne2 : (j ++ [m2] : Key) ≠ k ++ [i] := by
              intro hh
              have : (j ++ [m2]).length = (k ++ [i]).length := by rw [hh]
              simp at this
              omega
            have hnbP3 : ¬ ∃ m3, i + 1 ≤ m3 ∧ m3 < (i + 1) + rest.length ∧
                Below (k ++ [m3]) (j ++ [m2]) := by
              rintro ⟨m3, hm3a, -, hm3⟩
              exact sibling_not_below (by omega)
                (below_trans hjb (below_app j [m2])) hm3
            rw [W3.mod _ hnbP3 (by
                rw [(W2.base.statics (j ++ [m2])).2.2.2.2.2.2.1]
                exact hne),
              W2.mod _ hne2 hne]
          rw [hchjE, hshj, childKeys_length]
          constructor
          · refine sepOk_congr ?_ hsepj
            intro m2 hm2
            exact hchild_fr m2
          · refine firstChildOk_congr ?_ ?_ ?_ hfcj
            · rw [(hB2E.statics (j ++ [0])).2.2.2.2.2.2.1,
                (W2.base.statics (j ++ [0])).2.2.2.2.2.2.1]
            · intro h2
              exact hmod_fr 0 h2
            · intro h2
              exact (hchild_fr 0).1
        · exact G3r j hj2

end

/-! ## From pointwise separation to the skeleton-recursive
`SiblingRootsAllOk`, and the leftmost-spine minimum -/

mutual

theorem siblingRootsAllOk_of_pointwise (lt : LayoutTree) :
    ∀ (k : Key) (st : St),
    SkAt lt k st →
    (∀ j ∈ allKeys lt k, ∀ nj, (getS st j).children = childKeys j nj →
      SiblingRootsOk st nj j) →
    SiblingRootsAllOk st lt k := by
  cases lt with
  | mk i0 n0 w0 h0 e0 d0 num0 cs =>
      intro k st hsk hpt
      rw [SkAt] at hsk
      obtain ⟨hskc, hskcs⟩ := hsk
      rw [SiblingRootsAllOk]
      constructor
      · exact hpt k (self_mem_allKeys _ k) cs.length hskc
      · refine siblingRootsAllOkChildren_of_pointwise cs k 0 st hskcs ?_
        intro j hj nj hcc
        exact hpt j (by
          rw [allKeys]
          exact List.mem_cons_of_mem _ hj) nj hcc

theorem siblingRootsAllOkChildren_of_pointwise (cs : List LayoutTree) :
    ∀ (k : Key) (i : Nat) (st : St),
    SkAtChildren cs k i st →
    (∀ j ∈ allKeysChildren cs k i, ∀ nj,
      (getS st j).children = childKeys j nj → SiblingRootsOk st nj j) →
    SiblingRootsAllOkChildren st cs k i := by
  cases cs with
  | nil =>
      intro k i st _ _
      rw [SiblingRootsAllOkChildren]
      exact trivial
  | cons c0 rest =>
      intro k i st hsk hpt
      rw [SkAtChildren] at hsk
      rw [SiblingRootsAllOkChildren]
      constructor
      · refine siblingRootsAllOk_of_pointwise c0 (k ++ [i]) st hsk.1 ?_
        intro j hj nj hcc
        exact hpt j (by
          rw [allKeysChildren]
          exact List.mem_append.mpr (Or.inl hj)) nj hcc
      · refine siblingRootsAllOkChildren_of_pointwise rest k (i + 1) st
          hsk.2 ?_
        intro j hj nj hcc
        exact hpt j (by
          rw [allKeysChildren]
          exact List.mem_append.mpr (Or.inr hj)) nj hcc

end

mutual

theorem spine_min (sk : LayoutTree) :
    ∀ (k : Key) (st : St),
    SkAt sk k st →
    (∀ j ∈ allKeys sk k, ∀ c ∈ (getS st j).children,
      (getS st c).x = (getS st c).prelim
        + ((getS st j).x - (getS st j).prelim) + (getS st j).mod) →
    (∀ j ∈ allKeys sk k,
      firstChildOk st j ((getS st j).children).length) →
    (getS st k).x - (getS st k).prelim ≤ 0 →
    ((getS st k).children = [] → (getS st k).prelim ≤ 0) →
    ((getS st k).children ≠ [] → (getS st k).mod ≤ 0) →
    ∃ j ∈ allKeys sk k, (getS st j).x ≤ 0 := by
  cases sk with
  | mk i0 n0 w0 h0 e0 d0 num0 cs =>
      intro k st hsk hrel hfc hE hleaf hmod
      rw [SkAt] at hsk
      obtain ⟨hskc, hskcs⟩ := hsk
      cases cs with
      | nil =>
          refine ⟨k, self_mem_allKeys _ k, ?_⟩
          have hp := hleaf (by rw [hskc]; rfl)
          linarith
      | cons c0 crest =>
          have hn : 0 < (c0 :: crest).length := by simp
          have hchne : (getS st k).children ≠ [] := by
            rw [hskc]
            exact childKeys_ne_nil hn
          have hm := hmod hchne
          have hc0mem : (k ++ [0] : Key) ∈ (getS st k).children := by
            rw [hskc]
            exact mem_childKeys.mpr ⟨0, hn, rfl⟩
          have hrel0 := hrel k (self_mem_allKeys _ k) (k ++ [0]) hc0mem
          have hE0 : (getS st (k ++ [0])).x - (getS st (k ++ [0])).prelim
              ≤ 0 := by
            rw [hrel0]
            linarith
          have hfck := hfc k (self_mem_allKeys _ k)
          rw [hskc, childKeys_length] at hfck
          obtain ⟨hfc1, hfc2⟩ := hfck hn
          obtain ⟨j, hjmem, hjx⟩ := spine_min_children (c0 :: crest) k 0 st
            hskcs
            (fun j hj c hc => hrel j (by
              rw [allKeys]
              exact List.mem_cons_of_mem _ hj) c hc)
            (fun j hj => hfc j (by
              rw [allKeys]
              exact List.mem_cons_of_mem _ hj))
            hE0 hfc2 hfc1 (by simp)
          exact ⟨j, by
            rw [allKeys]
            exact List.mem_cons_of_mem _ hjmem, hjx⟩

theorem spine_min_children (cs : List LayoutTree) :
    ∀ (k : Key) (i : Nat) (st : St),
    SkAtChildren cs k i st →
    (∀ j ∈ allKeysChildren cs k i, ∀ c ∈ (getS st j).children,
      (getS st c).x = (getS st c).prelim
        + ((getS st j).x - (getS st j).prelim) + (getS st j).mod) →
    (∀ j ∈ allKeysChildren cs k i,
      firstChildOk st j ((getS st j).children).length) →
    (getS st (k ++ [i])).x - (getS st (k ++ [i])).prelim ≤ 0 →
    ((getS st (k ++ [i])).children = [] →
      (getS st (k ++ [i])).prelim ≤ 0) →
    ((getS st (k ++ [i])).children ≠ [] →
      (getS st (k ++ [i])).mod ≤ 0) →
    cs ≠ [] →
    ∃ j ∈ allKeysChildren cs k i, (getS st j).x ≤ 0 := by
  cases cs with
  | nil =>
      intro k i st _ _ _ _ _ _ hne
      exact absurd rfl hne
  | cons c0 crest =>
      intro k i st hsk hrel hfc hE hleaf hmod _
      rw [SkAtChildren] at hsk
      obtain ⟨j, hjmem, hjx⟩ := spine_min c0 (k ++ [i]) st hsk.1
        (fun j hj c hc => hrel j (by
          rw [allKeysChildren]
          exact List.mem_append.mpr (Or.inl hj)) c hc)
        (fun j hj => hfc j (by
          rw [allKeysChildren]
          exact List.mem_append.mpr (Or.inl hj)))
        hE hleaf hmod
      exact ⟨j, by
        rw [allKeysChildren]
        exact List.mem_append.mpr (Or.inl hjmem), hjx⟩

end

/-- The root sibling list of the layout call: the root's own key is at
index `0`. -/
theorem jsIndexOf_root : jsIndexOf [[]] ([] : Key) = 0 := by
  decide

/-- Bridge: pointwise adjacent x-separation (with nonnegative widths)
lifts to the recursive sibling-root-separation predicate. -/
theorem siblingRoots_of_sep (lt : LayoutTree) (st : St)
    (hsk : SkAt lt [] st)
    (hw : ∀ j, 0 ≤ (getS st j).width)
    (hadj : ∀ j ∈ allKeys lt [], ∀ nj,
      (getS st j).children = childKeys j nj →
      ∀ m, 1 ≤ m → m < nj →
      (getS st (j ++ [m - 1])).x + (getS st (j ++ [m - 1])).width
        + NODE_GAP_X ≤ (getS st (j ++ [m])).x) :
    SiblingRootsAllOk st lt [] := by
  refine siblingRootsAllOk_of_pointwise lt [] st hsk ?_
  intro j hj nj hch
  intro m1 m2 hlt hm2
  exact sep_chain (fun m => (getS st (j ++ [m])).x)
    (fun m => (getS st (j ++ [m])).width) NODE_GAP_X
    (by rw [NODE_GAP_X]; norm_num) nj
    (fun m _ => hw (j ++ [m]))
    (fun m h1 h2 => hadj j hj nj hch m h1 h2)
    m2 hm2 m1 hlt

/-! ## Assembly: sibling-root separation and `min x = 0` for every layout -/

theorem runLayout_sep_min (lt : LayoutTree) (hg : GoodTree lt) :
    SiblingRootsAllOk (runLayout lt) lt [] ∧
    minXOf lt (runLayout lt) = 0 := by
  have hkeys0 : ∀ j ∈ allKeys lt [], j ∈ keysOf (initList lt []) := by
    intro j hj
    rw [keysOf_initList]
    exact hj
  obtain ⟨W1, M1⟩ := fw_master (allKeys lt []).length lt [] [[]]
    (initList lt []) (skAt_initList lt []) hkeys0
    (fun j _ _ => initList_mod_zero lt j)
  obtain ⟨Fsh, Fchg, F3, F6, F7, F4⟩ := fw_sep (allKeys lt []).length lt []
    [[]] (initList lt []) (skAt_initList lt []) hkeys0
    (fun j _ _ => initList_mod_zero lt j)
    (fun j _ => ⟨initList_shift_zero lt j, initList_change_zero lt j⟩)
    (numA_initList lt hg)
    (by
      intro h
      rw [jsIndexOf_root] at h
      exact absurd h (lt_irrefl 0))
  simp only [runLayout, layoutTree]
  obtain ⟨s1, hs1⟩ : ∃ s1, firstWalk (allKeys lt []).length lt [] [[]]
      (initList lt []) = s1 := ⟨_, rfl⟩
  rw [hs1] at W1 M1 Fsh Fchg F3 F6 F7 F4 ⊢
  have hsk1 : SkAt lt [] s1 := skAt_of_baseOp W1.base (skAt_initList lt [])
  have hkeys1 : ∀ j ∈ allKeys lt [], j ∈ keysOf s1 := by
    intro j hj
    rw [W1.base.keys]
    exact hkeys0 j hj
  obtain ⟨Sb, Spm, Sxf, Sxv, Srel⟩ := sw_master lt [] 0 0 s1 hsk1 hkeys1
  obtain ⟨s2, hs2⟩ : ∃ s2, secondWalk lt [] 0 0 s1 = s2 := ⟨_, rfl⟩
  rw [hs2] at Sb Spm Sxf Sxv Srel ⊢
  have hsk2 : SkAt lt [] s2 := skAt_of_baseOp Sb hsk1
  have hkeys2 : ∀ j ∈ allKeys lt [], j ∈ keysOf s2 := by
    intro j hj
    rw [Sb.keys]
    exact hkeys1 j hj
  have hch21 : ∀ j, (getS s2 j).children = (getS s1 j).children :=
    fun j => (Sb.statics j).2.2.2.2.2.2.1
  have hw21 : ∀ j, (getS s2 j).width = (getS s1 j).width :=
    fun j => (Sb.statics j).2.1
  have hch10 : ∀ j, (getS s1 j).children = (getS (initList lt []) j).children :=
    fun j => (W1.base.statics j).2.2.2.2.2.2.1
  have hw0 : ∀ j, 0 ≤ (getS s2 j).width := by
    intro j
    rw [hw21 j, (W1.base.statics j).2.1]
    exact initList_width_nonneg lt hg j
  -- the adjacent x-separation at every node, in the pre-normalization state
  have hxadj2 : ∀ j ∈ allKeys lt [], ∀ nj,
      (getS s2 j).children = childKeys j nj →
      ∀ m, 1 ≤ m → m < nj →
      (getS s2 (j ++ [m - 1])).x + (getS s2 (j ++ [m - 1])).width
        + NODE_GAP_X ≤ (getS s2 (j ++ [m])).x := by
    intro j hj nj hcc m h1 h2
    have hcc1 : (getS s1 j).children = childKeys j nj := by
      rw [← hch21 j]
      exact hcc
    have hmmem : (j ++ [m] : Key) ∈ (getS s1 j).children := by
      rw [hcc1]
      exact mem_childKeys.mpr ⟨m, h2, rfl⟩
    have hm1mem : (j ++ [m - 1] : Key) ∈ (getS s1 j).children := by
      rw [hcc1]
      exact mem_childKeys.mpr ⟨m - 1, by omega, rfl⟩
    have hrm := Srel j hj _ hmmem
    have hrm1 := Srel j hj _ hm1mem
    obtain ⟨hsepj, -⟩ := F4 j hj
    rw [hcc1, childKeys_length] at hsepj
    have hs := hsepj m h1 h2
    rw [hw21 (j ++ [m - 1])]
    linarith
  -- first-child facts and the child x-relation in the pre-norm state
  have hrel2 : ∀ j ∈ allKeys lt [], ∀ c ∈ (getS s2 j).children,
      (getS s2 c).x = (getS s2 c).prelim
        + ((getS s2 j).x - (getS s2 j).prelim) + (getS s2 j).mod := by
    intro j hj c hc
    have hc1 : c ∈ (getS s1 j).children := by
      rw [← hch21 j]
      exact hc
    have hr := Srel j hj c hc1
    rw [(Spm c).1, (Spm j).1, (Spm j).2]
    exact hr
  have hfc2 : ∀ j ∈ allKeys lt [],
      firstChildOk s2 j ((getS s2 j).children).length := by
    intro j hj
    obtain ⟨-, hfcj⟩ := F4 j hj
    rw [hch21 j]
    refine firstChildOk_congr ?_ ?_ ?_ hfcj
    · exact hch21 (j ++ [0])
    · intro h2
      exact (Spm (j ++ [0])).2
    · intro h2
      exact (Spm (j ++ [0])).1
  -- root spine start facts
  have hE0 : (getS s2 ([] : Key)).x - (getS s2 ([] : Key)).prelim ≤ 0 := by
    have hx : (getS s2 ([] : Key)).x = (getS s1 ([] : Key)).prelim + 0 := Sxv
    have hp : (getS s2 ([] : Key)).prelim = (getS s1 ([] : Key)).prelim :=
      (Spm ([] : Key)).1
    linarith
  have hjs0 : jsIndexOf [[]] ([] : Key) ≤ 0 := le_of_eq jsIndexOf_root
  have hleaf0 : (getS s2 ([] : Key)).children = [] →
      (getS s2 ([] : Key)).prelim ≤ 0 := by
    intro h
    have h0 : (getS (initList lt []) ([] : Key)).children = [] := by
      rw [← hch10 ([] : Key), ← hch21 ([] : Key)]
      exact h
    have hf := F7 hjs0 h0
    have hp := (Spm ([] : Key)).1
    linarith
  have hmod0 : (getS s2 ([] : Key)).children ≠ [] →
      (getS s2 ([] : Key)).mod ≤ 0 := by
    intro h
    have h0 : (getS (initList lt []) ([] : Key)).children ≠ [] := by
      rw [← hch10 ([] : Key), ← hch21 ([] : Key)]
      exact h
    have hf := F6 hjs0 h0
    have hp := (Spm ([] : Key)).2
    linarith
  obtain ⟨j0, hj0, hx0⟩ := spine_min lt [] s2 hsk2 hrel2 hfc2 hE0 hleaf0 hmod0
  obtain ⟨off, hoff⟩ : ∃ off, (allKeys lt []).foldl
      (fun acc k => min acc (getS s2 k).x) ((getS s2 ([] : Key)).x) = off :=
    ⟨_, rfl⟩
  rw [hoff]
  have hoffle : off ≤ 0 := by
    rw [← hoff]
    exact (foldMin_le_mem (fun k2 => (getS s2 k2).x) (allKeys lt []) _ j0
      hj0).trans hx0
  by_cases hoffneg : off < 0
  · rw [if_pos hoffneg]
    obtain ⟨stN, hstN⟩ : ∃ stN, (allKeys lt []).foldl
        (fun acc k2 => updS acc k2 (fun ns => { ns with x := ns.x - off }))
        s2 = stN := ⟨_, rfl⟩
    rw [hstN]
    have hxall : ∀ j ∈ allKeys lt [], (getS stN j).x
        = (getS s2 j).x - off := by
      intro j hj
      rw [← hstN]
      exact normFold_x (allKeys lt []) (allKeys_nodup lt []) off s2 hkeys2 j hj
    have hbN : BaseOp s2 stN := by
      rw [← hstN]
      exact baseOp_normFold _ _ _
    constructor
    · refine siblingRoots_of_sep lt stN (skAt_of_baseOp hbN hsk2) ?_ ?_
      · intro j
        rw [(hbN.statics j).2.1]
        exact hw0 j
      · intro j hj nj hcc m h1 h2
        have hcc2 : (getS s2 j).children = childKeys j nj := by
          rw [← (hbN.statics j).2.2.2.2.2.2.1]
          exact hcc
        obtain ⟨-, hclose⟩ := skAt_children_shape lt [] s2 hsk2 j hj
        have hmmem : (j ++ [m] : Key) ∈ allKeys lt [] := hclose _ (by
          rw [hcc2]
          exact mem_childKeys.mpr ⟨m, h2, rfl⟩)
        have hm1mem : (j ++ [m - 1] : Key) ∈ allKeys lt [] := hclose _ (by
          rw [hcc2]
          exact mem_childKeys.mpr ⟨m - 1, by omega, rfl⟩)
        rw [hxall _ hmmem, hxall _ hm1mem,
          (hbN.statics (j ++ [m - 1])).2.1]
        have hstep := hxadj2 j hj nj hcc2 m h1 h2
        linarith
    · rw [minXOf]
      have hinit : (getS stN ([] : Key)).x = (getS s2 ([] : Key)).x - off :=
        hxall ([] : Key) (self_mem_allKeys lt [])
      have hfold : ∀ (l : List Key), (∀ j ∈ l, (getS stN j).x
            = (getS s2 j).x - off) → ∀ (a : ℚ),
          l.foldl (fun acc k2 => min acc (getS stN k2).x) (a - off)
            = l.foldl (fun acc k2 => min acc (getS s2 k2).x) a - off := by
        intro l
        induction l with
        | nil => intro _ a; rfl
        | cons c2 rest2 ih =>
            intro hh a
            rw [List.foldl_cons, List.foldl_cons,
              hh c2 (List.mem_cons_self c2 rest2), min_sub_sub_right]
            exact ih (fun j hj => hh j (List.mem_cons_of_mem c2 hj)) _
      rw [hinit, hfold (allKeys lt []) hxall _, hoff]
      ring
  · rw [if_neg hoffneg]
    have hoffeq : off = 0 := le_antisymm hoffle (not_lt.mp hoffneg)
    constructor
    · refine siblingRoots_of_sep lt s2 hsk2 hw0 ?_
      intro j hj nj hcc m h1 h2
      exact hxadj2 j hj nj hcc m h1 h2
    · rw [minXOf, hoff, hoffeq]

/-- **C10.** The layout pass (`firstWalk`, `secondWalk`, normalization)
writes only the positional fields `x`, `y` and the scratch fields
(`prelim`, `mod`, `thread`, `ancestor`, `change`, `shift`): for every
source tree, expanded set and node key, the node's `id`, `width`,
`height`, `expanded` flag, `depth`, sibling `number`, children list and
source-child count after `layoutTree` are exactly those produced by
`buildLayoutTree`, and the set of node keys is unchanged. -/
theorem c10_layout_writes_only_positions (measure : String → ℚ)
    (ast : AstNode) (s : List String) (j : Key) :
    keysOf (layoutOf measure ast s)
        = keysOf (initList (buildLayoutTree measure ast "root" s 0) []) ∧
    StaticEqAt (initList (buildLayoutTree measure ast "root" s 0) [])
      (layoutOf measure ast s) j := by
  have h := baseOp_layoutTree (buildLayoutTree measure ast "root" s 0)
    (initList (buildLayoutTree measure ast "root" s 0) [])
  exact ⟨h.keys, h.statics j⟩

/-- Witness for the amended C8: tapping `hitB` (which has 2 source
children) fires exactly one toggle callback on mouse release. -/
theorem c8_tap_callbacks_witness :
    pointerUpEmits [hitB] initCamera 5 5 false = [CB.toggle "b"] ∧
    touchEndEmits [hitB] initCamera 5 5 false =
      CB.hover "b" :: [CB.toggle "b"] := by
  have hh : hitTest [hitB] ((5 - initCamera.x) / initCamera.zoom)
      ((5 - initCamera.y) / initCamera.zoom) = some hitB := by
    norm_num [hitTest, hitTestRev, rectContains, hitB, initCamera]
  have h := ((c8_tap_callbacks [hitB] initCamera 5 5).2.1 hitB hh)
  refine ⟨?_, ?_⟩
  · rw [h.1]; norm_num [hitB]
  · rw [h.2]; norm_num [hitB]

/-- **C1 (amended).** After layout, the sibling NODE BOXES (not the whole
subtree extents) never overlap: in every layout produced by
`buildLayoutTree` followed by `layoutTree`, any two distinct siblings
`i < j` of any node satisfy `x_i + width_i + NODE_GAP_X ≤ x_j` — the boxes
are disjoint and separated by at least the fixed 24-pixel gap.  (The
original claim about whole-subtree extents is refuted by
`c1_counterexample`: a deep, wide descendant of one sibling may overlap
the box of the next sibling.) -/
theorem c1_sibling_roots_separated (measure : String → ℚ)
    (ast : AstNode) (s : List String) :
    SiblingRootsAllOk (layoutOf measure ast s)
      (buildLayoutTree measure ast "root" s 0) [] :=
  (runLayout_sep_min (buildLayoutTree measure ast "root" s 0)
    (goodTree_build measure ast "root" s 0)).1

/-- **C3.** After `layoutTree` completes (including its translation
normalization), the minimum `x` coordinate over all visible nodes of the
layout equals exactly `0`, for every source tree, measure and expanded
set: before normalization the leftmost first-child spine always reaches a
node with `x ≤ 0`, so the minimum is `≤ 0`; the final translation by
`-min` (applied exactly when the minimum is negative) makes it exactly
`0`. -/
theorem c3_min_x_zero (measure : String → ℚ) (ast : AstNode)
    (s : List String) :
    minXOf (buildLayoutTree measure ast "root" s 0)
      (layoutOf measure ast s) = 0 :=
  (runLayout_sep_min (buildLayoutTree measure ast "root" s 0)
    (goodTree_build measure ast "root" s 0)).2

end Treehouse
